import Mathlib

/-!
Verification development for the Note-App repository.

Strings are modelled as `List Char`.  The markdown <-> document converter of
the application is realized by external libraries (marked, turndown, Tiptap);
its contract is modelled here from the specification (section 4.2), while the
code that lives in the repository itself (the Enter key handler, the content
synchronization effect, the wiki-link turndown rule, the graph and backlink
extraction, and the folder move handler) is embedded from the source.
-/

namespace NoteApp

/-- Whitespace characters used to model the JavaScript regex class
backslash-s on single-line inputs (newlines are handled separately by the
line splitter). -/
def wsChar (c : Char) : Bool :=
  c == ' ' || c == '\t' || c == '\r'

/-- Lower-casing of a string, modelling `String.prototype.toLowerCase`. -/
def lowerL (s : List Char) : List Char :=
  s.map Char.toLower

/-- Trimming of surrounding whitespace, modelling `String.prototype.trim`. -/
def trimL (s : List Char) : List Char :=
  ((s.dropWhile wsChar).reverse.dropWhile wsChar).reverse

/-- Substring containment, modelling `String.prototype.includes`. -/
def includesL (s pat : List Char) : Bool :=
  match s with
  | [] => pat.isEmpty
  | c :: t => pat.isPrefixOf (c :: t) || includesL t pat

/-- Split a string at each newline character; always returns at least one
line and lines never contain a newline. -/
def splitLines : List Char → List (List Char)
  | [] => [[]]
  | c :: t =>
    let r := splitLines t
    if c = '\n' then [] :: r else (c :: r.headI) :: r.tail

/-- Join lines with newline characters (inverse of `splitLines`). -/
def joinLines : List (List Char) → List Char
  | [] => []
  | [l] => l
  | l :: l2 :: ls => l ++ '\n' :: joinLines (l2 :: ls)

theorem splitLines_cons (c : Char) (t : List Char) :
    splitLines (c :: t) =
      if c = '\n' then [] :: splitLines t
      else (c :: (splitLines t).headI) :: (splitLines t).tail := rfl

theorem joinLines_cons (l : List Char) (ls : List (List Char)) (h : ls ≠ []) :
    joinLines (l :: ls) = l ++ '\n' :: joinLines ls := by
  cases ls with
  | nil => exact absurd rfl h
  | cons l2 ls2 => rfl

theorem splitLines_ne_nil (s : List Char) : splitLines s ≠ [] := by
  cases s with
  | nil => simp [splitLines]
  | cons c t =>
    rw [splitLines_cons]
    split <;> simp

theorem noNL_splitLines (s : List Char) : ∀ l ∈ splitLines s, '\n' ∉ l := by
  induction s with
  | nil => intro l hl; simp [splitLines] at hl; simp [hl]
  | cons c t ih =>
    intro l hl
    rw [splitLines_cons] at hl
    by_cases hc : c = '\n'
    · rw [if_pos hc] at hl
      rcases List.mem_cons.mp hl with h | h
      · simp [h]
      · exact ih l h
    · rw [if_neg hc] at hl
      cases hr : splitLines t with
      | nil => exact absurd hr (splitLines_ne_nil t)
      | cons x xs =>
        rw [hr] at hl
        simp only [List.headI, List.tail] at hl
        rcases List.mem_cons.mp hl with h | h
        · subst h
          intro hmem
          rcases List.mem_cons.mp hmem with h | h
          · exact hc h.symm
          · exact ih x (hr ▸ List.mem_cons_self _ _) h
        · exact ih l (hr ▸ List.mem_cons_of_mem _ h)

theorem joinLines_splitLines (s : List Char) : joinLines (splitLines s) = s := by
  induction s with
  | nil => simp [splitLines, joinLines]
  | cons c t ih =>
    rw [splitLines_cons]
    by_cases hc : c = '\n'
    · rw [if_pos hc, joinLines_cons _ _ (splitLines_ne_nil t), ih, hc]
      rfl
    · rw [if_neg hc]
      cases hr : splitLines t with
      | nil => exact absurd hr (splitLines_ne_nil t)
      | cons x xs =>
        rw [hr] at ih
        simp only [List.headI, List.tail]
        cases xs with
        | nil =>
          simp only [joinLines] at ih ⊢
          rw [ih]
        | cons y ys =>
          rw [joinLines_cons _ _ (by simp)] at ih
          rw [joinLines_cons _ _ (by simp), List.cons_append, ih]

theorem splitLines_joinLines (ls : List (List Char)) (hne : ls ≠ [])
    (hnl : ∀ l ∈ ls, '\n' ∉ l) : splitLines (joinLines ls) = ls := by
  induction ls with
  | nil => exact absurd rfl hne
  | cons l rest ih =>
    cases rest with
    | nil =>
      simp only [joinLines]
      have hl : '\n' ∉ l := hnl l (List.mem_cons_self _ _)
      clear ih hne hnl
      induction l with
      | nil => simp [splitLines]
      | cons c t iht =>
        have hc : c ≠ '\n' := fun h => hl (h ▸ List.mem_cons_self _ _)
        have ht := iht (fun h => hl (List.mem_cons_of_mem _ h))
        rw [splitLines_cons, if_neg hc, ht]
        rfl
    | cons l2 rest2 =>
      rw [joinLines_cons _ _ (by simp)]
      have hl : '\n' ∉ l := hnl l (List.mem_cons_self _ _)
      have hrest : splitLines (joinLines (l2 :: rest2)) = l2 :: rest2 :=
        ih (by simp) (fun x hx => hnl x (List.mem_cons_of_mem _ hx))
      clear ih hne hnl
      induction l with
      | nil =>
        rw [List.nil_append, splitLines_cons, if_pos rfl, hrest]
      | cons c t iht =>
        have hc : c ≠ '\n' := fun h => hl (h ▸ List.mem_cons_self _ _)
        have ht := iht (fun h => hl (List.mem_cons_of_mem _ h))
        rw [List.cons_append, splitLines_cons, if_neg hc, ht]
        rfl

/-! ### Inline model and the wiki-link recognizer

The recognizer models the lazy regex `\[\[(.*?)\]\]` used both by the
editor's wiki-link pre-pass (TiptapEditor content sync effect) and by the
graph extraction in `generateGraphData`: a match starts at the leftmost
`[[` from which a closing `]]` is reachable without crossing a newline
(the regex dot does not match newlines), and the captured group extends to
the first such `]]`. -/

/-- Split a string at the first occurrence of `]]`. -/
def splitOnRR : List Char → Option (List Char × List Char)
  | [] => none
  | [_] => none
  | c :: d :: t =>
    if c = ']' ∧ d = ']' then some ([], t)
    else (splitOnRR (d :: t)).map (fun p => (c :: p.1, p.2))

/-- Attempt a wiki-link match anchored at the start of the string: the
string must begin with `[[` and a `]]` must follow with no newline in
between (lazy group, dot excludes newlines). -/
def tryWikiHere : List Char → Option (List Char × List Char)
  | c :: d :: t =>
    if c = '[' ∧ d = '[' then
      match splitOnRR t with
      | some (inner, post) => if '\n' ∈ inner then none else some (inner, post)
      | none => none
    else none
  | _ => none

/-- Find the leftmost wiki-link match, returning the text before the match,
the captured inner group and the text after the match. -/
def findWiki : List Char → Option (List Char × List Char × List Char)
  | [] => none
  | c :: t =>
    match tryWikiHere (c :: t) with
    | some (inner, post) => some ([], inner, post)
    | none => (findWiki t).map (fun r => (c :: r.1, r.2.1, r.2.2))

theorem splitOnRR_cons2 (c d : Char) (t : List Char) :
    splitOnRR (c :: d :: t) =
      if c = ']' ∧ d = ']' then some ([], t)
      else (splitOnRR (d :: t)).map (fun p => (c :: p.1, p.2)) := rfl

theorem splitOnRR_decomp (t a b : List Char) (h : splitOnRR t = some (a, b)) :
    t = a ++ ']' :: ']' :: b := by
  induction t generalizing a with
  | nil => simp [splitOnRR] at h
  | cons c u ih =>
    cases u with
    | nil => simp [splitOnRR] at h
    | cons d t2 =>
      rw [splitOnRR_cons2] at h
      by_cases hcd : c = ']' ∧ d = ']'
      · rw [if_pos hcd] at h
        injection h with h
        injection h with h1 h2
        subst h1; subst h2
        rw [hcd.1, hcd.2]
        rfl
      · rw [if_neg hcd, Option.map_eq_some'] at h
        obtain ⟨⟨p1, p2⟩, hp, hpe⟩ := h
        injection hpe with h1 h2
        subst h2
        have hd := ih (a := p1) hp
        rw [← h1, List.cons_append, ← hd]

theorem tryWikiHere_cons2 (c d : Char) (t : List Char) :
    tryWikiHere (c :: d :: t) =
      if c = '[' ∧ d = '[' then
        match splitOnRR t with
        | some (inner, post) => if '\n' ∈ inner then none else some (inner, post)
        | none => none
      else none := rfl

theorem tryWikiHere_decomp (s inner post : List Char)
    (h : tryWikiHere s = some (inner, post)) :
    s = '[' :: '[' :: (inner ++ ']' :: ']' :: post) := by
  match s with
  | [] => simp [tryWikiHere] at h
  | [c] => simp [tryWikiHere] at h
  | c :: d :: t =>
    rw [tryWikiHere_cons2] at h
    by_cases hcd : c = '[' ∧ d = '['
    · rw [if_pos hcd] at h
      cases hsplit : splitOnRR t with
      | none =>
        rw [hsplit] at h
        exact absurd h (by simp)
      | some ab =>
        obtain ⟨a, b⟩ := ab
        rw [hsplit] at h
        have h2 : (if '\n' ∈ a then none else some (a, b)) = some (inner, post) := h
        by_cases hnl : '\n' ∈ a
        · rw [if_pos hnl] at h2
          exact absurd h2 (by simp)
        · rw [if_neg hnl] at h2
          injection h2 with h2
          injection h2 with ha hb
          rw [hcd.1, hcd.2, splitOnRR_decomp t a b hsplit, ha, hb]
    · rw [if_neg hcd] at h
      exact absurd h (by simp)

theorem findWiki_cons (c : Char) (t : List Char) :
    findWiki (c :: t) =
      match tryWikiHere (c :: t) with
      | some (inner, post) => some ([], inner, post)
      | none => (findWiki t).map (fun r => (c :: r.1, r.2.1, r.2.2)) := rfl

theorem findWiki_decomp (s p i q : List Char) (h : findWiki s = some (p, i, q)) :
    s = p ++ '[' :: '[' :: (i ++ ']' :: ']' :: q) := by
  induction s generalizing p i q with
  | nil => simp [findWiki] at h
  | cons c t ih =>
    rw [findWiki_cons] at h
    cases htry : tryWikiHere (c :: t) with
    | some ip =>
      obtain ⟨inner, post⟩ := ip
      rw [htry] at h
      have h2 : some (([] : List Char), inner, post) = some (p, i, q) := h
      injection h2 with h2
      injection h2 with h1 h3
      injection h3 with h3a h3b
      subst h1; subst h3a; subst h3b
      simpa using tryWikiHere_decomp _ _ _ htry
    | none =>
      rw [htry] at h
      have h2 : (findWiki t).map (fun r => (c :: r.1, r.2.1, r.2.2)) = some (p, i, q) := h
      rw [Option.map_eq_some'] at h2
      obtain ⟨⟨r1, r2, r3⟩, hr, hre⟩ := h2
      injection hre with h1 h3
      injection h3 with h3a h3b
      subst h3a; subst h3b
      rw [← h1]
      have := ih r1 r2 r3 hr
      rw [List.cons_append, ← this]

theorem findWiki_post_lt (s p i q : List Char) (h : findWiki s = some (p, i, q)) :
    q.length < s.length := by
  have := findWiki_decomp s p i q h
  subst this
  simp
  omega

/-! ### Generic first-occurrence splitters -/

/-- Split a string at the first occurrence of the single character `x`. -/
def splitOnChar (x : Char) : List Char → Option (List Char × List Char)
  | [] => none
  | c :: t =>
    if c = x then some ([], t)
    else (splitOnChar x t).map (fun p => (c :: p.1, p.2))

/-- Split a string at the first occurrence of the two-character run `xx`. -/
def splitOnPair (x : Char) : List Char → Option (List Char × List Char)
  | [] => none
  | [_] => none
  | c :: d :: t =>
    if c = x ∧ d = x then some ([], t)
    else (splitOnPair x (d :: t)).map (fun p => (c :: p.1, p.2))

theorem splitOnChar_cons (x c : Char) (t : List Char) :
    splitOnChar x (c :: t) =
      if c = x then some ([], t)
      else (splitOnChar x t).map (fun p => (c :: p.1, p.2)) := rfl

theorem splitOnChar_decomp (x : Char) : ∀ (t a b : List Char),
    splitOnChar x t = some (a, b) → t = a ++ x :: b ∧ x ∉ a := by
  intro t
  induction t with
  | nil => intro a b h; simp [splitOnChar] at h
  | cons c u ih =>
    intro a b h
    rw [splitOnChar_cons] at h
    by_cases hc : c = x
    · rw [if_pos hc] at h
      injection h with h
      injection h with h1 h2
      subst h1; subst h2; subst hc
      simp
    · rw [if_neg hc, Option.map_eq_some'] at h
      obtain ⟨⟨p1, p2⟩, hp, hpe⟩ := h
      injection hpe with h1 h2
      subst h2
      obtain ⟨hd, hm⟩ := ih p1 p2 hp
      subst hd
      refine ⟨by rw [← h1]; rfl, ?_⟩
      rw [← h1]
      intro hmem
      rcases List.mem_cons.mp hmem with he | he
      · exact hc he.symm
      · exact hm he

theorem splitOnChar_append (x : Char) : ∀ (a b : List Char), x ∉ a →
    splitOnChar x (a ++ x :: b) = some (a, b) := by
  intro a
  induction a with
  | nil => intro b _; simp [splitOnChar_cons]
  | cons c a ih =>
    intro b hx
    have hc : c ≠ x := fun h => hx (by rw [h]; exact List.mem_cons_self _ _)
    rw [List.cons_append, splitOnChar_cons, if_neg hc,
      ih b (fun h => hx (List.mem_cons_of_mem _ h))]
    rfl

theorem splitOnPair_cons2 (x c d : Char) (t : List Char) :
    splitOnPair x (c :: d :: t) =
      if c = x ∧ d = x then some ([], t)
      else (splitOnPair x (d :: t)).map (fun p => (c :: p.1, p.2)) := rfl

theorem splitOnPair_decomp (x : Char) : ∀ (t a b : List Char),
    splitOnPair x t = some (a, b) →
    t = a ++ x :: x :: b ∧ splitOnPair x a = none ∧ a.getLast? ≠ some x := by
  intro t
  induction t with
  | nil => intro a b h; simp [splitOnPair] at h
  | cons c u ih =>
    intro a b h
    cases u with
    | nil => simp [splitOnPair] at h
    | cons d t2 =>
      rw [splitOnPair_cons2] at h
      by_cases hcd : c = x ∧ d = x
      · rw [if_pos hcd] at h
        injection h with h
        injection h with h1 h2
        subst h1; subst h2
        rw [hcd.1, hcd.2]
        exact ⟨rfl, rfl, by simp⟩
      · rw [if_neg hcd, Option.map_eq_some'] at h
        obtain ⟨⟨p1, p2⟩, hp, hpe⟩ := h
        injection hpe with h1 h2
        subst h2
        obtain ⟨hd, hnone, hlast⟩ := ih p1 p2 hp
        subst h1
        refine ⟨by rw [List.cons_append, ← hd], ?_, ?_⟩
        · cases p1 with
          | nil =>
            have hdx : d = x := by
              have h3 : d :: t2 = x :: x :: p2 := by simpa using hd
              exact ((List.cons.injEq _ _ _ _).mp h3).1
            have hcx : c ≠ x := fun hcc => hcd ⟨hcc, hdx⟩
            rfl
          | cons e p1' =>
            have hde : e = d := by
              have h3 : e :: (p1' ++ x :: x :: p2) = d :: t2 := by
                simpa using hd.symm
              exact ((List.cons.injEq _ _ _ _).mp h3).1
            subst hde
            rw [splitOnPair_cons2, if_neg hcd, hnone]
            rfl
        · cases p1 with
          | nil =>
            have hdx : d = x := by
              have h3 : d :: t2 = x :: x :: p2 := by simpa using hd
              exact ((List.cons.injEq _ _ _ _).mp h3).1
            have hcx : c ≠ x := fun hcc => hcd ⟨hcc, hdx⟩
            simpa using hcx
          | cons e p1' =>
            rw [List.getLast?_cons_cons]
            exact hlast

theorem splitOnPair_append (x : Char) : ∀ (a b : List Char),
    splitOnPair x a = none → a.getLast? ≠ some x →
    splitOnPair x (a ++ x :: x :: b) = some (a, b) := by
  intro a
  induction a with
  | nil => intro b _ _; simp [splitOnPair_cons2]
  | cons c a ih =>
    intro b hnone hlast
    cases a with
    | nil =>
      have hc : c ≠ x := by simpa using hlast
      show splitOnPair x (c :: x :: x :: b) = some ([c], b)
      rw [splitOnPair_cons2, if_neg (fun h => hc h.1), splitOnPair_cons2,
        if_pos ⟨rfl, rfl⟩]
      rfl
    | cons d a' =>
      rw [splitOnPair_cons2] at hnone
      by_cases hcd : c = x ∧ d = x
      · rw [if_pos hcd] at hnone
        exact absurd hnone (by simp)
      · rw [if_neg hcd] at hnone
        have hrec : splitOnPair x (d :: a') = none := by
          cases hs : splitOnPair x (d :: a') with
          | none => rfl
          | some p => rw [hs] at hnone; exact absurd hnone (by simp)
        have hlast2 : (d :: a').getLast? ≠ some x := by
          rwa [List.getLast?_cons_cons] at hlast
        show splitOnPair x (c :: d :: (a' ++ x :: x :: b)) = some (c :: d :: a', b)
        rw [splitOnPair_cons2, if_neg hcd,
          show d :: (a' ++ x :: x :: b) = (d :: a') ++ x :: x :: b from rfl,
          ih b hrec hlast2]
        rfl

theorem splitOnRR_eq_pair : ∀ t : List Char, splitOnRR t = splitOnPair ']' t := by
  intro t
  induction t with
  | nil => rfl
  | cons c u ih =>
    cases u with
    | nil => rfl
    | cons d t2 =>
      rw [splitOnRR_cons2, splitOnPair_cons2]
      by_cases hcd : c = ']' ∧ d = ']'
      · rw [if_pos hcd, if_pos hcd]
      · rw [if_neg hcd, if_neg hcd, ih]

/-! ### Inline runs

Modelled from the spec (section 3 and 4.2): a block's content is a flat
sequence of inline runs — plain text, wiki-link entities, bold, italic,
strikethrough, inline code, generic links and images.  The scanner
normalizes the two emphasis spellings (`__`/`**` to bold, `_`/`*` to
italic); the renderer emits the canonical `**`/`*` forms and escapes
markdown-special characters inside plain text, as turndown does. -/

/-- An inline run of the structured document. -/
inductive Inline where
  | text (s : List Char)
  | wiki (inner : List Char)
  | bold (s : List Char)
  | italic (s : List Char)
  | strike (s : List Char)
  | codeSpan (s : List Char)
  | link (label : List Char) (href : List Char)
  | image (alt : List Char) (src : List Char)
deriving DecidableEq

/-- The markdown-special characters escaped inside plain text by the
serializer (and unescaped by the parser). -/
def isEsc (c : Char) : Bool :=
  c == '\\' || c == '[' || c == '`' || c == '*' || c == '_' || c == '~'

/-- Inline code span anchored here: a backtick, content up to the next
backtick. -/
def tryCodeHere : List Char → Option (Inline × List Char)
  | c :: t =>
    if c = '`' then (splitOnChar '`' t).map (fun p => (Inline.codeSpan p.1, p.2))
    else none
  | _ => none

/-- Double-delimiter emphasis anchored here: `xx`, content up to the next
`xx`. -/
def tryPair (x : Char) (mk : List Char → Inline) :
    List Char → Option (Inline × List Char)
  | c :: d :: t =>
    if c = x ∧ d = x then (splitOnPair x t).map (fun p => (mk p.1, p.2))
    else none
  | _ => none

/-- Bold written with underscores, `__content__`; it normalizes to the
star form, so the content must itself be safe to re-delimit with `**`. -/
def tryBoldUnder : List Char → Option (Inline × List Char)
  | c :: d :: t =>
    if c = '_' ∧ d = '_' then
      match splitOnPair '_' t with
      | some (content, post) =>
        if splitOnPair '*' content = none ∧ content.getLast? ≠ some '*' then
          some (Inline.bold content, post)
        else none
      | none => none
    else none
  | _ => none

/-- Italic written with stars, `*content*` (nonempty content). -/
def tryItalicStar : List Char → Option (Inline × List Char)
  | c :: t =>
    if c = '*' then
      match splitOnChar '*' t with
      | some (content, post) =>
        if content ≠ [] then some (Inline.italic content, post) else none
      | none => none
    else none
  | _ => none

/-- Italic written with underscores, `_content_`; it normalizes to the
star form, so the content must be star-free. -/
def tryItalicUnder : List Char → Option (Inline × List Char)
  | c :: t =>
    if c = '_' then
      match splitOnChar '_' t with
      | some (content, post) =>
        if content ≠ [] ∧ '*' ∉ content then some (Inline.italic content, post)
        else none
      | none => none
    else none
  | _ => none

/-- The shared tail of the link and image patterns: `text](href)` with the
first `]` closing the text and the first `)` closing the href; the text
must not begin with `[` (a wiki-link opener is not a generic link). -/
def bracketParen (t : List Char) : Option (List Char × List Char × List Char) :=
  match splitOnChar ']' t with
  | some (txt, r) =>
    match r with
    | c :: r2 =>
      if c = '(' then
        match splitOnChar ')' r2 with
        | some (href, post) =>
          if txt.head? ≠ some '[' then some (txt, href, post) else none
        | none => none
      else none
    | [] => none
  | none => none

/-- Generic markdown link anchored here: `[text](href)`. -/
def tryLinkAt : List Char → Option (Inline × List Char)
  | c :: t =>
    if c = '[' then
      (bracketParen t).map (fun p => (Inline.link p.1 p.2.1, p.2.2))
    else none
  | _ => none

/-- Markdown image anchored here: `![alt](src)`. -/
def tryImageAt : List Char → Option (Inline × List Char)
  | c :: d :: t =>
    if c = '!' ∧ d = '[' then
      (bracketParen t).map (fun p => (Inline.image p.1 p.2.1, p.2.2))
    else none
  | _ => none

/-- Left-biased choice of optional results. -/
def oalt {α : Type} : Option α → Option α → Option α
  | some x, _ => some x
  | none, b => b

/-- Attempt every inline pattern anchored at the start of the string; the
wiki-link pre-pass comes first, so `[[...]]` is never read as a generic
link. -/
def tryInlineHere (s : List Char) : Option (Inline × List Char) :=
  oalt ((tryWikiHere s).map (fun p => (Inline.wiki p.1, p.2)))
    (oalt (tryCodeHere s)
    (oalt (tryPair '*' Inline.bold s)
    (oalt (tryBoldUnder s)
    (oalt (tryPair '~' Inline.strike s)
    (oalt (tryItalicStar s)
    (oalt (tryItalicUnder s)
    (oalt (tryLinkAt s) (tryImageAt s))))))))

/-- Prepend a literal character to a run list, merging it into a leading
text run. -/
def consTextChar (c : Char) : List Inline → List Inline
  | Inline.text s :: rest => Inline.text (c :: s) :: rest
  | l => Inline.text [c] :: l

/-- The inline scanner with fuel (any fuel at least the length of the
input gives the scan's true value): at each position, match an inline
pattern, or consume one backslash escape, or take the character as
literal text. -/
def scanInlinesF : Nat → List Char → List Inline
  | 0, _ => []
  | _ + 1, [] => []
  | fuel + 1, c :: t =>
    match tryInlineHere (c :: t) with
    | some (i, post) => i :: scanInlinesF fuel post
    | none =>
      if c = '\\' then
        match t with
        | d :: t2 =>
          if isEsc d then consTextChar d (scanInlinesF fuel t2)
          else consTextChar c (scanInlinesF fuel t)
        | [] => consTextChar c (scanInlinesF fuel t)
      else consTextChar c (scanInlinesF fuel t)

/-- Decompose a single line into inline runs. -/
def scanInlines (s : List Char) : List Inline :=
  scanInlinesF s.length s

/-- Escape one plain-text character for serialization. -/
def escChar (c : Char) : List Char := if isEsc c then ['\\', c] else [c]

/-- Serialize a plain-text run, escaping markdown specials. -/
def renderText (s : List Char) : List Char := (s.map escChar).flatten

/-- Serialize one inline run to its canonical markdown form; wiki-link
entities keep their inner text verbatim (the turndown `wikiLinks` rule of
the source). -/
def renderInline : Inline → List Char
  | Inline.text s => renderText s
  | Inline.wiki i => '[' :: '[' :: (i ++ [']', ']'])
  | Inline.bold c => '*' :: '*' :: (c ++ ['*', '*'])
  | Inline.italic c => '*' :: (c ++ ['*'])
  | Inline.strike c => '~' :: '~' :: (c ++ ['~', '~'])
  | Inline.codeSpan c => '`' :: (c ++ ['`'])
  | Inline.link label href => '[' :: (label ++ ']' :: '(' :: (href ++ [')']))
  | Inline.image alt src => '!' :: '[' :: (alt ++ ']' :: '(' :: (src ++ [')']))

/-- Serialize a list of inline runs. -/
def renderInlines (l : List Inline) : List Char :=
  (l.map renderInline).flatten

theorem renderInlines_nil : renderInlines [] = [] := rfl

theorem renderInlines_cons (i : Inline) (l : List Inline) :
    renderInlines (i :: l) = renderInline i ++ renderInlines l := by
  simp [renderInlines]

theorem renderText_cons (c : Char) (s : List Char) :
    renderText (c :: s) = escChar c ++ renderText s := by
  simp [renderText]

/-! ### Equation and inversion lemmas for the inline matchers -/

theorem oalt_eq_some {α : Type} (a b : Option α) (v : α)
    (h : oalt a b = some v) : a = some v ∨ b = some v := by
  cases a with
  | none => exact Or.inr h
  | some x => exact Or.inl h

theorem oalt_none_left {α : Type} (a b : Option α) (h : a = none) :
    oalt a b = b := by
  rw [h]; rfl

theorem oalt_some_left {α : Type} (a b : Option α) (v : α) (h : a = some v) :
    oalt a b = some v := by
  rw [h]; rfl

theorem tryCodeHere_cons (c : Char) (t : List Char) :
    tryCodeHere (c :: t) =
      if c = '`' then (splitOnChar '`' t).map (fun p => (Inline.codeSpan p.1, p.2))
      else none := rfl

theorem tryPair_cons2 (x : Char) (mk : List Char → Inline) (c d : Char)
    (t : List Char) :
    tryPair x mk (c :: d :: t) =
      if c = x ∧ d = x then (splitOnPair x t).map (fun p => (mk p.1, p.2))
      else none := rfl

theorem tryBoldUnder_cons2 (c d : Char) (t : List Char) :
    tryBoldUnder (c :: d :: t) =
      if c = '_' ∧ d = '_' then
        match splitOnPair '_' t with
        | some (content, post) =>
          if splitOnPair '*' content = none ∧ content.getLast? ≠ some '*' then
            some (Inline.bold content, post)
          else none
        | none => none
      else none := rfl

theorem tryItalicStar_cons (c : Char) (t : List Char) :
    tryItalicStar (c :: t) =
      if c = '*' then
        match splitOnChar '*' t with
        | some (content, post) =>
          if content ≠ [] then some (Inline.italic content, post) else none
        | none => none
      else none := rfl

theorem tryItalicUnder_cons (c : Char) (t : List Char) :
    tryItalicUnder (c :: t) =
      if c = '_' then
        match splitOnChar '_' t with
        | some (content, post) =>
          if content ≠ [] ∧ '*' ∉ content then some (Inline.italic content, post)
          else none
        | none => none
      else none := rfl

theorem tryLinkAt_cons (c : Char) (t : List Char) :
    tryLinkAt (c :: t) =
      if c = '[' then (bracketParen t).map (fun p => (Inline.link p.1 p.2.1, p.2.2))
      else none := rfl

theorem tryImageAt_cons2 (c d : Char) (t : List Char) :
    tryImageAt (c :: d :: t) =
      if c = '!' ∧ d = '[' then
        (bracketParen t).map (fun p => (Inline.image p.1 p.2.1, p.2.2))
      else none := rfl

theorem tryWikiHere_none_head (c : Char) (t : List Char) (hc : c ≠ '[') :
    tryWikiHere (c :: t) = none := by
  cases t with
  | nil => rfl
  | cons d t2 => rw [tryWikiHere_cons2, if_neg (fun h => hc h.1)]

theorem tryWikiHere_none_second (c d : Char) (t : List Char) (hd : d ≠ '[') :
    tryWikiHere (c :: d :: t) = none := by
  rw [tryWikiHere_cons2, if_neg (fun h => hd h.2)]

theorem tryCodeHere_none_head (c : Char) (t : List Char) (hc : c ≠ '`') :
    tryCodeHere (c :: t) = none := by
  rw [tryCodeHere_cons, if_neg hc]

theorem tryPair_none_head (x : Char) (mk : List Char → Inline) (c : Char)
    (t : List Char) (hc : c ≠ x) : tryPair x mk (c :: t) = none := by
  cases t with
  | nil => rfl
  | cons d t2 => rw [tryPair_cons2, if_neg (fun h => hc h.1)]

theorem tryPair_none_second (x : Char) (mk : List Char → Inline) (c d : Char)
    (t : List Char) (hd : d ≠ x) : tryPair x mk (c :: d :: t) = none := by
  rw [tryPair_cons2, if_neg (fun h => hd h.2)]

theorem tryBoldUnder_none_head (c : Char) (t : List Char) (hc : c ≠ '_') :
    tryBoldUnder (c :: t) = none := by
  cases t with
  | nil => rfl
  | cons d t2 => rw [tryBoldUnder_cons2, if_neg (fun h => hc h.1)]

theorem tryBoldUnder_none_second (c d : Char) (t : List Char) (hd : d ≠ '_') :
    tryBoldUnder (c :: d :: t) = none := by
  rw [tryBoldUnder_cons2, if_neg (fun h => hd h.2)]

theorem tryItalicStar_none_head (c : Char) (t : List Char) (hc : c ≠ '*') :
    tryItalicStar (c :: t) = none := by
  rw [tryItalicStar_cons, if_neg hc]

theorem tryItalicUnder_none_head (c : Char) (t : List Char) (hc : c ≠ '_') :
    tryItalicUnder (c :: t) = none := by
  rw [tryItalicUnder_cons, if_neg hc]

theorem tryLinkAt_none_head (c : Char) (t : List Char) (hc : c ≠ '[') :
    tryLinkAt (c :: t) = none := by
  rw [tryLinkAt_cons, if_neg hc]

theorem tryImageAt_none_head (c : Char) (t : List Char) (hc : c ≠ '!') :
    tryImageAt (c :: t) = none := by
  cases t with
  | nil => rfl
  | cons d t2 => rw [tryImageAt_cons2, if_neg (fun h => hc h.1)]

theorem tryImageAt_none_second (c d : Char) (t : List Char) (hd : d ≠ '[') :
    tryImageAt (c :: d :: t) = none := by
  rw [tryImageAt_cons2, if_neg (fun h => hd h.2)]

/-- A character that opens no inline pattern: the whole chain fails. -/
theorem tryInlineHere_none_plain (c : Char) (t : List Char)
    (h1 : c ≠ '[') (h2 : c ≠ '`') (h3 : c ≠ '*') (h4 : c ≠ '_') (h5 : c ≠ '~')
    (h6 : c ≠ '!') : tryInlineHere (c :: t) = none := by
  rw [tryInlineHere, tryWikiHere_none_head c t h1]
  rw [show ((none : Option (List Char × List Char)).map
    (fun p => (Inline.wiki p.1, p.2))) = none from rfl]
  rw [oalt_none_left _ _ rfl,
    oalt_none_left _ _ (tryCodeHere_none_head c t h2),
    oalt_none_left _ _ (tryPair_none_head '*' Inline.bold c t h3),
    oalt_none_left _ _ (tryBoldUnder_none_head c t h4),
    oalt_none_left _ _ (tryPair_none_head '~' Inline.strike c t h5),
    oalt_none_left _ _ (tryItalicStar_none_head c t h3),
    oalt_none_left _ _ (tryItalicUnder_none_head c t h4),
    oalt_none_left _ _ (tryLinkAt_none_head c t h1)]
  exact tryImageAt_none_head c t h6

/-- At an exclamation mark, only the image pattern can fire. -/
theorem tryInlineHere_bang (t : List Char) :
    tryInlineHere ('!' :: t) = tryImageAt ('!' :: t) := by
  rw [tryInlineHere, tryWikiHere_none_head '!' t (by decide)]
  rw [show ((none : Option (List Char × List Char)).map
    (fun p => (Inline.wiki p.1, p.2))) = none from rfl]
  rw [oalt_none_left _ _ rfl,
    oalt_none_left _ _ (tryCodeHere_none_head '!' t (by decide)),
    oalt_none_left _ _ (tryPair_none_head '*' Inline.bold '!' t (by decide)),
    oalt_none_left _ _ (tryBoldUnder_none_head '!' t (by decide)),
    oalt_none_left _ _ (tryPair_none_head '~' Inline.strike '!' t (by decide)),
    oalt_none_left _ _ (tryItalicStar_none_head '!' t (by decide)),
    oalt_none_left _ _ (tryItalicUnder_none_head '!' t (by decide)),
    oalt_none_left _ _ (tryLinkAt_none_head '!' t (by decide))]

/-- No inline pattern starts with a backslash. -/
theorem tryInlineHere_backslash (t : List Char) :
    tryInlineHere ('\\' :: t) = none :=
  tryInlineHere_none_plain '\\' t (by decide) (by decide) (by decide)
    (by decide) (by decide) (by decide)

theorem tryInlineHere_cases (s : List Char) (i : Inline) (post : List Char)
    (h : tryInlineHere s = some (i, post)) :
    (tryWikiHere s).map (fun p => (Inline.wiki p.1, p.2)) = some (i, post) ∨
    tryCodeHere s = some (i, post) ∨
    tryPair '*' Inline.bold s = some (i, post) ∨
    tryBoldUnder s = some (i, post) ∨
    tryPair '~' Inline.strike s = some (i, post) ∨
    tryItalicStar s = some (i, post) ∨
    tryItalicUnder s = some (i, post) ∨
    tryLinkAt s = some (i, post) ∨
    tryImageAt s = some (i, post) := by
  rw [tryInlineHere] at h
  rcases oalt_eq_some _ _ _ h with h | h
  · exact Or.inl h
  rcases oalt_eq_some _ _ _ h with h | h
  · exact Or.inr (Or.inl h)
  rcases oalt_eq_some _ _ _ h with h | h
  · exact Or.inr (Or.inr (Or.inl h))
  rcases oalt_eq_some _ _ _ h with h | h
  · exact Or.inr (Or.inr (Or.inr (Or.inl h)))
  rcases oalt_eq_some _ _ _ h with h | h
  · exact Or.inr (Or.inr (Or.inr (Or.inr (Or.inl h))))
  rcases oalt_eq_some _ _ _ h with h | h
  · exact Or.inr (Or.inr (Or.inr (Or.inr (Or.inr (Or.inl h)))))
  rcases oalt_eq_some _ _ _ h with h | h
  · exact Or.inr (Or.inr (Or.inr (Or.inr (Or.inr (Or.inr (Or.inl h))))))
  rcases oalt_eq_some _ _ _ h with h | h
  · exact Or.inr (Or.inr (Or.inr (Or.inr (Or.inr (Or.inr (Or.inr (Or.inl h)))))))
  · exact Or.inr (Or.inr (Or.inr (Or.inr (Or.inr (Or.inr (Or.inr (Or.inr h)))))))

/-- Strengthened wiki-match inversion: the decomposition plus the
first-occurrence invariants of the captured group. -/
theorem tryWikiHere_inv (s inner post : List Char)
    (h : tryWikiHere s = some (inner, post)) :
    s = '[' :: '[' :: (inner ++ ']' :: ']' :: post) ∧
      splitOnPair ']' inner = none ∧ inner.getLast? ≠ some ']' ∧
      '\n' ∉ inner := by
  match s with
  | [] => simp [tryWikiHere] at h
  | [c] => simp [tryWikiHere] at h
  | c :: d :: t =>
    rw [tryWikiHere_cons2] at h
    by_cases hcd : c = '[' ∧ d = '['
    · rw [if_pos hcd] at h
      cases hsplit : splitOnRR t with
      | none => rw [hsplit] at h; exact absurd h (by simp)
      | some ab =>
        obtain ⟨a, b⟩ := ab
        rw [hsplit] at h
        have h2 : (if '\n' ∈ a then none else some (a, b)) = some (inner, post) := h
        by_cases hnl : '\n' ∈ a
        · rw [if_pos hnl] at h2
          exact absurd h2 (by simp)
        · rw [if_neg hnl] at h2
          injection h2 with h2
          injection h2 with ha hb
          subst ha; subst hb
          rw [splitOnRR_eq_pair] at hsplit
          obtain ⟨hdec, hnone, hlast⟩ := splitOnPair_decomp ']' t a b hsplit
          rw [hcd.1, hcd.2, hdec]
          exact ⟨rfl, hnone, hlast, hnl⟩
    · rw [if_neg hcd] at h
      exact absurd h (by simp)

theorem tryCodeHere_inv (s : List Char) (i : Inline) (post : List Char)
    (h : tryCodeHere s = some (i, post)) :
    ∃ c, i = Inline.codeSpan c ∧ s = '`' :: (c ++ '`' :: post) ∧ '`' ∉ c := by
  match s with
  | [] => simp [tryCodeHere] at h
  | c0 :: t =>
    rw [tryCodeHere_cons] at h
    by_cases hc : c0 = '`'
    · rw [if_pos hc, Option.map_eq_some'] at h
      obtain ⟨⟨a, b⟩, hp, hpe⟩ := h
      have hpe2 : (Inline.codeSpan a, b) = (i, post) := hpe
      injection hpe2 with h1 h2
      subst h2
      obtain ⟨hd, hm⟩ := splitOnChar_decomp '`' t a b hp
      exact ⟨a, h1.symm, by rw [hc, hd], hm⟩
    · rw [if_neg hc] at h
      exact absurd h (by simp)

theorem tryPair_inv (x : Char) (mk : List Char → Inline) (s : List Char)
    (i : Inline) (post : List Char) (h : tryPair x mk s = some (i, post)) :
    ∃ c, i = mk c ∧ s = x :: x :: (c ++ x :: x :: post) ∧
      splitOnPair x c = none ∧ c.getLast? ≠ some x := by
  match s with
  | [] => simp [tryPair] at h
  | [c0] => simp [tryPair] at h
  | c0 :: d0 :: t =>
    rw [tryPair_cons2] at h
    by_cases hcd : c0 = x ∧ d0 = x
    · rw [if_pos hcd, Option.map_eq_some'] at h
      obtain ⟨⟨a, b⟩, hp, hpe⟩ := h
      have hpe2 : (mk a, b) = (i, post) := hpe
      injection hpe2 with h1 h2
      subst h2
      obtain ⟨hd, hnone, hlast⟩ := splitOnPair_decomp x t a b hp
      exact ⟨a, h1.symm, by rw [hcd.1, hcd.2, hd], hnone, hlast⟩
    · rw [if_neg hcd] at h
      exact absurd h (by simp)

theorem tryBoldUnder_inv (s : List Char) (i : Inline) (post : List Char)
    (h : tryBoldUnder s = some (i, post)) :
    ∃ c, i = Inline.bold c ∧ s = '_' :: '_' :: (c ++ '_' :: '_' :: post) ∧
      splitOnPair '_' c = none ∧ c.getLast? ≠ some '_' ∧
      splitOnPair '*' c = none ∧ c.getLast? ≠ some '*' := by
  match s with
  | [] => simp [tryBoldUnder] at h
  | [c0] => simp [tryBoldUnder] at h
  | c0 :: d0 :: t =>
    rw [tryBoldUnder_cons2] at h
    by_cases hcd : c0 = '_' ∧ d0 = '_'
    · rw [if_pos hcd] at h
      cases hsplit : splitOnPair '_' t with
      | none => rw [hsplit] at h; exact absurd h (by simp)
      | some ab =>
        obtain ⟨a, b⟩ := ab
        rw [hsplit] at h
        have h2 : (if splitOnPair '*' a = none ∧ a.getLast? ≠ some '*' then
            some (Inline.bold a, b) else none) = some (i, post) := h
        by_cases hstar : splitOnPair '*' a = none ∧ a.getLast? ≠ some '*'
        · rw [if_pos hstar] at h2
          injection h2 with h2
          injection h2 with h1 h3
          subst h3
          obtain ⟨hd, hnone, hlast⟩ := splitOnPair_decomp '_' t a b hsplit
          exact ⟨a, h1.symm, by rw [hcd.1, hcd.2, hd], hnone, hlast,
            hstar.1, hstar.2⟩
        · rw [if_neg hstar] at h2
          exact absurd h2 (by simp)
    · rw [if_neg hcd] at h
      exact absurd h (by simp)

theorem tryItalicStar_inv (s : List Char) (i : Inline) (post : List Char)
    (h : tryItalicStar s = some (i, post)) :
    ∃ c, i = Inline.italic c ∧ s = '*' :: (c ++ '*' :: post) ∧
      '*' ∉ c ∧ c ≠ [] := by
  match s with
  | [] => simp [tryItalicStar] at h
  | c0 :: t =>
    rw [tryItalicStar_cons] at h
    by_cases hc : c0 = '*'
    · rw [if_pos hc] at h
      cases hsplit : splitOnChar '*' t with
      | none => rw [hsplit] at h; exact absurd h (by simp)
      | some ab =>
        obtain ⟨a, b⟩ := ab
        rw [hsplit] at h
        have h2 : (if a ≠ [] then some (Inline.italic a, b) else none) =
          some (i, post) := h
        by_cases hne : a ≠ []
        · rw [if_pos hne] at h2
          injection h2 with h2
          injection h2 with h1 h3
          subst h3
          obtain ⟨hd, hm⟩ := splitOnChar_decomp '*' t a b hsplit
          exact ⟨a, h1.symm, by rw [hc, hd], hm, hne⟩
        · rw [if_neg hne] at h2
          exact absurd h2 (by simp)
    · rw [if_neg hc] at h
      exact absurd h (by simp)

theorem tryItalicUnder_inv (s : List Char) (i : Inline) (post : List Char)
    (h : tryItalicUnder s = some (i, post)) :
    ∃ c, i = Inline.italic c ∧ s = '_' :: (c ++ '_' :: post) ∧
      '_' ∉ c ∧ '*' ∉ c ∧ c ≠ [] := by
  match s with
  | [] => simp [tryItalicUnder] at h
  | c0 :: t =>
    rw [tryItalicUnder_cons] at h
    by_cases hc : c0 = '_'
    · rw [if_pos hc] at h
      cases hsplit : splitOnChar '_' t with
      | none => rw [hsplit] at h; exact absurd h (by simp)
      | some ab =>
        obtain ⟨a, b⟩ := ab
        rw [hsplit] at h
        have h2 : (if a ≠ [] ∧ '*' ∉ a then some (Inline.italic a, b)
          else none) = some (i, post) := h
        by_cases hcond : a ≠ [] ∧ '*' ∉ a
        · rw [if_pos hcond] at h2
          injection h2 with h2
          injection h2 with h1 h3
          subst h3
          obtain ⟨hd, hm⟩ := splitOnChar_decomp '_' t a b hsplit
          exact ⟨a, h1.symm, by rw [hc, hd], hm, hcond.2, hcond.1⟩
        · rw [if_neg hcond] at h2
          exact absurd h2 (by simp)
    · rw [if_neg hc] at h
      exact absurd h (by simp)

theorem bracketParen_inv (t txt href post : List Char)
    (h : bracketParen t = some (txt, href, post)) :
    t = txt ++ ']' :: '(' :: (href ++ ')' :: post) ∧ ']' ∉ txt ∧
      ')' ∉ href ∧ txt.head? ≠ some '[' := by
  rw [bracketParen] at h
  cases hsplit : splitOnChar ']' t with
  | none => rw [hsplit] at h; exact absurd h (by simp)
  | some ab =>
    obtain ⟨a, r⟩ := ab
    rw [hsplit] at h
    cases hr : r with
    | nil => rw [hr] at h; exact absurd h (by simp)
    | cons c2 r2 =>
      rw [hr] at h
      have h2 : (if c2 = '(' then
          match splitOnChar ')' r2 with
          | some (href2, post2) =>
            if a.head? ≠ some '[' then some (a, href2, post2) else none
          | none => none
        else none) = some (txt, href, post) := h
      by_cases hc2 : c2 = '('
      · rw [if_pos hc2] at h2
        cases hsplit2 : splitOnChar ')' r2 with
        | none => rw [hsplit2] at h2; exact absurd h2 (by simp)
        | some cd =>
          obtain ⟨b, q⟩ := cd
          rw [hsplit2] at h2
          have h3 : (if a.head? ≠ some '[' then some (a, b, q) else none) =
            some (txt, href, post) := h2
          by_cases hhead : a.head? ≠ some '['
          · rw [if_pos hhead] at h3
            injection h3 with h3
            injection h3 with h4 h5
            injection h5 with h5 h6
            subst h4; subst h5; subst h6
            obtain ⟨hd1, hm1⟩ := splitOnChar_decomp ']' t a r hsplit
            obtain ⟨hd2, hm2⟩ := splitOnChar_decomp ')' r2 b q hsplit2
            refine ⟨?_, hm1, hm2, hhead⟩
            rw [hd1, hr, hc2, hd2]
          · rw [if_neg hhead] at h3
            exact absurd h3 (by simp)
      · rw [if_neg hc2] at h2
        exact absurd h2 (by simp)

theorem tryLinkAt_inv (s : List Char) (i : Inline) (post : List Char)
    (h : tryLinkAt s = some (i, post)) :
    ∃ txt href, i = Inline.link txt href ∧
      s = '[' :: (txt ++ ']' :: '(' :: (href ++ ')' :: post)) ∧
      ']' ∉ txt ∧ ')' ∉ href ∧ txt.head? ≠ some '[' := by
  match s with
  | [] => simp [tryLinkAt] at h
  | c0 :: t =>
    rw [tryLinkAt_cons] at h
    by_cases hc : c0 = '['
    · rw [if_pos hc, Option.map_eq_some'] at h
      obtain ⟨⟨a, b, q⟩, hp, hpe⟩ := h
      have hpe2 : (Inline.link a b, q) = (i, post) := hpe
      injection hpe2 with h1 h2
      subst h2
      obtain ⟨hd, hm1, hm2, hhead⟩ := bracketParen_inv t a b q hp
      exact ⟨a, b, h1.symm, by rw [hc, hd], hm1, hm2, hhead⟩
    · rw [if_neg hc] at h
      exact absurd h (by simp)

theorem tryImageAt_inv (s : List Char) (i : Inline) (post : List Char)
    (h : tryImageAt s = some (i, post)) :
    ∃ alt src, i = Inline.image alt src ∧
      s = '!' :: '[' :: (alt ++ ']' :: '(' :: (src ++ ')' :: post)) ∧
      ']' ∉ alt ∧ ')' ∉ src ∧ alt.head? ≠ some '[' := by
  match s with
  | [] => simp [tryImageAt] at h
  | [c0] => simp [tryImageAt] at h
  | c0 :: d0 :: t =>
    rw [tryImageAt_cons2] at h
    by_cases hcd : c0 = '!' ∧ d0 = '['
    · rw [if_pos hcd, Option.map_eq_some'] at h
      obtain ⟨⟨a, b, q⟩, hp, hpe⟩ := h
      have hpe2 : (Inline.image a b, q) = (i, post) := hpe
      injection hpe2 with h1 h2
      subst h2
      obtain ⟨hd, hm1, hm2, hhead⟩ := bracketParen_inv t a b q hp
      exact ⟨a, b, h1.symm, by rw [hcd.1, hcd.2, hd], hm1, hm2, hhead⟩
    · rw [if_neg hcd] at h
      exact absurd h (by simp)

/-- A successful inline match consumes at least one character. -/
theorem tryInlineHere_post_lt (s : List Char) (i : Inline) (post : List Char)
    (h : tryInlineHere s = some (i, post)) : post.length < s.length := by
  rcases tryInlineHere_cases s i post h with h | h | h | h | h | h | h | h | h
  · rw [Option.map_eq_some'] at h
    obtain ⟨⟨inner, p2⟩, hp, hpe⟩ := h
    have hpe2 : (Inline.wiki inner, p2) = (i, post) := hpe
    injection hpe2 with h1 h2
    subst h2
    have hd := (tryWikiHere_inv s inner p2 hp).1
    rw [hd]
    simp
    omega
  · obtain ⟨c, _, hd, _⟩ := tryCodeHere_inv s i post h
    rw [hd]; simp; omega
  · obtain ⟨c, _, hd, _⟩ := tryPair_inv '*' Inline.bold s i post h
    rw [hd]; simp; omega
  · obtain ⟨c, _, hd, _⟩ := tryBoldUnder_inv s i post h
    rw [hd]; simp; omega
  · obtain ⟨c, _, hd, _⟩ := tryPair_inv '~' Inline.strike s i post h
    rw [hd]; simp; omega
  · obtain ⟨c, _, hd, _⟩ := tryItalicStar_inv s i post h
    rw [hd]; simp; omega
  · obtain ⟨c, _, hd, _⟩ := tryItalicUnder_inv s i post h
    rw [hd]; simp; omega
  · obtain ⟨a, b, _, hd, _⟩ := tryLinkAt_inv s i post h
    rw [hd]; simp; omega
  · obtain ⟨a, b, _, hd, _⟩ := tryImageAt_inv s i post h
    rw [hd]; simp; omega

/-! ### Scanner step equations -/

theorem scanInlinesF_nil (fuel : Nat) : scanInlinesF fuel [] = [] := by
  cases fuel <;> rfl

theorem scanInlinesF_cons (fuel : Nat) (c : Char) (t : List Char) :
    scanInlinesF (fuel + 1) (c :: t) =
      match tryInlineHere (c :: t) with
      | some (i, post) => i :: scanInlinesF fuel post
      | none =>
        if c = '\\' then
          match t with
          | d :: t2 =>
            if isEsc d then consTextChar d (scanInlinesF fuel t2)
            else consTextChar c (scanInlinesF fuel t)
          | [] => consTextChar c (scanInlinesF fuel t)
        else consTextChar c (scanInlinesF fuel t) := rfl

theorem scanInlinesF_step_match (fuel : Nat) (c : Char) (t : List Char)
    (i : Inline) (post : List Char) (h : tryInlineHere (c :: t) = some (i, post)) :
    scanInlinesF (fuel + 1) (c :: t) = i :: scanInlinesF fuel post := by
  rw [scanInlinesF_cons, h]

theorem scanInlinesF_step_lit (fuel : Nat) (c : Char) (t : List Char)
    (h : tryInlineHere (c :: t) = none) (hc : c ≠ '\\') :
    scanInlinesF (fuel + 1) (c :: t) = consTextChar c (scanInlinesF fuel t) := by
  rw [scanInlinesF_cons, h]
  simp [hc]

theorem scanInlinesF_step_esc (fuel : Nat) (d : Char) (t2 : List Char)
    (hd : isEsc d = true) :
    scanInlinesF (fuel + 1) ('\\' :: d :: t2) = consTextChar d (scanInlinesF fuel t2) := by
  rw [scanInlinesF_cons, tryInlineHere_backslash]
  simp [hd]

theorem scanInlinesF_step_bs (fuel : Nat) (d : Char) (t2 : List Char)
    (hd : isEsc d = false) :
    scanInlinesF (fuel + 1) ('\\' :: d :: t2) =
      consTextChar '\\' (scanInlinesF fuel (d :: t2)) := by
  rw [scanInlinesF_cons, tryInlineHere_backslash]
  simp [hd]

theorem scanInlinesF_step_bs_nil (fuel : Nat) :
    scanInlinesF (fuel + 1) ['\\'] = consTextChar '\\' (scanInlinesF fuel []) := by
  rw [scanInlinesF_cons, tryInlineHere_backslash]
  simp

theorem scanInlinesF_congr (f1 : Nat) : ∀ (f2 : Nat) (s : List Char),
    s.length ≤ f1 → s.length ≤ f2 → scanInlinesF f1 s = scanInlinesF f2 s := by
  induction f1 with
  | zero =>
    intro f2 s h1 _
    have : s = [] := List.length_eq_zero.mp (Nat.le_zero.mp h1)
    subst this
    rw [scanInlinesF_nil, scanInlinesF_nil]
  | succ f1 ih =>
    intro f2 s h1 h2
    cases s with
    | nil => rw [scanInlinesF_nil, scanInlinesF_nil]
    | cons c t =>
      cases f2 with
      | zero => simp at h2
      | succ f2 =>
        have hlt : t.length ≤ f1 := by simpa using h1
        have hlt2 : t.length ≤ f2 := by simpa using h2
        cases htr : tryInlineHere (c :: t) with
        | some ip =>
          obtain ⟨i, post⟩ := ip
          have hpl := tryInlineHere_post_lt (c :: t) i post htr
          simp only [List.length_cons] at hpl
          rw [scanInlinesF_step_match f1 c t i post htr,
            scanInlinesF_step_match f2 c t i post htr,
            ih f2 post (by omega) (by omega)]
        | none =>
          by_cases hc : c = '\\'
          · subst hc
            cases t with
            | nil =>
              rw [scanInlinesF_step_bs_nil, scanInlinesF_step_bs_nil,
                scanInlinesF_nil, scanInlinesF_nil]
            | cons d t2 =>
              by_cases hd : isEsc d
              · rw [scanInlinesF_step_esc f1 d t2 hd,
                  scanInlinesF_step_esc f2 d t2 hd,
                  ih f2 t2 (by simp at hlt; omega) (by simp at hlt2; omega)]
              · rw [scanInlinesF_step_bs f1 d t2 (by simpa using hd),
                  scanInlinesF_step_bs f2 d t2 (by simpa using hd),
                  ih f2 (d :: t2) hlt hlt2]
          · rw [scanInlinesF_step_lit f1 c t htr hc,
              scanInlinesF_step_lit f2 c t htr hc, ih f2 t hlt hlt2]

theorem scanInlines_nil : scanInlines [] = [] := rfl

theorem scanInlines_match (c : Char) (t : List Char) (i : Inline)
    (post : List Char) (h : tryInlineHere (c :: t) = some (i, post)) :
    scanInlines (c :: t) = i :: scanInlines post := by
  show scanInlinesF (t.length + 1) (c :: t) = _
  rw [scanInlinesF_step_match t.length c t i post h]
  have hpl := tryInlineHere_post_lt (c :: t) i post h
  simp only [List.length_cons] at hpl
  rw [scanInlinesF_congr t.length post.length post (by omega) le_rfl]
  rfl

theorem scanInlines_literal (c : Char) (t : List Char)
    (h : tryInlineHere (c :: t) = none) (hc : c ≠ '\\') :
    scanInlines (c :: t) = consTextChar c (scanInlines t) := by
  show scanInlinesF (t.length + 1) (c :: t) = _
  rw [scanInlinesF_step_lit t.length c t h hc]
  rfl

theorem scanInlines_esc (d : Char) (t : List Char) (hd : isEsc d = true) :
    scanInlines ('\\' :: d :: t) = consTextChar d (scanInlines t) := by
  show scanInlinesF (t.length + 2) ('\\' :: d :: t) = _
  rw [show t.length + 2 = (t.length + 1) + 1 from rfl,
    scanInlinesF_step_esc (t.length + 1) d t hd,
    scanInlinesF_congr (t.length + 1) t.length t (by omega) le_rfl]
  rfl

theorem scanInlines_backslash_nonesc (d : Char) (t : List Char)
    (hd : isEsc d = false) :
    scanInlines ('\\' :: d :: t) = consTextChar '\\' (scanInlines (d :: t)) := by
  show scanInlinesF ((d :: t).length + 1) ('\\' :: d :: t) = _
  rw [scanInlinesF_step_bs (d :: t).length d t hd]
  rfl

theorem scanInlines_backslash_nil :
    scanInlines ['\\'] = [Inline.text ['\\']] := by
  show scanInlinesF 1 ['\\'] = _
  rw [scanInlinesF_step_bs_nil, scanInlinesF_nil]
  rfl

theorem renderInlines_consTextChar (c : Char) (r : List Inline) :
    renderInlines (consTextChar c r) = escChar c ++ renderInlines r := by
  match r with
  | [] => simp [consTextChar, renderInlines, renderInline, renderText]
  | Inline.text s :: rest =>
    rw [show consTextChar c (Inline.text s :: rest) =
      Inline.text (c :: s) :: rest from rfl]
    rw [renderInlines_cons, renderInlines_cons]
    show renderText (c :: s) ++ _ = _
    rw [renderText_cons, List.append_assoc]
    rfl
  | Inline.wiki i :: rest =>
    rw [show consTextChar c (Inline.wiki i :: rest) =
      Inline.text [c] :: Inline.wiki i :: rest from rfl, renderInlines_cons]
    show renderText [c] ++ _ = _
    rw [show renderText [c] = escChar c from by
      simp [renderText]]
  | Inline.bold s :: rest =>
    rw [show consTextChar c (Inline.bold s :: rest) =
      Inline.text [c] :: Inline.bold s :: rest from rfl, renderInlines_cons]
    show renderText [c] ++ _ = _
    rw [show renderText [c] = escChar c from by simp [renderText]]
  | Inline.italic s :: rest =>
    rw [show consTextChar c (Inline.italic s :: rest) =
      Inline.text [c] :: Inline.italic s :: rest from rfl, renderInlines_cons]
    show renderText [c] ++ _ = _
    rw [show renderText [c] = escChar c from by simp [renderText]]
  | Inline.strike s :: rest =>
    rw [show consTextChar c (Inline.strike s :: rest) =
      Inline.text [c] :: Inline.strike s :: rest from rfl, renderInlines_cons]
    show renderText [c] ++ _ = _
    rw [show renderText [c] = escChar c from by simp [renderText]]
  | Inline.codeSpan s :: rest =>
    rw [show consTextChar c (Inline.codeSpan s :: rest) =
      Inline.text [c] :: Inline.codeSpan s :: rest from rfl, renderInlines_cons]
    show renderText [c] ++ _ = _
    rw [show renderText [c] = escChar c from by simp [renderText]]
  | Inline.link a b :: rest =>
    rw [show consTextChar c (Inline.link a b :: rest) =
      Inline.text [c] :: Inline.link a b :: rest from rfl, renderInlines_cons]
    show renderText [c] ++ _ = _
    rw [show renderText [c] = escChar c from by simp [renderText]]
  | Inline.image a b :: rest =>
    rw [show consTextChar c (Inline.image a b :: rest) =
      Inline.text [c] :: Inline.image a b :: rest from rfl, renderInlines_cons]
    show renderText [c] ++ _ = _
    rw [show renderText [c] = escChar c from by simp [renderText]]

/-! ### Canonical inline runs -/

/-- Invariants of a single inline run as produced by the scanner; they are
exactly what re-scanning the canonical serialization needs. -/
def InlOK : Inline → Prop
  | Inline.text s => s ≠ [] ∧ '\n' ∉ s
  | Inline.wiki i => splitOnPair ']' i = none ∧ i.getLast? ≠ some ']' ∧ '\n' ∉ i
  | Inline.bold c => splitOnPair '*' c = none ∧ c.getLast? ≠ some '*' ∧ '\n' ∉ c
  | Inline.strike c => splitOnPair '~' c = none ∧ c.getLast? ≠ some '~' ∧ '\n' ∉ c
  | Inline.italic c => c ≠ [] ∧ '*' ∉ c ∧ '\n' ∉ c
  | Inline.codeSpan c => '`' ∉ c ∧ '\n' ∉ c
  | Inline.link a b => ']' ∉ a ∧ ')' ∉ b ∧ a.head? ≠ some '[' ∧ '\n' ∉ a ∧ '\n' ∉ b
  | Inline.image a b => ']' ∉ a ∧ ')' ∉ b ∧ a.head? ≠ some '[' ∧ '\n' ∉ a ∧ '\n' ∉ b

/-- Is the run a plain text run? -/
def isTextRun : Inline → Bool
  | Inline.text _ => true
  | _ => false

/-- Is the run a generic link? -/
def isLinkRun : Inline → Bool
  | Inline.link _ _ => true
  | _ => false

/-- Does the run end with a literal exclamation mark? -/
def lastBang : Inline → Bool
  | Inline.text s => s.getLast? == some '!'
  | _ => false

/-- Adjacency constraints of canonical run lists: no two adjacent text
runs, and a text run ending in `!` is never directly followed by a
generic link (the scanner would have read them as an image). -/
def nextOK (i : Inline) : List Inline → Prop
  | [] => True
  | j :: _ => ¬(isTextRun i = true ∧ isTextRun j = true) ∧
      ¬(lastBang i = true ∧ isLinkRun j = true)

/-- A canonical list of inline runs. -/
def InlsCanon : List Inline → Prop
  | [] => True
  | i :: rest => InlOK i ∧ nextOK i rest ∧ InlsCanon rest

theorem lastBang_of_nonText (i : Inline) (h : isTextRun i = false) :
    lastBang i = false := by
  cases i
  case text s => simp [isTextRun] at h
  all_goals rfl

theorem nextOK_of_nonText (i : Inline) (r : List Inline)
    (h : isTextRun i = false) : nextOK i r := by
  cases r with
  | nil => exact trivial
  | cons j r' =>
    exact ⟨fun hc => by rw [h] at hc; exact absurd hc.1 (by simp),
      fun hc => by rw [lastBang_of_nonText i h] at hc; exact absurd hc.1 (by simp)⟩

/-- Whether a run list begins with a generic link. -/
def headLink : List Inline → Bool
  | Inline.link _ _ :: _ => true
  | _ => false

theorem consTextChar_canon (c : Char) (r : List Inline) (hr : InlsCanon r)
    (hc : c ≠ '\n') (hbang : c = '!' → headLink r = false) :
    InlsCanon (consTextChar c r) := by
  match r with
  | [] =>
    exact ⟨⟨by simp, by simp only [List.mem_singleton]; exact fun h => hc h.symm⟩, trivial, trivial⟩
  | Inline.text s :: rest =>
    obtain ⟨⟨hne, hnl⟩, hnext, hrest⟩ := hr
    refine ⟨⟨by simp, ?_⟩, ?_, hrest⟩
    · intro hm
      rcases List.mem_cons.mp hm with hm | hm
      · exact hc hm.symm
      · exact hnl hm
    · cases rest with
      | nil => exact trivial
      | cons j r2 =>
        obtain ⟨h1, h2⟩ := hnext
        refine ⟨h1, ?_⟩
        intro hcon
        apply h2
        refine ⟨?_, hcon.2⟩
        have : (c :: s).getLast? = s.getLast? := by
          cases s with
          | nil => exact absurd rfl hne
          | cons e s2 => rw [List.getLast?_cons_cons]
        have hlb : lastBang (Inline.text (c :: s)) = lastBang (Inline.text s) := by
          simp [lastBang, this]
        rw [← hlb]
        exact hcon.1
  | Inline.wiki w :: rest =>
    exact ⟨⟨by simp, by simp only [List.mem_singleton]; exact fun h => hc h.symm⟩,
      ⟨fun hcon => by simp [isTextRun] at hcon,
       fun hcon => by
         simp [lastBang] at hcon
         simp [isLinkRun] at hcon⟩, hr⟩
  | Inline.bold s :: rest =>
    exact ⟨⟨by simp, by simp only [List.mem_singleton]; exact fun h => hc h.symm⟩,
      ⟨fun hcon => by simp [isTextRun] at hcon,
       fun hcon => by simp [isLinkRun] at hcon⟩, hr⟩
  | Inline.italic s :: rest =>
    exact ⟨⟨by simp, by simp only [List.mem_singleton]; exact fun h => hc h.symm⟩,
      ⟨fun hcon => by simp [isTextRun] at hcon,
       fun hcon => by simp [isLinkRun] at hcon⟩, hr⟩
  | Inline.strike s :: rest =>
    exact ⟨⟨by simp, by simp only [List.mem_singleton]; exact fun h => hc h.symm⟩,
      ⟨fun hcon => by simp [isTextRun] at hcon,
       fun hcon => by simp [isLinkRun] at hcon⟩, hr⟩
  | Inline.codeSpan s :: rest =>
    exact ⟨⟨by simp, by simp only [List.mem_singleton]; exact fun h => hc h.symm⟩,
      ⟨fun hcon => by simp [isTextRun] at hcon,
       fun hcon => by simp [isLinkRun] at hcon⟩, hr⟩
  | Inline.link a b :: rest =>
    refine ⟨⟨by simp, by simp only [List.mem_singleton]; exact fun h => hc h.symm⟩,
      ⟨fun hcon => by simp [isTextRun] at hcon, fun hcon => ?_⟩, hr⟩
    have hcb : c = '!' := by
      have := hcon.1
      simp [lastBang] at this
      exact this
    have := hbang hcb
    simp [headLink] at this
  | Inline.image a b :: rest =>
    exact ⟨⟨by simp, by simp only [List.mem_singleton]; exact fun h => hc h.symm⟩,
      ⟨fun hcon => by simp [isTextRun] at hcon,
       fun hcon => by simp [isLinkRun] at hcon⟩, hr⟩

/-- Every successful anchored match yields a canonical non-text run and a
newline-free remainder (on newline-free input). -/
theorem tryInlineHere_InlOK (s : List Char) (i : Inline) (post : List Char)
    (h : tryInlineHere s = some (i, post)) (hnl : '\n' ∉ s) :
    InlOK i ∧ isTextRun i = false ∧ '\n' ∉ post := by
  rcases tryInlineHere_cases s i post h with h | h | h | h | h | h | h | h | h
  · rw [Option.map_eq_some'] at h
    obtain ⟨⟨inner, p2⟩, hp, hpe⟩ := h
    have hpe2 : (Inline.wiki inner, p2) = (i, post) := hpe
    injection hpe2 with h1 h2
    subst h1; subst h2
    obtain ⟨hd, hnone, hlast, hni⟩ := tryWikiHere_inv s inner p2 hp
    subst hd
    refine ⟨⟨hnone, hlast, hni⟩, rfl, fun hm => hnl (by simp [hm])⟩
  · obtain ⟨c, hi, hd, hm⟩ := tryCodeHere_inv s i post h
    subst hi; subst hd
    exact ⟨⟨hm, fun hm2 => hnl (by simp [hm2])⟩, rfl, fun hm2 => hnl (by simp [hm2])⟩
  · obtain ⟨c, hi, hd, hnone, hlast⟩ := tryPair_inv '*' Inline.bold s i post h
    subst hi; subst hd
    exact ⟨⟨hnone, hlast, fun hm2 => hnl (by simp [hm2])⟩, rfl,
      fun hm2 => hnl (by simp [hm2])⟩
  · obtain ⟨c, hi, hd, _, _, hstar, hstlast⟩ := tryBoldUnder_inv s i post h
    subst hi; subst hd
    exact ⟨⟨hstar, hstlast, fun hm2 => hnl (by simp [hm2])⟩, rfl,
      fun hm2 => hnl (by simp [hm2])⟩
  · obtain ⟨c, hi, hd, hnone, hlast⟩ := tryPair_inv '~' Inline.strike s i post h
    subst hi; subst hd
    exact ⟨⟨hnone, hlast, fun hm2 => hnl (by simp [hm2])⟩, rfl,
      fun hm2 => hnl (by simp [hm2])⟩
  · obtain ⟨c, hi, hd, hm, hne⟩ := tryItalicStar_inv s i post h
    subst hi; subst hd
    exact ⟨⟨hne, hm, fun hm2 => hnl (by simp [hm2])⟩, rfl,
      fun hm2 => hnl (by simp [hm2])⟩
  · obtain ⟨c, hi, hd, _, hm, hne⟩ := tryItalicUnder_inv s i post h
    subst hi; subst hd
    exact ⟨⟨hne, hm, fun hm2 => hnl (by simp [hm2])⟩, rfl,
      fun hm2 => hnl (by simp [hm2])⟩
  · obtain ⟨a, b, hi, hd, hm1, hm2, hhead⟩ := tryLinkAt_inv s i post h
    subst hi; subst hd
    exact ⟨⟨hm1, hm2, hhead, fun hm3 => hnl (by simp [hm3]),
      fun hm3 => hnl (by simp [hm3])⟩, rfl, fun hm3 => hnl (by simp [hm3])⟩
  · obtain ⟨a, b, hi, hd, hm1, hm2, hhead⟩ := tryImageAt_inv s i post h
    subst hi; subst hd
    exact ⟨⟨hm1, hm2, hhead, fun hm3 => hnl (by simp [hm3]),
      fun hm3 => hnl (by simp [hm3])⟩, rfl, fun hm3 => hnl (by simp [hm3])⟩

/-- A non-text head of a scan is always an anchored match. -/
theorem scan_head_match (t : List Char) (i : Inline) (r : List Inline)
    (hsc : scanInlines t = i :: r) (hnt : isTextRun i = false) :
    ∃ post, tryInlineHere t = some (i, post) ∧ r = scanInlines post := by
  cases t with
  | nil => rw [scanInlines_nil] at hsc; exact absurd hsc (by simp)
  | cons c t2 =>
    cases htr : tryInlineHere (c :: t2) with
    | some ip =>
      obtain ⟨i2, post⟩ := ip
      rw [scanInlines_match c t2 i2 post htr] at hsc
      injection hsc with h1 h2
      subst h1
      exact ⟨post, rfl, h2.symm⟩
    | none =>
      by_cases hc : c = '\\'
      · subst hc
        cases t2 with
        | nil =>
          rw [scanInlines_backslash_nil] at hsc
          injection hsc with h1 h2
          rw [← h1] at hnt
          simp [isTextRun] at hnt
        | cons d t3 =>
          by_cases hd : isEsc d
          · rw [scanInlines_esc d t3 hd] at hsc
            revert hsc
            rw [consTextChar.eq_def]
            split
            · intro hsc
              injection hsc with h1 h2
              rw [← h1] at hnt
              simp [isTextRun] at hnt
            · intro hsc
              injection hsc with h1 h2
              rw [← h1] at hnt
              simp [isTextRun] at hnt
          · rw [scanInlines_backslash_nonesc d t3 (by simpa using hd)] at hsc
            revert hsc
            rw [consTextChar.eq_def]
            split
            · intro hsc
              injection hsc with h1 h2
              rw [← h1] at hnt
              simp [isTextRun] at hnt
            · intro hsc
              injection hsc with h1 h2
              rw [← h1] at hnt
              simp [isTextRun] at hnt
      · rw [scanInlines_literal c t2 htr hc] at hsc
        revert hsc
        rw [consTextChar.eq_def]
        split
        · intro hsc
          injection hsc with h1 h2
          rw [← h1] at hnt
          simp [isTextRun] at hnt
        · intro hsc
          injection hsc with h1 h2
          rw [← h1] at hnt
          simp [isTextRun] at hnt

/-- Only the generic-link matcher can produce a link run. -/
theorem tryInlineHere_link (t : List Char) (a b post : List Char)
    (h : tryInlineHere t = some (Inline.link a b, post)) :
    tryLinkAt t = some (Inline.link a b, post) := by
  rcases tryInlineHere_cases t (Inline.link a b) post h with
    h | h | h | h | h | h | h | h | h
  · rw [Option.map_eq_some'] at h
    obtain ⟨⟨inner, p2⟩, hp, hpe⟩ := h
    have hpe2 : (Inline.wiki inner, p2) = (Inline.link a b, post) := hpe
    injection hpe2 with h1 h2
    exact absurd h1 (by simp)
  · obtain ⟨c, hi, _⟩ := tryCodeHere_inv t _ post h
    exact absurd hi (by simp)
  · obtain ⟨c, hi, _⟩ := tryPair_inv '*' Inline.bold t _ post h
    exact absurd hi (by simp)
  · obtain ⟨c, hi, _⟩ := tryBoldUnder_inv t _ post h
    exact absurd hi (by simp)
  · obtain ⟨c, hi, _⟩ := tryPair_inv '~' Inline.strike t _ post h
    exact absurd hi (by simp)
  · obtain ⟨c, hi, _⟩ := tryItalicStar_inv t _ post h
    exact absurd hi (by simp)
  · obtain ⟨c, hi, _⟩ := tryItalicUnder_inv t _ post h
    exact absurd hi (by simp)
  · exact h
  · obtain ⟨a2, b2, hi, _⟩ := tryImageAt_inv t _ post h
    exact absurd hi (by simp)

/-- If a generic link matches at `[`, the image pattern matches at a `!`
placed in front of it. -/
theorem image_of_link (t : List Char) (a b post : List Char)
    (h : tryLinkAt t = some (Inline.link a b, post)) :
    tryInlineHere ('!' :: t) = some (Inline.image a b, post) := by
  obtain ⟨a2, b2, hi, hd, _⟩ := tryLinkAt_inv t _ post h
  injection hi with ha hb
  subst ha; subst hb
  have hbp : bracketParen (a ++ ']' :: '(' :: (b ++ ')' :: post)) =
      some (a, b, post) := by
    rw [hd, tryLinkAt_cons, if_pos rfl, Option.map_eq_some'] at h
    obtain ⟨⟨x, y, z⟩, hbp2, heq⟩ := h
    have heq2 : (Inline.link x y, z) = (Inline.link a b, post) := heq
    injection heq2 with h1 h2
    injection h1 with h3 h4
    subst h3; subst h4; subst h2
    exact hbp2
  rw [hd, tryInlineHere_bang, tryImageAt_cons2, if_pos ⟨rfl, rfl⟩, hbp]
  rfl

/-- The scanner only produces canonical run lists (on a single line). -/
theorem scan_canon_aux (n : Nat) : ∀ s : List Char, s.length ≤ n →
    '\n' ∉ s → InlsCanon (scanInlines s) := by
  induction n with
  | zero =>
    intro s h1 _
    have : s = [] := List.length_eq_zero.mp (Nat.le_zero.mp h1)
    subst this
    rw [scanInlines_nil]
    exact trivial
  | succ n ih =>
    intro s h1 hnl
    cases s with
    | nil => rw [scanInlines_nil]; exact trivial
    | cons c t =>
      have hcnl : c ≠ '\n' := fun h => hnl (by rw [h]; exact List.mem_cons_self _ _)
      have htnl : '\n' ∉ t := fun h => hnl (List.mem_cons_of_mem _ h)
      have hlen : t.length ≤ n := by simpa using h1
      cases htr : tryInlineHere (c :: t) with
      | some ip =>
        obtain ⟨i, post⟩ := ip
        rw [scanInlines_match c t i post htr]
        obtain ⟨hok, hnt, hpnl⟩ := tryInlineHere_InlOK (c :: t) i post htr hnl
        have hplen : post.length ≤ n := by
          have := tryInlineHere_post_lt (c :: t) i post htr
          simp only [List.length_cons] at this
          omega
        exact ⟨hok, nextOK_of_nonText i _ hnt, ih post hplen hpnl⟩
      | none =>
        have hbang : c = '!' → headLink (scanInlines t) = false := by
          intro hcb
          subst hcb
          cases hh : headLink (scanInlines t) with
          | false => rfl
          | true =>
            exfalso
            revert hh
            rw [headLink.eq_def]
            split
            · rename_i a b rest heq
              intro _
              obtain ⟨post, hmt, _⟩ := scan_head_match t (Inline.link a b) rest heq rfl
              have := image_of_link t a b post (tryInlineHere_link t a b post hmt)
              rw [htr] at this
              exact absurd this (by simp)
            · intro hh
              exact absurd hh (by simp)
        by_cases hc : c = '\\'
        · subst hc
          cases t with
          | nil =>
            rw [scanInlines_backslash_nil]
            exact ⟨⟨by simp, by simp⟩, trivial, trivial⟩
          | cons d t2 =>
            have ht2nl : '\n' ∉ t2 := fun h => htnl (List.mem_cons_of_mem _ h)
            have ht2len : t2.length ≤ n := by simp at hlen; omega
            by_cases hd : isEsc d
            · rw [scanInlines_esc d t2 hd]
              refine consTextChar_canon d _ (ih t2 ht2len ht2nl)
                (fun h => htnl (by rw [h]; exact List.mem_cons_self _ _)) ?_
              intro hdb
              rw [hdb] at hd
              simp [isEsc] at hd
            · rw [scanInlines_backslash_nonesc d t2 (by simpa using hd)]
              exact consTextChar_canon '\\' _ (ih (d :: t2) hlen htnl)
                (by decide) (by intro h; exact absurd h (by decide))
        · rw [scanInlines_literal c t htr hc]
          exact consTextChar_canon c _ (ih t hlen htnl) hcnl hbang

theorem scan_canon (s : List Char) (hnl : '\n' ∉ s) :
    InlsCanon (scanInlines s) :=
  scan_canon_aux s.length s le_rfl hnl

theorem bracketParen_render (txt href R : List Char) (h1 : ']' ∉ txt)
    (h2 : ')' ∉ href) (h3 : txt.head? ≠ some '[') :
    bracketParen (txt ++ ']' :: '(' :: (href ++ ')' :: R)) =
      some (txt, href, R) := by
  rw [bracketParen.eq_def, splitOnChar_append ']' txt _ h1]
  simp only [splitOnChar_append ')' href R h2]
  simp [h3]

/-- The canonical serialization of a non-text canonical run matches back
as exactly that run, whatever follows. -/
theorem tryInlineHere_render (i : Inline) (R : List Char) (hok : InlOK i)
    (hnt : isTextRun i = false) :
    tryInlineHere (renderInline i ++ R) = some (i, R) := by
  cases i with
  | text s => simp [isTextRun] at hnt
  | wiki inner =>
    obtain ⟨hnone, hlast, hnl⟩ := hok
    have hre : renderInline (Inline.wiki inner) ++ R =
        '[' :: '[' :: (inner ++ ']' :: ']' :: R) := by
      simp [renderInline]
    rw [hre, tryInlineHere]
    have hwk : tryWikiHere ('[' :: '[' :: (inner ++ ']' :: ']' :: R)) =
        some (inner, R) := by
      rw [tryWikiHere_cons2, if_pos ⟨rfl, rfl⟩, splitOnRR_eq_pair,
        splitOnPair_append ']' inner R hnone hlast]
      simp [hnl]
    rw [oalt_some_left _ _ _ (by rw [hwk]; rfl)]
  | codeSpan c =>
    obtain ⟨hm, hnl⟩ := hok
    have hre : renderInline (Inline.codeSpan c) ++ R = '`' :: (c ++ '`' :: R) := by
      simp [renderInline]
    rw [hre, tryInlineHere,
      tryWikiHere_none_head _ _ (by decide)]
    rw [show ((none : Option (List Char × List Char)).map
      (fun p => (Inline.wiki p.1, p.2))) = none from rfl]
    rw [oalt_none_left _ _ rfl]
    have hcd : tryCodeHere ('`' :: (c ++ '`' :: R)) = some (Inline.codeSpan c, R) := by
      rw [tryCodeHere_cons, if_pos rfl, splitOnChar_append '`' c R hm]
      rfl
    rw [oalt_some_left _ _ _ hcd]
  | bold c =>
    obtain ⟨hnone, hlast, hnl⟩ := hok
    have hre : renderInline (Inline.bold c) ++ R =
        '*' :: '*' :: (c ++ '*' :: '*' :: R) := by
      simp [renderInline]
    rw [hre, tryInlineHere,
      tryWikiHere_none_head _ _ (by decide)]
    rw [show ((none : Option (List Char × List Char)).map
      (fun p => (Inline.wiki p.1, p.2))) = none from rfl]
    rw [oalt_none_left _ _ rfl,
      oalt_none_left _ _ (tryCodeHere_none_head _ _ (by decide))]
    have hbd : tryPair '*' Inline.bold ('*' :: '*' :: (c ++ '*' :: '*' :: R)) =
        some (Inline.bold c, R) := by
      rw [tryPair_cons2, if_pos ⟨rfl, rfl⟩,
        splitOnPair_append '*' c R hnone hlast]
      rfl
    rw [oalt_some_left _ _ _ hbd]
  | strike c =>
    obtain ⟨hnone, hlast, hnl⟩ := hok
    have hre : renderInline (Inline.strike c) ++ R =
        '~' :: '~' :: (c ++ '~' :: '~' :: R) := by
      simp [renderInline]
    rw [hre, tryInlineHere,
      tryWikiHere_none_head _ _ (by decide)]
    rw [show ((none : Option (List Char × List Char)).map
      (fun p => (Inline.wiki p.1, p.2))) = none from rfl]
    rw [oalt_none_left _ _ rfl,
      oalt_none_left _ _ (tryCodeHere_none_head _ _ (by decide)),
      oalt_none_left _ _ (tryPair_none_head '*' Inline.bold _ _ (by decide)),
      oalt_none_left _ _ (tryBoldUnder_none_head _ _ (by decide))]
    have hst : tryPair '~' Inline.strike ('~' :: '~' :: (c ++ '~' :: '~' :: R)) =
        some (Inline.strike c, R) := by
      rw [tryPair_cons2, if_pos ⟨rfl, rfl⟩,
        splitOnPair_append '~' c R hnone hlast]
      rfl
    rw [oalt_some_left _ _ _ hst]
  | italic c =>
    obtain ⟨hne, hm, hnl⟩ := hok
    cases c with
    | nil => exact absurd rfl hne
    | cons c0 c' =>
      have hc0 : c0 ≠ '*' := fun h => hm (by rw [h]; exact List.mem_cons_self _ _)
      have hre : renderInline (Inline.italic (c0 :: c')) ++ R =
          '*' :: c0 :: (c' ++ '*' :: R) := by
        simp [renderInline]
      rw [hre, tryInlineHere,
        tryWikiHere_none_head _ _ (by decide)]
      rw [show ((none : Option (List Char × List Char)).map
        (fun p => (Inline.wiki p.1, p.2))) = none from rfl]
      rw [oalt_none_left _ _ rfl,
        oalt_none_left _ _ (tryCodeHere_none_head _ _ (by decide)),
        oalt_none_left _ _ (tryPair_none_second '*' Inline.bold _ _ _ hc0),
        oalt_none_left _ _ (tryBoldUnder_none_head _ _ (by decide)),
        oalt_none_left _ _ (tryPair_none_head '~' Inline.strike _ _ (by decide))]
      have hit : tryItalicStar ('*' :: c0 :: (c' ++ '*' :: R)) =
          some (Inline.italic (c0 :: c'), R) := by
        rw [tryItalicStar_cons, if_pos rfl,
          show c0 :: (c' ++ '*' :: R) = (c0 :: c') ++ '*' :: R from rfl,
          splitOnChar_append '*' (c0 :: c') R hm]
        simp
      rw [oalt_some_left _ _ _ hit]
  | link a b =>
    obtain ⟨hm1, hm2, hhead, hnl1, hnl2⟩ := hok
    have hre : renderInline (Inline.link a b) ++ R =
        '[' :: (a ++ ']' :: '(' :: (b ++ ')' :: R)) := by
      simp [renderInline]
    have hwk : tryWikiHere ('[' :: (a ++ ']' :: '(' :: (b ++ ')' :: R))) = none := by
      cases a with
      | nil => exact tryWikiHere_none_second _ _ _ (by decide)
      | cons a0 a' =>
        have ha0 : a0 ≠ '[' := fun h => hhead (by rw [h]; rfl)
        exact tryWikiHere_none_second _ _ _ ha0
    rw [hre, tryInlineHere, hwk]
    rw [show ((none : Option (List Char × List Char)).map
      (fun p => (Inline.wiki p.1, p.2))) = none from rfl]
    rw [oalt_none_left _ _ rfl,
      oalt_none_left _ _ (tryCodeHere_none_head _ _ (by decide)),
      oalt_none_left _ _ (tryPair_none_head '*' Inline.bold _ _ (by decide)),
      oalt_none_left _ _ (tryBoldUnder_none_head _ _ (by decide)),
      oalt_none_left _ _ (tryPair_none_head '~' Inline.strike _ _ (by decide)),
      oalt_none_left _ _ (tryItalicStar_none_head _ _ (by decide)),
      oalt_none_left _ _ (tryItalicUnder_none_head _ _ (by decide))]
    have hlk : tryLinkAt ('[' :: (a ++ ']' :: '(' :: (b ++ ')' :: R))) =
        some (Inline.link a b, R) := by
      rw [tryLinkAt_cons, if_pos rfl, bracketParen_render a b R hm1 hm2 hhead]
      rfl
    rw [oalt_some_left _ _ _ hlk]
  | image a b =>
    obtain ⟨hm1, hm2, hhead, hnl1, hnl2⟩ := hok
    have hre : renderInline (Inline.image a b) ++ R =
        '!' :: '[' :: (a ++ ']' :: '(' :: (b ++ ')' :: R)) := by
      simp [renderInline]
    rw [hre, tryInlineHere_bang, tryImageAt_cons2, if_pos ⟨rfl, rfl⟩,
      bracketParen_render a b R hm1 hm2 hhead]
    rfl

theorem tryInlineHere_nil : tryInlineHere [] = none := rfl

theorem scanInlines_match_any (s : List Char) (i : Inline) (post : List Char)
    (h : tryInlineHere s = some (i, post)) :
    scanInlines s = i :: scanInlines post := by
  cases s with
  | nil => rw [tryInlineHere_nil] at h; exact absurd h (by simp)
  | cons c t => exact scanInlines_match c t i post h

/-- Whether a run list begins with a text run. -/
def headText : List Inline → Bool
  | Inline.text _ :: _ => true
  | _ => false

theorem consTextChar_headNotText (c : Char) (r : List Inline)
    (h : headText r = false) : consTextChar c r = Inline.text [c] :: r := by
  match r with
  | [] => rfl
  | Inline.text s :: rest => simp [headText] at h
  | Inline.wiki w :: rest => rfl
  | Inline.bold s :: rest => rfl
  | Inline.italic s :: rest => rfl
  | Inline.strike s :: rest => rfl
  | Inline.codeSpan s :: rest => rfl
  | Inline.link a b :: rest => rfl
  | Inline.image a b :: rest => rfl

theorem bracketParen_lbrack (Y : List Char) : bracketParen ('[' :: Y) = none := by
  rw [bracketParen.eq_def]
  cases hs : splitOnChar ']' ('[' :: Y) with
  | none => rfl
  | some ar =>
    obtain ⟨a, r⟩ := ar
    obtain ⟨hd, hm⟩ := splitOnChar_decomp ']' _ a r hs
    cases a with
    | nil =>
      exfalso
      have : '[' = ']' := by
        have h2 : '[' :: Y = ']' :: r := by simpa using hd
        exact ((List.cons.injEq _ _ _ _).mp h2).1
      exact absurd this (by decide)
    | cons a0 a' =>
      have ha0 : a0 = '[' := by
        have h2 : '[' :: Y = a0 :: (a' ++ ']' :: r) := by simpa using hd
        exact (((List.cons.injEq _ _ _ _).mp h2).1).symm
      subst ha0
      cases r with
      | nil => rfl
      | cons c2 r2 =>
        by_cases hc2 : c2 = '('
        · subst hc2
          cases hs2 : splitOnChar ')' r2 with
          | none => simp [hs2]
          | some bq =>
            obtain ⟨b, q⟩ := bq
            simp [hs2]
        · simp [hc2]

/-- The image matcher never fires into an escaped text character. -/
theorem tryImageAt_bang_esc (s0 : Char) (W : List Char) :
    tryImageAt ('!' :: (escChar s0 ++ W)) = none := by
  by_cases h : isEsc s0
  · rw [show escChar s0 ++ W = '\\' :: s0 :: W from by simp [escChar, h]]
    exact tryImageAt_none_second _ _ _ (by decide)
  · rw [show escChar s0 ++ W = s0 :: W from by simp [escChar, h]]
    refine tryImageAt_none_second _ _ _ (fun he => ?_)
    rw [he] at h
    exact h (by decide)

/-- The image matcher never fires into the serialization of a canonical
tail whose head is neither a text run nor a generic link. -/
theorem tryImageAt_bang_render (rest : List Inline)
    (hht : headText rest = false) (hhl : headLink rest = false) :
    tryImageAt ('!' :: renderInlines rest) = none := by
  match rest with
  | [] => rfl
  | Inline.text s :: r2 => simp [headText] at hht
  | Inline.link a b :: r2 => simp [headLink] at hhl
  | Inline.wiki w :: r2 =>
    have hre : renderInlines (Inline.wiki w :: r2) =
        '[' :: '[' :: (w ++ ']' :: ']' :: renderInlines r2) := by
      rw [renderInlines_cons]
      simp [renderInline]
    rw [hre, tryImageAt_cons2, if_pos ⟨rfl, rfl⟩,
      bracketParen_lbrack (w ++ ']' :: ']' :: renderInlines r2)]
    rfl
  | Inline.bold s :: r2 =>
    have hre : renderInlines (Inline.bold s :: r2) =
        '*' :: '*' :: (s ++ '*' :: '*' :: renderInlines r2) := by
      rw [renderInlines_cons]
      simp [renderInline]
    rw [hre]
    exact tryImageAt_none_second _ _ _ (by decide)
  | Inline.italic s :: r2 =>
    have hre : renderInlines (Inline.italic s :: r2) =
        '*' :: (s ++ '*' :: renderInlines r2) := by
      rw [renderInlines_cons]
      simp [renderInline]
    rw [hre]
    exact tryImageAt_none_second _ _ _ (by decide)
  | Inline.strike s :: r2 =>
    have hre : renderInlines (Inline.strike s :: r2) =
        '~' :: '~' :: (s ++ '~' :: '~' :: renderInlines r2) := by
      rw [renderInlines_cons]
      simp [renderInline]
    rw [hre]
    exact tryImageAt_none_second _ _ _ (by decide)
  | Inline.codeSpan s :: r2 =>
    have hre : renderInlines (Inline.codeSpan s :: r2) =
        '`' :: (s ++ '`' :: renderInlines r2) := by
      rw [renderInlines_cons]
      simp [renderInline]
    rw [hre]
    exact tryImageAt_none_second _ _ _ (by decide)
  | Inline.image a b :: r2 =>
    have hre : renderInlines (Inline.image a b :: r2) =
        '!' :: '[' :: (a ++ ']' :: '(' :: (b ++ ')' :: renderInlines r2)) := by
      rw [renderInlines_cons]
      simp [renderInline]
    rw [hre]
    exact tryImageAt_none_second _ _ _ (by decide)

/-- One escaped character consumes as literal text in front of anything
the image matcher cannot fire into. -/
theorem scan_esc_cons (c : Char) (Z : List Char)
    (hhd : c = '!' → tryImageAt ('!' :: Z) = none) :
    scanInlines (escChar c ++ Z) = consTextChar c (scanInlines Z) := by
  by_cases hesc : isEsc c
  · rw [show escChar c ++ Z = '\\' :: c :: Z from by simp [escChar, hesc]]
    exact scanInlines_esc c Z hesc
  · rw [show escChar c ++ Z = c :: Z from by simp [escChar, hesc]]
    by_cases hbang : c = '!'
    · subst hbang
      refine scanInlines_literal _ _ ?_ (by decide)
      rw [tryInlineHere_bang]
      exact hhd rfl
    · refine scanInlines_literal _ _ ?_ ?_
      · refine tryInlineHere_none_plain c Z ?_ ?_ ?_ ?_ ?_ hbang <;>
          (intro he; rw [he] at hesc; exact hesc (by decide))
      · intro he; rw [he] at hesc; exact hesc (by decide)

theorem headText_cons (j : Inline) (r2 : List Inline) :
    headText (j :: r2) = isTextRun j := by
  cases j <;> rfl

theorem headLink_cons (j : Inline) (r2 : List Inline) :
    headLink (j :: r2) = isLinkRun j := by
  cases j <;> rfl

/-- Scanning the canonical serialization of a text run followed by a
canonical tail reproduces the text run. -/
theorem render_scan_text (rest : List Inline)
    (hrest : scanInlines (renderInlines rest) = rest)
    (hht : headText rest = false) :
    ∀ s : List Char, s ≠ [] →
    (s.getLast? = some '!' → headLink rest = false) →
    scanInlines (renderText s ++ renderInlines rest) = Inline.text s :: rest := by
  intro s
  induction s with
  | nil => intro h; exact absurd rfl h
  | cons c s' ih =>
    intro _ hbang
    by_cases hs' : s' = []
    · subst hs'
      have hz : renderText [c] ++ renderInlines rest =
          escChar c ++ renderInlines rest := by
        simp [renderText]
      have himg : c = '!' → tryImageAt ('!' :: renderInlines rest) = none := by
        intro hcb
        refine tryImageAt_bang_render rest hht (hbang ?_)
        rw [hcb]
        rfl
      rw [hz, scan_esc_cons c _ himg, hrest, consTextChar_headNotText c rest hht]
    · have hz : renderText (c :: s') ++ renderInlines rest =
          escChar c ++ (renderText s' ++ renderInlines rest) := by
        rw [renderText_cons, List.append_assoc]
      have himg : c = '!' →
          tryImageAt ('!' :: (renderText s' ++ renderInlines rest)) = none := by
        intro _
        cases s' with
        | nil => exact absurd rfl hs'
        | cons s0 s'' =>
          have h2 : renderText (s0 :: s'') ++ renderInlines rest =
              escChar s0 ++ (renderText s'' ++ renderInlines rest) := by
            rw [renderText_cons, List.append_assoc]
          rw [h2]
          exact tryImageAt_bang_esc s0 _
      have hlast : s'.getLast? = (c :: s').getLast? := by
        cases s' with
        | nil => exact absurd rfl hs'
        | cons e s2 => rw [List.getLast?_cons_cons]
      rw [hz, scan_esc_cons c _ himg, ih hs' (fun hg => hbang (hlast ▸ hg)),
        show consTextChar c (Inline.text s' :: rest) =
          Inline.text (c :: s') :: rest from rfl]

/-- Scanning the canonical serialization of a canonical run list
reproduces the list exactly. -/
theorem render_scan (l : List Inline) (h : InlsCanon l) :
    scanInlines (renderInlines l) = l := by
  induction l with
  | nil => rw [renderInlines_nil, scanInlines_nil]
  | cons i rest ih =>
    obtain ⟨hok, hnext, hrest⟩ := h
    have hrest2 := ih hrest
    cases i with
    | text s =>
      obtain ⟨hne, hnl⟩ := hok
      have hht : headText rest = false := by
        cases rest with
        | nil => rfl
        | cons j r2 =>
          rw [headText_cons]
          cases hj : isTextRun j with
          | false => rfl
          | true => exact absurd ⟨rfl, hj⟩ hnext.1
      have hbang : s.getLast? = some '!' → headLink rest = false := by
        intro hg
        cases rest with
        | nil => rfl
        | cons j r2 =>
          rw [headLink_cons]
          cases hj : isLinkRun j with
          | false => rfl
          | true =>
            exact absurd ⟨by simp [lastBang, hg], hj⟩ hnext.2
      rw [renderInlines_cons]
      exact render_scan_text rest hrest2 hht s hne hbang
    | wiki w =>
      rw [renderInlines_cons,
        scanInlines_match_any _ _ _ (tryInlineHere_render _ _ hok rfl), hrest2]
    | bold c =>
      rw [renderInlines_cons,
        scanInlines_match_any _ _ _ (tryInlineHere_render _ _ hok rfl), hrest2]
    | italic c =>
      rw [renderInlines_cons,
        scanInlines_match_any _ _ _ (tryInlineHere_render _ _ hok rfl), hrest2]
    | strike c =>
      rw [renderInlines_cons,
        scanInlines_match_any _ _ _ (tryInlineHere_render _ _ hok rfl), hrest2]
    | codeSpan c =>
      rw [renderInlines_cons,
        scanInlines_match_any _ _ _ (tryInlineHere_render _ _ hok rfl), hrest2]
    | link a b =>
      rw [renderInlines_cons,
        scanInlines_match_any _ _ _ (tryInlineHere_render _ _ hok rfl), hrest2]
    | image a b =>
      rw [renderInlines_cons,
        scanInlines_match_any _ _ _ (tryInlineHere_render _ _ hok rfl), hrest2]

/-- On a single line, render-after-scan is a normal form: re-scanning it
gives back the same runs. -/
theorem scan_render_scan (s : List Char) (hnl : '\n' ∉ s) :
    scanInlines (renderInlines (scanInlines s)) = scanInlines s :=
  render_scan (scanInlines s) (scan_canon s hnl)

/-! ### Shape lemmas for serialized scans -/

theorem tryInlineHere_nonText (s : List Char) (i : Inline) (post : List Char)
    (h : tryInlineHere s = some (i, post)) : isTextRun i = false := by
  rcases tryInlineHere_cases s i post h with h | h | h | h | h | h | h | h | h
  · rw [Option.map_eq_some'] at h
    obtain ⟨⟨inner, p2⟩, hp, hpe⟩ := h
    have hpe2 : (Inline.wiki inner, p2) = (i, post) := hpe
    injection hpe2 with h1 h2
    rw [← h1]
    rfl
  · obtain ⟨c, hi, _⟩ := tryCodeHere_inv s i post h
    rw [hi]; rfl
  · obtain ⟨c, hi, _⟩ := tryPair_inv '*' Inline.bold s i post h
    rw [hi]; rfl
  · obtain ⟨c, hi, _⟩ := tryBoldUnder_inv s i post h
    rw [hi]; rfl
  · obtain ⟨c, hi, _⟩ := tryPair_inv '~' Inline.strike s i post h
    rw [hi]; rfl
  · obtain ⟨c, hi, _⟩ := tryItalicStar_inv s i post h
    rw [hi]; rfl
  · obtain ⟨c, hi, _⟩ := tryItalicUnder_inv s i post h
    rw [hi]; rfl
  · obtain ⟨a, b, hi, _⟩ := tryLinkAt_inv s i post h
    rw [hi]; rfl
  · obtain ⟨a, b, hi, _⟩ := tryImageAt_inv s i post h
    rw [hi]; rfl

theorem renderInline_nonText_shape (i : Inline) (hnt : isTextRun i = false) :
    ∃ y Y, renderInline i = y :: Y ∧
      (y = '[' ∨ y = '`' ∨ y = '*' ∨ y = '~' ∨ y = '!') := by
  cases i with
  | text s => simp [isTextRun] at hnt
  | wiki w => exact ⟨'[', _, rfl, Or.inl rfl⟩
  | bold c => exact ⟨'*', _, rfl, Or.inr (Or.inr (Or.inl rfl))⟩
  | italic c => exact ⟨'*', _, rfl, Or.inr (Or.inr (Or.inl rfl))⟩
  | strike c => exact ⟨'~', _, rfl, Or.inr (Or.inr (Or.inr (Or.inl rfl)))⟩
  | codeSpan c => exact ⟨'`', _, rfl, Or.inr (Or.inl rfl)⟩
  | link a b => exact ⟨'[', _, rfl, Or.inl rfl⟩
  | image a b => exact ⟨'!', _, rfl, Or.inr (Or.inr (Or.inr (Or.inr rfl)))⟩

theorem renderScan_ne_nil (l : List Char) (hl : l ≠ []) :
    renderInlines (scanInlines l) ≠ [] := by
  cases l with
  | nil => exact absurd rfl hl
  | cons c t =>
    cases htr : tryInlineHere (c :: t) with
    | some ip =>
      obtain ⟨i, post⟩ := ip
      rw [scanInlines_match c t i post htr, renderInlines_cons]
      obtain ⟨y, Y, hsh, _⟩ :=
        renderInline_nonText_shape i (tryInlineHere_nonText _ _ _ htr)
      rw [hsh]
      simp
    | none =>
      by_cases hc : c = '\\'
      · subst hc
        cases t with
        | nil =>
          rw [scanInlines_backslash_nil]
          simp [renderInlines, renderInline, renderText, escChar, isEsc]
        | cons d t2 =>
          by_cases hd : isEsc d
          · rw [scanInlines_esc d t2 hd, renderInlines_consTextChar]
            simp [escChar, hd]
          · rw [scanInlines_backslash_nonesc d t2 (by simpa using hd),
              renderInlines_consTextChar]
            simp [escChar, isEsc]
      · rw [scanInlines_literal c t htr hc, renderInlines_consTextChar]
        simp [escChar]
        intro hcon
        by_cases he : isEsc c
        · rw [if_pos he] at hcon; simp at hcon
        · rw [if_neg he] at hcon; simp at hcon

/-- Peeling one plain character (one that no canonical serialization can
begin with) off a serialized scan. -/
theorem renderScan_head_plain (l : List Char) (x : Char) (X : List Char)
    (h : renderInlines (scanInlines l) = x :: X)
    (hx1 : x ≠ '\\') (hx2 : x ≠ '[') (hx3 : x ≠ '`') (hx4 : x ≠ '*')
    (hx5 : x ≠ '~') (hx6 : x ≠ '!') :
    ∃ t, l = x :: t ∧ X = renderInlines (scanInlines t) := by
  cases l with
  | nil =>
    rw [scanInlines_nil, renderInlines_nil] at h
    exact absurd h (by simp)
  | cons c t =>
    cases htr : tryInlineHere (c :: t) with
    | some ip =>
      obtain ⟨i, post⟩ := ip
      rw [scanInlines_match c t i post htr, renderInlines_cons] at h
      obtain ⟨y, Y, hsh, hy⟩ :=
        renderInline_nonText_shape i (tryInlineHere_nonText _ _ _ htr)
      rw [hsh] at h
      have hxy : x = y := (List.cons.injEq _ _ _ _ ▸ h : _ ∧ _).1.symm
      exfalso
      rcases hy with hy | hy | hy | hy | hy <;> rw [hy] at hxy
      · exact hx2 hxy
      · exact hx3 hxy
      · exact hx4 hxy
      · exact hx5 hxy
      · exact hx6 hxy
    | none =>
      by_cases hc : c = '\\'
      · subst hc
        exfalso
        cases t with
        | nil =>
          rw [scanInlines_backslash_nil] at h
          have h2 : renderText ['\\'] = x :: X := by
            have h3 : renderInlines [Inline.text ['\\']] = renderText ['\\'] := by
              simp [renderInlines, renderInline]
            rw [← h3, h]
          rw [show renderText ['\\'] = ['\\', '\\'] from by
            simp [renderText, escChar, isEsc]] at h2
          exact hx1 ((List.cons.injEq _ _ _ _ ▸ h2 : _ ∧ _).1.symm)
        | cons d t2 =>
          by_cases hd : isEsc d
          · rw [scanInlines_esc d t2 hd, renderInlines_consTextChar,
              show escChar d = ['\\', d] from by simp [escChar, hd]] at h
            exact hx1 ((List.cons.injEq _ _ _ _ ▸ h : _ ∧ _).1.symm)
          · rw [scanInlines_backslash_nonesc d t2 (by simpa using hd),
              renderInlines_consTextChar,
              show escChar '\\' = ['\\', '\\'] from by simp [escChar, isEsc]] at h
            exact hx1 ((List.cons.injEq _ _ _ _ ▸ h : _ ∧ _).1.symm)
      · rw [scanInlines_literal c t htr hc, renderInlines_consTextChar] at h
        by_cases he : isEsc c
        · exfalso
          rw [show escChar c = ['\\', c] from by simp [escChar, he]] at h
          exact hx1 ((List.cons.injEq _ _ _ _ ▸ h : _ ∧ _).1.symm)
        · rw [show escChar c = [c] from by simp [escChar, he]] at h
          have h2 : c = x ∧ renderInlines (scanInlines t) = X :=
            (List.cons.injEq _ _ _ _ ▸ h : _ ∧ _)
          exact ⟨t, by rw [h2.1], h2.2.symm⟩

/-- Peeling a whole plain prefix off a serialized scan. -/
theorem renderScan_prefix_plain (p : List Char)
    (hp : ∀ y ∈ p, y ≠ '\\' ∧ y ≠ '[' ∧ y ≠ '`' ∧ y ≠ '*' ∧ y ≠ '~' ∧ y ≠ '!') :
    ∀ (l X : List Char), renderInlines (scanInlines l) = p ++ X →
    ∃ t, l = p ++ t ∧ X = renderInlines (scanInlines t) := by
  induction p with
  | nil =>
    intro l X h
    exact ⟨l, rfl, by simpa using h.symm⟩
  | cons y p' ih =>
    intro l X h
    obtain ⟨hy1, hy2, hy3, hy4, hy5, hy6⟩ := hp y (List.mem_cons_self _ _)
    obtain ⟨t1, hl1, hX1⟩ := renderScan_head_plain l y (p' ++ X)
      (by rw [h]; rfl) hy1 hy2 hy3 hy4 hy5 hy6
    obtain ⟨t, hl2, hX2⟩ := ih (fun z hz => hp z (List.mem_cons_of_mem _ hz))
      t1 X hX1.symm
    exact ⟨t, by rw [hl1, hl2]; rfl, hX2⟩

/-- A serialized scan made only of plain characters mirrors its source
exactly. -/
theorem renderScan_all_plain (P : Char → Bool)
    (hP1 : P '\\' = false) (hP2 : P '[' = false) (hP3 : P '`' = false)
    (hP4 : P '*' = false) (hP5 : P '~' = false) (hP6 : P '!' = false) :
    ∀ (n : Nat) (l : List Char), l.length ≤ n →
    (renderInlines (scanInlines l)).all P = true →
    renderInlines (scanInlines l) = l := by
  intro n
  induction n with
  | zero =>
    intro l h1 _
    have : l = [] := List.length_eq_zero.mp (Nat.le_zero.mp h1)
    subst this
    rw [scanInlines_nil, renderInlines_nil]
  | succ n ih =>
    intro l h1 hall
    cases l with
    | nil => rw [scanInlines_nil, renderInlines_nil]
    | cons c t =>
      cases hR : renderInlines (scanInlines (c :: t)) with
      | nil => exact absurd hR (renderScan_ne_nil (c :: t) (by simp))
      | cons x X =>
        rw [hR] at hall
        have hPx : P x = true := by
          rw [List.all_cons] at hall
          exact (Bool.and_eq_true _ _ ▸ hall).1
        have hxne : x ≠ '\\' ∧ x ≠ '[' ∧ x ≠ '`' ∧ x ≠ '*' ∧ x ≠ '~' ∧ x ≠ '!' := by
          refine ⟨?_, ?_, ?_, ?_, ?_, ?_⟩ <;>
            (intro he; rw [he] at hPx)
          · rw [hP1] at hPx; exact absurd hPx (by simp)
          · rw [hP2] at hPx; exact absurd hPx (by simp)
          · rw [hP3] at hPx; exact absurd hPx (by simp)
          · rw [hP4] at hPx; exact absurd hPx (by simp)
          · rw [hP5] at hPx; exact absurd hPx (by simp)
          · rw [hP6] at hPx; exact absurd hPx (by simp)
        obtain ⟨t2, hl, hX⟩ := renderScan_head_plain (c :: t) x X hR
          hxne.1 hxne.2.1 hxne.2.2.1 hxne.2.2.2.1 hxne.2.2.2.2.1 hxne.2.2.2.2.2
        have hcx : c = x := ((List.cons.injEq _ _ _ _).mp hl).1
        have ht2 : t = t2 := ((List.cons.injEq _ _ _ _).mp hl).2
        have hXall : X.all P = true := by
          rw [List.all_cons] at hall
          exact (Bool.and_eq_true _ _ ▸ hall).2
        have hXt : X = t := by
          rw [hX, ← ht2]
          exact ih t (by simpa using h1) (by rw [ht2, ← hX]; exact hXall)
        rw [hcx, hXt]

/-! ### The markdown <-> document converter

Modelled from the spec: the forward conversion (markdown to structured
document) and the reverse conversion (document to canonical markdown) are
realized in the application by `marked.parse` plus the wiki-link and
code-fence pre-passes, and by `turndown`; those libraries are not part of
this repository, so the converter is modelled here from specification
section 4.2: paragraphs, ATX headings, task-list items, bullet and
ordered list items, blockquotes, horizontal rules and fenced code blocks,
with the inline runs scanned by `scanInlines` (plain text with
markdown-special escaping, wiki links, bold, italic, strikethrough,
inline code, generic links and images).  Parsing is total: any
unrecognized line becomes literal paragraph text. -/

/-- Block nodes of the structured document. -/
inductive Block where
  | para (inls : List Inline)
  | heading (level : Nat) (inls : List Inline)
  | taskItem (checked : Bool) (inls : List Inline)
  | bulletItem (inls : List Inline)
  | orderedItem (num : List Char) (inls : List Inline)
  | blockquote (inls : List Inline)
  | hrule
  | code (lang : List Char) (content : List Char)
deriving DecidableEq

/-- A line consisting only of whitespace (skipped between blocks). -/
def isBlankLine (l : List Char) : Bool := l.all wsChar

/-- A line opening or closing a triple-backtick fence. -/
def isFenceLine (l : List Char) : Bool := ['`', '`', '`'].isPrefixOf l

/-- ATX heading: one to six `#` characters followed by a space. -/
def headingMatch (l : List Char) : Option (Nat × List Char) :=
  let k := (l.takeWhile (fun c => c == '#')).length
  if 1 ≤ k ∧ k ≤ 6 then
    match l.drop k with
    | c :: r => if c = ' ' then some (k, r) else none
    | [] => none
  else none

/-- The task-list line pattern, modelling the source regex
`^-\s\[([ xX])\]\s(.*)$` of the Enter handler (and the GFM task items of
the converter): returns the captured flag and the remaining text. -/
def taskMatch (l : List Char) : Option (Char × List Char) :=
  match l with
  | c0 :: c1 :: c2 :: f :: c4 :: c5 :: r =>
    if c0 = '-' ∧ wsChar c1 ∧ c2 = '[' ∧ (f = ' ' ∨ f = 'x' ∨ f = 'X') ∧
        c4 = ']' ∧ wsChar c5
    then some (f, r) else none
  | _ => none

/-- Horizontal rule: a line of three or more dashes. -/
def hrMatch (l : List Char) : Bool :=
  decide (3 ≤ l.length) && l.all (fun c => c == '-')

/-- Bullet list item: a dash followed by whitespace. -/
def bulletMatch (l : List Char) : Option (List Char) :=
  match l with
  | c0 :: c1 :: r => if c0 = '-' ∧ wsChar c1 then some r else none
  | _ => none

/-- Ordered list item: digits, a dot and whitespace. -/
def orderedMatch (l : List Char) : Option (List Char × List Char) :=
  let num := l.takeWhile (fun c => c.isDigit)
  if num = [] then none
  else
    match l.drop num.length with
    | c :: c2 :: r => if c = '.' ∧ wsChar c2 then some (num, r) else none
    | _ => none

/-- Drop one leading space (the optional space after `>`). -/
def dropOneSpace (t : List Char) : List Char :=
  match t with
  | c :: u => if c = ' ' then u else c :: u
  | [] => []

/-- Blockquote: `>` with an optional following space. -/
def quoteMatch (l : List Char) : Option (List Char) :=
  match l with
  | c :: t => if c = '>' then some (dropOneSpace t) else none
  | _ => none

/-- Strip a single trailing newline, modelling the code-fence newline
normalization pre-pass of the content sync effect (the regexes replacing
a newline directly before the closing code tag). -/
def stripTrailingNL (c : List Char) : List Char :=
  if c.getLast? = some '\n' then c.dropLast else c

/-- Line-based forward conversion with fuel (any fuel at least the number
of lines gives the true value).  Fenced code content is produced with the
parser's redundant trailing newline and then normalized by
`stripTrailingNL`, mirroring the marked output plus the pre-pass. -/
def parseLinesF : Nat → List (List Char) → List Block
  | 0, _ => []
  | fuel + 1, lines =>
    match lines with
    | [] => []
    | l :: ls =>
      if isBlankLine l then parseLinesF fuel ls
      else if isFenceLine l then
        Block.code (l.drop 3)
            (stripTrailingNL (joinLines (ls.takeWhile (fun x => !isFenceLine x)) ++ ['\n'])) ::
          parseLinesF fuel ((ls.dropWhile (fun x => !isFenceLine x)).drop 1)
      else
        match headingMatch l with
        | some (k, r) => Block.heading k (scanInlines r) :: parseLinesF fuel ls
        | none =>
          if hrMatch l then Block.hrule :: parseLinesF fuel ls
          else
            match taskMatch l with
            | some (f, r) =>
              Block.taskItem (f == 'x' || f == 'X') (scanInlines r) :: parseLinesF fuel ls
            | none =>
              match bulletMatch l with
              | some r => Block.bulletItem (scanInlines r) :: parseLinesF fuel ls
              | none =>
                match orderedMatch l with
                | some (num, r) =>
                  Block.orderedItem num (scanInlines r) :: parseLinesF fuel ls
                | none =>
                  match quoteMatch l with
                  | some r => Block.blockquote (scanInlines r) :: parseLinesF fuel ls
                  | none => Block.para (scanInlines l) :: parseLinesF fuel ls

/-- Forward conversion from a list of lines. -/
def parseLines (lines : List (List Char)) : List Block :=
  parseLinesF lines.length lines

/-- The forward conversion: markdown text to structured document. -/
def parse (m : List Char) : List Block :=
  parseLines (splitLines m)

/-- Canonical serialization of one block to its markdown lines. -/
def blockLines : Block → List (List Char)
  | Block.para inls => [renderInlines inls]
  | Block.heading k inls => [List.replicate k '#' ++ ' ' :: renderInlines inls]
  | Block.taskItem c inls =>
    ['-' :: ' ' :: '[' :: (if c then 'x' else ' ') :: ']' :: ' ' :: renderInlines inls]
  | Block.bulletItem inls => ['-' :: ' ' :: renderInlines inls]
  | Block.orderedItem num inls => [num ++ '.' :: ' ' :: renderInlines inls]
  | Block.blockquote inls => ['>' :: ' ' :: renderInlines inls]
  | Block.hrule => [['-', '-', '-']]
  | Block.code lang content =>
    ('`' :: '`' :: '`' :: lang) :: (splitLines content ++ [['`', '`', '`']])

/-- Lines of a document: blocks separated by one blank line. -/
def docLines : List Block → List (List Char)
  | [] => []
  | [b] => blockLines b
  | b :: b2 :: bs => blockLines b ++ [] :: docLines (b2 :: bs)

/-- The reverse conversion: structured document to canonical markdown. -/
def serialize (bs : List Block) : List Char :=
  joinLines (docLines bs)

theorem stripTrailingNL_append_nl (c : List Char) :
    stripTrailingNL (c ++ ['\n']) = c := by
  simp [stripTrailingNL]

theorem parseLinesF_nil (fuel : Nat) : parseLinesF fuel [] = [] := by
  cases fuel <;> rfl

theorem parseLinesF_succ (fuel : Nat) (l : List Char) (ls : List (List Char)) :
    parseLinesF (fuel + 1) (l :: ls) =
      if isBlankLine l then parseLinesF fuel ls
      else if isFenceLine l then
        Block.code (l.drop 3)
            (stripTrailingNL (joinLines (ls.takeWhile (fun x => !isFenceLine x)) ++ ['\n'])) ::
          parseLinesF fuel ((ls.dropWhile (fun x => !isFenceLine x)).drop 1)
      else
        match headingMatch l with
        | some (k, r) => Block.heading k (scanInlines r) :: parseLinesF fuel ls
        | none =>
          if hrMatch l then Block.hrule :: parseLinesF fuel ls
          else
            match taskMatch l with
            | some (f, r) =>
              Block.taskItem (f == 'x' || f == 'X') (scanInlines r) :: parseLinesF fuel ls
            | none =>
              match bulletMatch l with
              | some r => Block.bulletItem (scanInlines r) :: parseLinesF fuel ls
              | none =>
                match orderedMatch l with
                | some (num, r) =>
                  Block.orderedItem num (scanInlines r) :: parseLinesF fuel ls
                | none =>
                  match quoteMatch l with
                  | some r => Block.blockquote (scanInlines r) :: parseLinesF fuel ls
                  | none => Block.para (scanInlines l) :: parseLinesF fuel ls := rfl

theorem parseLinesF_congr (f1 : Nat) : ∀ (f2 : Nat) (lines : List (List Char)),
    lines.length ≤ f1 → lines.length ≤ f2 → parseLinesF f1 lines = parseLinesF f2 lines := by
  induction f1 with
  | zero =>
    intro f2 lines h1 _
    have : lines = [] := List.length_eq_zero.mp (Nat.le_zero.mp h1)
    subst this
    rw [parseLinesF_nil, parseLinesF_nil]
  | succ f1 ih =>
    intro f2 lines h1 h2
    cases lines with
    | nil => rw [parseLinesF_nil, parseLinesF_nil]
    | cons l ls =>
      cases f2 with
      | zero => simp at h2
      | succ f2 =>
        rw [parseLinesF_succ, parseLinesF_succ]
        have hls1 : ls.length ≤ f1 := by simpa using h1
        have hls2 : ls.length ≤ f2 := by simpa using h2
        have hrest : ((ls.dropWhile (fun x => !isFenceLine x)).drop 1).length ≤ ls.length := by
          have hdw : (ls.dropWhile (fun x => !isFenceLine x)).length ≤ ls.length :=
            (List.dropWhile_sublist _).length_le
          rw [List.length_drop]
          omega
        by_cases hb : isBlankLine l
        · rw [if_pos hb, if_pos hb, ih f2 ls hls1 hls2]
        · rw [if_neg hb, if_neg hb]
          by_cases hf : isFenceLine l
          · rw [if_pos hf, if_pos hf,
              ih f2 _ (le_trans hrest hls1) (le_trans hrest hls2)]
          · rw [if_neg hf, if_neg hf]
            cases hh : headingMatch l with
            | some kr => rw [ih f2 ls hls1 hls2]
            | none =>
              by_cases hhr : hrMatch l
              · rw [if_pos hhr, if_pos hhr, ih f2 ls hls1 hls2]
              · rw [if_neg hhr, if_neg hhr]
                cases ht : taskMatch l with
                | some fr => rw [ih f2 ls hls1 hls2]
                | none =>
                  cases hbl : bulletMatch l with
                  | some r => rw [ih f2 ls hls1 hls2]
                  | none =>
                    cases hor : orderedMatch l with
                    | some nr => rw [ih f2 ls hls1 hls2]
                    | none =>
                      cases hq : quoteMatch l with
                      | some r => rw [ih f2 ls hls1 hls2]
                      | none => rw [ih f2 ls hls1 hls2]

theorem parseLines_nil : parseLines [] = [] := rfl

theorem parseLines_cons_blank (l : List Char) (ls : List (List Char))
    (h : isBlankLine l = true) : parseLines (l :: ls) = parseLines ls := by
  show parseLinesF (ls.length + 1) (l :: ls) = parseLines ls
  rw [parseLinesF_succ, if_pos h]
  rfl

theorem parseLines_cons_fence (l : List Char) (ls : List (List Char))
    (hb : isBlankLine l = false) (hf : isFenceLine l = true) :
    parseLines (l :: ls) =
      Block.code (l.drop 3)
          (stripTrailingNL (joinLines (ls.takeWhile (fun x => !isFenceLine x)) ++ ['\n'])) ::
        parseLines ((ls.dropWhile (fun x => !isFenceLine x)).drop 1) := by
  show parseLinesF (ls.length + 1) (l :: ls) = _
  rw [parseLinesF_succ, if_neg (by simp [hb]), if_pos hf]
  have hrest : ((ls.dropWhile (fun x => !isFenceLine x)).drop 1).length ≤ ls.length := by
    have hdw : (ls.dropWhile (fun x => !isFenceLine x)).length ≤ ls.length :=
      (List.dropWhile_sublist _).length_le
    rw [List.length_drop]
    omega
  rw [parseLinesF_congr ls.length _ _ hrest le_rfl]
  rfl

theorem parseLines_cons_heading (l : List Char) (ls : List (List Char))
    (k : Nat) (r : List Char)
    (hb : isBlankLine l = false) (hf : isFenceLine l = false)
    (hh : headingMatch l = some (k, r)) :
    parseLines (l :: ls) = Block.heading k (scanInlines r) :: parseLines ls := by
  show parseLinesF (ls.length + 1) (l :: ls) = _
  rw [parseLinesF_succ, if_neg (by simp [hb]), if_neg (by simp [hf]), hh]
  rfl

theorem parseLines_cons_hr (l : List Char) (ls : List (List Char))
    (hb : isBlankLine l = false) (hf : isFenceLine l = false)
    (hh : headingMatch l = none) (hhr : hrMatch l = true) :
    parseLines (l :: ls) = Block.hrule :: parseLines ls := by
  show parseLinesF (ls.length + 1) (l :: ls) = _
  rw [parseLinesF_succ, if_neg (by simp [hb]), if_neg (by simp [hf]), hh,
    if_pos hhr]
  rfl

theorem parseLines_cons_task (l : List Char) (ls : List (List Char))
    (f : Char) (r : List Char)
    (hb : isBlankLine l = false) (hf : isFenceLine l = false)
    (hh : headingMatch l = none) (hhr : hrMatch l = false)
    (ht : taskMatch l = some (f, r)) :
    parseLines (l :: ls) =
      Block.taskItem (f == 'x' || f == 'X') (scanInlines r) :: parseLines ls := by
  show parseLinesF (ls.length + 1) (l :: ls) = _
  rw [parseLinesF_succ, if_neg (by simp [hb]), if_neg (by simp [hf]), hh,
    if_neg (by simp [hhr]), ht]
  rfl

theorem parseLines_cons_bullet (l : List Char) (ls : List (List Char))
    (r : List Char)
    (hb : isBlankLine l = false) (hf : isFenceLine l = false)
    (hh : headingMatch l = none) (hhr : hrMatch l = false)
    (ht : taskMatch l = none) (hbl : bulletMatch l = some r) :
    parseLines (l :: ls) = Block.bulletItem (scanInlines r) :: parseLines ls := by
  show parseLinesF (ls.length + 1) (l :: ls) = _
  rw [parseLinesF_succ, if_neg (by simp [hb]), if_neg (by simp [hf]), hh,
    if_neg (by simp [hhr]), ht, hbl]
  rfl

theorem parseLines_cons_ordered (l : List Char) (ls : List (List Char))
    (num r : List Char)
    (hb : isBlankLine l = false) (hf : isFenceLine l = false)
    (hh : headingMatch l = none) (hhr : hrMatch l = false)
    (ht : taskMatch l = none) (hbl : bulletMatch l = none)
    (hor : orderedMatch l = some (num, r)) :
    parseLines (l :: ls) =
      Block.orderedItem num (scanInlines r) :: parseLines ls := by
  show parseLinesF (ls.length + 1) (l :: ls) = _
  rw [parseLinesF_succ, if_neg (by simp [hb]), if_neg (by simp [hf]), hh,
    if_neg (by simp [hhr]), ht, hbl, hor]
  rfl

theorem parseLines_cons_quote (l : List Char) (ls : List (List Char))
    (r : List Char)
    (hb : isBlankLine l = false) (hf : isFenceLine l = false)
    (hh : headingMatch l = none) (hhr : hrMatch l = false)
    (ht : taskMatch l = none) (hbl : bulletMatch l = none)
    (hor : orderedMatch l = none) (hq : quoteMatch l = some r) :
    parseLines (l :: ls) = Block.blockquote (scanInlines r) :: parseLines ls := by
  show parseLinesF (ls.length + 1) (l :: ls) = _
  rw [parseLinesF_succ, if_neg (by simp [hb]), if_neg (by simp [hf]), hh,
    if_neg (by simp [hhr]), ht, hbl, hor, hq]
  rfl

theorem parseLines_cons_para (l : List Char) (ls : List (List Char))
    (hb : isBlankLine l = false) (hf : isFenceLine l = false)
    (hh : headingMatch l = none) (hhr : hrMatch l = false)
    (ht : taskMatch l = none) (hbl : bulletMatch l = none)
    (hor : orderedMatch l = none) (hq : quoteMatch l = none) :
    parseLines (l :: ls) = Block.para (scanInlines l) :: parseLines ls := by
  show parseLinesF (ls.length + 1) (l :: ls) = _
  rw [parseLinesF_succ, if_neg (by simp [hb]), if_neg (by simp [hf]), hh,
    if_neg (by simp [hhr]), ht, hbl, hor, hq]
  rfl

theorem takeWhile_append_all {α : Type} (p : α → Bool) (A : List α) (c : α)
    (R : List α) (hA : ∀ x ∈ A, p x = true) (hc : p c = false) :
    (A ++ c :: R).takeWhile p = A ∧ (A ++ c :: R).dropWhile p = c :: R := by
  induction A with
  | nil => simp [List.takeWhile_cons, List.dropWhile_cons, hc]
  | cons a A ih =>
    have ha : p a = true := hA a (List.mem_cons_self _ _)
    have ihr := ih (fun x hx => hA x (List.mem_cons_of_mem _ hx))
    simp [List.takeWhile_cons, List.dropWhile_cons, ha, ihr.1, ihr.2]

theorem headingMatch_inv (l : List Char) (k : Nat) (r : List Char)
    (h : headingMatch l = some (k, r)) :
    1 ≤ k ∧ k ≤ 6 ∧ l.drop k = ' ' :: r := by
  rw [headingMatch] at h
  split at h
  · rename_i hk
    revert h
    cases hd : l.drop ((l.takeWhile (fun c => c == '#')).length) with
    | nil => intro h; exact absurd h (by simp)
    | cons c r2 =>
      intro h
      have h2 : (if c = ' '
          then some ((l.takeWhile (fun c => c == '#')).length, r2)
          else none) = some (k, r) := h
      by_cases hc : c = ' '
      · rw [if_pos hc] at h2
        injection h2 with h2
        injection h2 with ha hb
        subst ha; subst hb
        subst hc
        exact ⟨hk.1, hk.2, hd⟩
      · rw [if_neg hc] at h2
        exact absurd h2 (by simp)
  · exact absurd h (by simp)

/-- Full decomposition of a heading match. -/
theorem headingMatch_decomp (l : List Char) (k : Nat) (r : List Char)
    (h : headingMatch l = some (k, r)) :
    l = List.replicate k '#' ++ ' ' :: r ∧ 1 ≤ k ∧ k ≤ 6 := by
  obtain ⟨h1, h6, hdrop⟩ := headingMatch_inv l k r h
  have hk : k = (l.takeWhile (fun c => c == '#')).length := by
    rw [headingMatch] at h
    split at h
    · revert h
      cases hd : l.drop ((l.takeWhile (fun c => c == '#')).length) with
      | nil => intro h; exact absurd h (by simp)
      | cons c r2 =>
        intro h
        have h2 : (if c = ' '
            then some ((l.takeWhile (fun c => c == '#')).length, r2)
            else none) = some (k, r) := h
        by_cases hc : c = ' '
        · rw [if_pos hc] at h2
          injection h2 with h2
          injection h2 with ha hb
          exact ha.symm
        · rw [if_neg hc] at h2
          exact absurd h2 (by simp)
    · exact absurd h (by simp)
  have htw : l.takeWhile (fun c => c == '#') = List.replicate k '#' := by
    rw [List.eq_replicate_iff]
    exact ⟨hk.symm, fun b hb => by simpa using List.mem_takeWhile_imp hb⟩
  have hsplit : l.takeWhile (fun c => c == '#') ++
      l.dropWhile (fun c => c == '#') = l :=
    List.takeWhile_append_dropWhile (fun c => c == '#') l
  have hdw : l.dropWhile (fun c => c == '#') = ' ' :: r := by
    have h2 : (l.takeWhile (fun c => c == '#') ++
        l.dropWhile (fun c => c == '#')).drop k =
        l.dropWhile (fun c => c == '#') := by
      rw [htw]
      have h3 := List.drop_left (List.replicate k '#')
        (l.dropWhile (fun c => c == '#'))
      rwa [List.length_replicate] at h3
    rw [hsplit] at h2
    rw [← h2, hdrop]
  refine ⟨?_, h1, h6⟩
  rw [← hsplit, htw, hdw]

theorem taskMatch_inv (l : List Char) (f : Char) (r : List Char)
    (h : taskMatch l = some (f, r)) :
    ∃ c1 c5, l = '-' :: c1 :: '[' :: f :: ']' :: c5 :: r ∧
      wsChar c1 = true ∧ (f = ' ' ∨ f = 'x' ∨ f = 'X') ∧ wsChar c5 = true := by
  rw [taskMatch.eq_def] at h
  split at h
  · rename_i c0 c1 c2 f2 c4 c5 r2
    split at h
    · rename_i hcond
      injection h with h
      injection h with h1 h2
      subst h1; subst h2
      obtain ⟨h0, h1, h2, h3, h4, h5⟩ := hcond
      subst h0; subst h2; subst h4
      exact ⟨c1, c5, rfl, h1, h3, h5⟩
    · exact absurd h (by simp)
  · exact absurd h (by simp)

theorem taskMatch_mem (l : List Char) (f : Char) (r : List Char)
    (h : taskMatch l = some (f, r)) : '[' ∈ l := by
  obtain ⟨c1, c5, hl, _⟩ := taskMatch_inv l f r h
  rw [hl]
  simp

theorem isFenceLine_mem (l : List Char) (h : isFenceLine l = true) : '`' ∈ l := by
  cases l with
  | nil => simp [isFenceLine] at h
  | cons c t =>
    rw [isFenceLine] at h
    have : c = '`' := by
      by_contra hc
      rw [List.isPrefixOf] at h
      simp at h
      exact hc h.1.symm
    rw [this]
    simp

theorem isFenceLine_inv (l : List Char) (h : isFenceLine l = true) :
    ∃ t, l = '`' :: '`' :: '`' :: t := by
  match l with
  | [] => simp [isFenceLine, List.isPrefixOf] at h
  | [a] => simp [isFenceLine, List.isPrefixOf] at h
  | [a, b] => simp [isFenceLine, List.isPrefixOf] at h
  | a :: b :: c :: t =>
    rw [isFenceLine] at h
    simp [List.isPrefixOf] at h
    obtain ⟨h1, h2, h3⟩ := h
    exact ⟨t, by rw [← h1, ← h2, ← h3]⟩

theorem bulletMatch_inv (l : List Char) (r : List Char)
    (h : bulletMatch l = some r) :
    ∃ w, l = '-' :: w :: r ∧ wsChar w = true := by
  rw [bulletMatch.eq_def] at h
  split at h
  · rename_i c0 c1 r2
    split at h
    · rename_i hcond
      injection h with h
      subst h
      exact ⟨c1, by rw [hcond.1], hcond.2⟩
    · exact absurd h (by simp)
  · exact absurd h (by simp)

theorem orderedMatch_inv (l : List Char) (num r : List Char)
    (h : orderedMatch l = some (num, r)) :
    ∃ w, l = num ++ '.' :: w :: r ∧ num ≠ [] ∧
      (∀ c ∈ num, c.isDigit = true) ∧ wsChar w = true := by
  rw [orderedMatch] at h
  split at h
  · exact absurd h (by simp)
  · rename_i hne
    revert h
    cases hd : l.drop ((l.takeWhile (fun c => c.isDigit)).length) with
    | nil => intro h; exact absurd h (by simp)
    | cons c rest =>
      cases rest with
      | nil => intro h; exact absurd h (by simp)
      | cons c2 r2 =>
        intro h
        have h2 : (if c = '.' ∧ wsChar c2 then
            some (l.takeWhile (fun c => c.isDigit), r2) else none) =
            some (num, r) := h
        by_cases hcond : c = '.' ∧ wsChar c2
        · rw [if_pos hcond] at h2
          injection h2 with h2
          injection h2 with ha hb
          subst hb
          have hsplit : l.takeWhile (fun c => c.isDigit) ++
              l.dropWhile (fun c => c.isDigit) = l :=
            List.takeWhile_append_dropWhile (fun c => c.isDigit) l
          have hdw : l.dropWhile (fun c => c.isDigit) = c :: c2 :: r2 := by
            have h3 : (l.takeWhile (fun c => c.isDigit) ++
                l.dropWhile (fun c => c.isDigit)).drop
                  ((l.takeWhile (fun c => c.isDigit)).length) =
                l.dropWhile (fun c => c.isDigit) :=
              List.drop_left _ _
            rw [hsplit] at h3
            rw [← h3, hd]
          refine ⟨c2, ?_, by rw [← ha]; exact hne, ?_, hcond.2⟩
          · rw [← hsplit, hdw, ha, hcond.1]
          · intro x hx
            rw [← ha] at hx
            simpa using List.mem_takeWhile_imp hx
        · rw [if_neg hcond] at h2
          exact absurd h2 (by simp)

theorem quoteMatch_inv (l : List Char) (r : List Char)
    (h : quoteMatch l = some r) :
    ∃ t, l = '>' :: t ∧ r = dropOneSpace t := by
  rw [quoteMatch.eq_def] at h
  split at h
  · rename_i c t
    split at h
    · rename_i hc
      injection h with h
      exact ⟨t, by rw [hc], h.symm⟩
    · exact absurd h (by simp)
  · exact absurd h (by simp)

theorem hrMatch_inv (l : List Char) (h : hrMatch l = true) :
    3 ≤ l.length ∧ ∀ c ∈ l, c = '-' := by
  rw [hrMatch, Bool.and_eq_true, decide_eq_true_iff, List.all_eq_true] at h
  exact ⟨h.1, fun c hc => by simpa using h.2 c hc⟩

theorem takeWhile_hash (k : Nat) (rest : List Char) :
    (List.replicate k '#' ++ ' ' :: rest).takeWhile (fun c => c == '#') =
      List.replicate k '#' := by
  induction k with
  | zero => simp [List.takeWhile_cons]
  | succ k ih => simp [List.replicate_succ, List.takeWhile_cons, ih]

theorem headingMatch_canonical (k : Nat) (rest : List Char)
    (h1 : 1 ≤ k) (h2 : k ≤ 6) :
    headingMatch (List.replicate k '#' ++ ' ' :: rest) = some (k, rest) := by
  rw [headingMatch]
  simp only [takeWhile_hash, List.length_replicate]
  rw [if_pos ⟨h1, h2⟩]
  have : List.drop k (List.replicate k '#' ++ ' ' :: rest) = ' ' :: rest := by
    have := List.drop_left (List.replicate k '#') (' ' :: rest)
    rwa [List.length_replicate] at this
  rw [this]
  rfl

theorem heading_line_not_blank (k : Nat) (rest : List Char) (h1 : 1 ≤ k) :
    isBlankLine (List.replicate k '#' ++ ' ' :: rest) = false := by
  cases k with
  | zero => omega
  | succ k => simp [List.replicate_succ, isBlankLine, wsChar]

theorem heading_line_not_fence (k : Nat) (rest : List Char) (h1 : 1 ≤ k) :
    isFenceLine (List.replicate k '#' ++ ' ' :: rest) = false := by
  cases k with
  | zero => omega
  | succ k => simp [List.replicate_succ, isFenceLine, List.isPrefixOf]

theorem orderedMatch_canonical (num : List Char) (w : Char) (rest : List Char)
    (hne : num ≠ []) (hdig : ∀ c ∈ num, c.isDigit = true)
    (hw : wsChar w = true) :
    orderedMatch (num ++ '.' :: w :: rest) = some (num, rest) := by
  rw [orderedMatch]
  have htw := takeWhile_append_all (fun c => c.isDigit) num '.' (w :: rest)
    hdig (by decide)
  simp only [htw.1]
  rw [if_neg (by simpa using hne)]
  have hd : (num ++ '.' :: w :: rest).drop num.length = '.' :: w :: rest :=
    List.drop_left _ _
  rw [hd]
  simp [hw]

/-! ### Line-classification stability of the serialized scan -/

theorem renderScan_lbrack (l : List Char) (X : List Char)
    (h : renderInlines (scanInlines l) = '[' :: X) :
    (∃ w R2, X = '[' :: (w ++ ']' :: ']' :: R2)) ∨
    (∃ a b R2, X = a ++ ']' :: '(' :: (b ++ ')' :: R2) ∧ ']' ∉ a) := by
  cases l with
  | nil =>
    rw [scanInlines_nil, renderInlines_nil] at h
    exact absurd h (by simp)
  | cons c t =>
    cases htr : tryInlineHere (c :: t) with
    | some ip =>
      obtain ⟨i, post⟩ := ip
      rw [scanInlines_match c t i post htr, renderInlines_cons] at h
      rcases tryInlineHere_cases (c :: t) i post htr with
        hm | hm | hm | hm | hm | hm | hm | hm | hm
      · rw [Option.map_eq_some'] at hm
        obtain ⟨⟨inner, p2⟩, hp, hpe⟩ := hm
        have hpe2 : (Inline.wiki inner, p2) = (i, post) := hpe
        injection hpe2 with hi hp2
        subst hi; subst hp2
        rw [show renderInline (Inline.wiki inner) =
          '[' :: '[' :: (inner ++ [']', ']']) from rfl] at h
        have h2 : '[' :: '[' :: ((inner ++ [']', ']']) ++
            renderInlines (scanInlines p2)) = '[' :: X := h
        refine Or.inl ⟨inner, renderInlines (scanInlines p2), ?_⟩
        have h3 := ((List.cons.injEq _ _ _ _).mp h2).2
        rw [← h3]
        simp
      · obtain ⟨cc, hi, _⟩ := tryCodeHere_inv _ i post hm
        subst hi
        rw [show renderInline (Inline.codeSpan cc) =
          '`' :: (cc ++ ['`']) from rfl] at h
        exact absurd ((List.cons.injEq _ _ _ _).mp h).1 (by decide)
      · obtain ⟨cc, hi, _⟩ := tryPair_inv '*' Inline.bold _ i post hm
        subst hi
        rw [show renderInline (Inline.bold cc) =
          '*' :: '*' :: (cc ++ ['*', '*']) from rfl] at h
        exact absurd ((List.cons.injEq _ _ _ _).mp h).1 (by decide)
      · obtain ⟨cc, hi, _⟩ := tryBoldUnder_inv _ i post hm
        subst hi
        rw [show renderInline (Inline.bold cc) =
          '*' :: '*' :: (cc ++ ['*', '*']) from rfl] at h
        exact absurd ((List.cons.injEq _ _ _ _).mp h).1 (by decide)
      · obtain ⟨cc, hi, _⟩ := tryPair_inv '~' Inline.strike _ i post hm
        subst hi
        rw [show renderInline (Inline.strike cc) =
          '~' :: '~' :: (cc ++ ['~', '~']) from rfl] at h
        exact absurd ((List.cons.injEq _ _ _ _).mp h).1 (by decide)
      · obtain ⟨cc, hi, _⟩ := tryItalicStar_inv _ i post hm
        subst hi
        rw [show renderInline (Inline.italic cc) =
          '*' :: (cc ++ ['*']) from rfl] at h
        exact absurd ((List.cons.injEq _ _ _ _).mp h).1 (by decide)
      · obtain ⟨cc, hi, _⟩ := tryItalicUnder_inv _ i post hm
        subst hi
        rw [show renderInline (Inline.italic cc) =
          '*' :: (cc ++ ['*']) from rfl] at h
        exact absurd ((List.cons.injEq _ _ _ _).mp h).1 (by decide)
      · obtain ⟨a, b, hi, hd, hm1, hm2, hhead⟩ := tryLinkAt_inv _ i post hm
        subst hi
        rw [show renderInline (Inline.link a b) =
          '[' :: (a ++ ']' :: '(' :: (b ++ [')'])) from rfl] at h
        refine Or.inr ⟨a, b, renderInlines (scanInlines post), ?_, hm1⟩
        have h3 := ((List.cons.injEq _ _ _ _).mp h).2
        rw [← h3]
        simp
      · obtain ⟨a, b, hi, _⟩ := tryImageAt_inv _ i post hm
        subst hi
        rw [show renderInline (Inline.image a b) =
          '!' :: '[' :: (a ++ ']' :: '(' :: (b ++ [')'])) from rfl] at h
        exact absurd ((List.cons.injEq _ _ _ _).mp h).1 (by decide)
    | none =>
      exfalso
      by_cases hc : c = '\\'
      · subst hc
        cases t with
        | nil =>
          rw [scanInlines_backslash_nil] at h
          have h2 : ('\\' : Char) :: ['\\'] = '[' :: X := by
            rw [show renderInlines [Inline.text ['\\']] = ['\\', '\\'] from by
              simp [renderInlines, renderInline, renderText, escChar, isEsc]] at h
            exact h
          exact absurd ((List.cons.injEq _ _ _ _).mp h2).1 (by decide)
        | cons d t2 =>
          by_cases hd : isEsc d
          · rw [scanInlines_esc d t2 hd, renderInlines_consTextChar,
              show escChar d = ['\\', d] from by simp [escChar, hd]] at h
            exact absurd ((List.cons.injEq _ _ _ _).mp h).1 (by decide)
          · rw [scanInlines_backslash_nonesc d t2 (by simpa using hd),
              renderInlines_consTextChar,
              show escChar '\\' = ['\\', '\\'] from by simp [escChar, isEsc]] at h
            exact absurd ((List.cons.injEq _ _ _ _).mp h).1 (by decide)
      · rw [scanInlines_literal c t htr hc, renderInlines_consTextChar] at h
        by_cases he : isEsc c
        · rw [show escChar c = ['\\', c] from by simp [escChar, he]] at h
          exact absurd ((List.cons.injEq _ _ _ _).mp h).1 (by decide)
        · rw [show escChar c = [c] from by simp [escChar, he]] at h
          have hcx : c = '[' := ((List.cons.injEq _ _ _ _).mp h).1
          rw [hcx] at he
          exact he (by decide)

/-- A serialized scan can never continue as the tail of a task-list
pattern after the opening bracket. -/
theorem renderScan_no_task_tail (l : List Char) (f w : Char) (r : List Char)
    (hf : f = ' ' ∨ f = 'x' ∨ f = 'X') (hw : wsChar w = true)
    (h : renderInlines (scanInlines l) = '[' :: f :: ']' :: w :: r) : False := by
  rcases renderScan_lbrack l _ h with ⟨w2, R2, hX⟩ | ⟨a, b, R2, hX, hm⟩
  · have hfl : f = '[' := ((List.cons.injEq _ _ _ _).mp hX).1
    rcases hf with hf | hf | hf <;> (rw [hf] at hfl; exact absurd hfl (by decide))
  · cases a with
    | nil =>
      have h2 : f :: ']' :: w :: r = ']' :: '(' :: (b ++ ')' :: R2) := by
        simpa using hX
      have hfl : f = ']' := ((List.cons.injEq _ _ _ _).mp h2).1
      rcases hf with hf | hf | hf <;> (rw [hf] at hfl; exact absurd hfl (by decide))
    | cons a0 a' =>
      cases a' with
      | nil =>
        have h2 : f :: ']' :: w :: r = a0 :: ']' :: '(' :: (b ++ ')' :: R2) := by
          simpa using hX
        have h3 := ((List.cons.injEq _ _ _ _).mp h2).2
        have h4 := ((List.cons.injEq _ _ _ _).mp h3).2
        have hwp : w = '(' := ((List.cons.injEq _ _ _ _).mp h4).1
        rw [hwp] at hw
        exact absurd hw (by decide)
      | cons a1 a'' =>
        have h2 : f :: ']' :: w :: r = a0 :: a1 :: (a'' ++ ']' :: '(' :: (b ++ ')' :: R2)) := by
          simpa using hX
        have ha1 : (']' : Char) = a1 :=
          ((List.cons.injEq _ _ _ _).mp (((List.cons.injEq _ _ _ _).mp h2).2)).1
        exact hm (by rw [ha1]; simp)

theorem renderScan_backtick (l : List Char) (Y : List Char)
    (h : renderInlines (scanInlines l) = '`' :: Y) :
    ∃ c post, l = '`' :: (c ++ '`' :: post) ∧ '`' ∉ c ∧
      Y = c ++ '`' :: renderInlines (scanInlines post) := by
  cases l with
  | nil =>
    rw [scanInlines_nil, renderInlines_nil] at h
    exact absurd h (by simp)
  | cons c0 t =>
    cases htr : tryInlineHere (c0 :: t) with
    | some ip =>
      obtain ⟨i, post⟩ := ip
      rw [scanInlines_match c0 t i post htr, renderInlines_cons] at h
      rcases tryInlineHere_cases (c0 :: t) i post htr with
        hm | hm | hm | hm | hm | hm | hm | hm | hm
      · rw [Option.map_eq_some'] at hm
        obtain ⟨⟨inner, p2⟩, hp, hpe⟩ := hm
        have hpe2 : (Inline.wiki inner, p2) = (i, post) := hpe
        injection hpe2 with hi hp2
        subst hi
        rw [show renderInline (Inline.wiki inner) =
          '[' :: '[' :: (inner ++ [']', ']']) from rfl] at h
        exact absurd ((List.cons.injEq _ _ _ _).mp h).1 (by decide)
      · obtain ⟨cc, hi, hd, hmem⟩ := tryCodeHere_inv _ i post hm
        subst hi
        rw [show renderInline (Inline.codeSpan cc) =
          '`' :: (cc ++ ['`']) from rfl] at h
        refine ⟨cc, post, hd, hmem, ?_⟩
        have h3 := ((List.cons.injEq _ _ _ _).mp h).2
        rw [← h3]
        simp
      · obtain ⟨cc, hi, _⟩ := tryPair_inv '*' Inline.bold _ i post hm
        subst hi
        rw [show renderInline (Inline.bold cc) =
          '*' :: '*' :: (cc ++ ['*', '*']) from rfl] at h
        exact absurd ((List.cons.injEq _ _ _ _).mp h).1 (by decide)
      · obtain ⟨cc, hi, _⟩ := tryBoldUnder_inv _ i post hm
        subst hi
        rw [show renderInline (Inline.bold cc) =
          '*' :: '*' :: (cc ++ ['*', '*']) from rfl] at h
        exact absurd ((List.cons.injEq _ _ _ _).mp h).1 (by decide)
      · obtain ⟨cc, hi, _⟩ := tryPair_inv '~' Inline.strike _ i post hm
        subst hi
        rw [show renderInline (Inline.strike cc) =
          '~' :: '~' :: (cc ++ ['~', '~']) from rfl] at h
        exact absurd ((List.cons.injEq _ _ _ _).mp h).1 (by decide)
      · obtain ⟨cc, hi, _⟩ := tryItalicStar_inv _ i post hm
        subst hi
        rw [show renderInline (Inline.italic cc) =
          '*' :: (cc ++ ['*']) from rfl] at h
        exact absurd ((List.cons.injEq _ _ _ _).mp h).1 (by decide)
      · obtain ⟨cc, hi, _⟩ := tryItalicUnder_inv _ i post hm
        subst hi
        rw [show renderInline (Inline.italic cc) =
          '*' :: (cc ++ ['*']) from rfl] at h
        exact absurd ((List.cons.injEq _ _ _ _).mp h).1 (by decide)
      · obtain ⟨a, b, hi, _⟩ := tryLinkAt_inv _ i post hm
        subst hi
        rw [show renderInline (Inline.link a b) =
          '[' :: (a ++ ']' :: '(' :: (b ++ [')'])) from rfl] at h
        exact absurd ((List.cons.injEq _ _ _ _).mp h).1 (by decide)
      · obtain ⟨a, b, hi, _⟩ := tryImageAt_inv _ i post hm
        subst hi
        rw [show renderInline (Inline.image a b) =
          '!' :: '[' :: (a ++ ']' :: '(' :: (b ++ [')'])) from rfl] at h
        exact absurd ((List.cons.injEq _ _ _ _).mp h).1 (by decide)
    | none =>
      exfalso
      by_cases hc : c0 = '\\'
      · subst hc
        cases t with
        | nil =>
          rw [scanInlines_backslash_nil] at h
          rw [show renderInlines [Inline.text ['\\']] = ['\\', '\\'] from by
            simp [renderInlines, renderInline, renderText, escChar, isEsc]] at h
          exact absurd ((List.cons.injEq _ _ _ _).mp h).1 (by decide)
        | cons d t2 =>
          by_cases hd : isEsc d
          · rw [scanInlines_esc d t2 hd, renderInlines_consTextChar,
              show escChar d = ['\\', d] from by simp [escChar, hd]] at h
            exact absurd ((List.cons.injEq _ _ _ _).mp h).1 (by decide)
          · rw [scanInlines_backslash_nonesc d t2 (by simpa using hd),
              renderInlines_consTextChar,
              show escChar '\\' = ['\\', '\\'] from by simp [escChar, isEsc]] at h
            exact absurd ((List.cons.injEq _ _ _ _).mp h).1 (by decide)
      · rw [scanInlines_literal c0 t htr hc, renderInlines_consTextChar] at h
        by_cases he : isEsc c0
        · rw [show escChar c0 = ['\\', c0] from by simp [escChar, he]] at h
          exact absurd ((List.cons.injEq _ _ _ _).mp h).1 (by decide)
        · rw [show escChar c0 = [c0] from by simp [escChar, he]] at h
          have hcx : c0 = '`' := ((List.cons.injEq _ _ _ _).mp h).1
          rw [hcx] at he
          exact he (by decide)

/-- The serialized scan of a non-fence line is not a fence line. -/
theorem fence_preserve (l : List Char) (hnf : isFenceLine l = false) :
    isFenceLine (renderInlines (scanInlines l)) = false := by
  cases hfc : isFenceLine (renderInlines (scanInlines l)) with
  | false => rfl
  | true =>
    exfalso
    obtain ⟨Z, hR⟩ := isFenceLine_inv _ hfc
    obtain ⟨c, post, hl, hm, hY⟩ := renderScan_backtick l _ hR
    cases c with
    | nil =>
      have hY2 : ('`' : Char) :: '`' :: Z = '`' :: renderInlines (scanInlines post) := by
        simpa using hY
      have hR2 : renderInlines (scanInlines post) = '`' :: Z :=
        (((List.cons.injEq _ _ _ _).mp hY2).2).symm
      obtain ⟨c2, post2, hl2, _, _⟩ := renderScan_backtick post _ hR2
      rw [hl2] at hl
      simp only [List.nil_append] at hl
      rw [hl] at hnf
      simp [isFenceLine, List.isPrefixOf] at hnf
    | cons cc0 cc' =>
      have hY2 : ('`' : Char) :: '`' :: Z = cc0 :: (cc' ++ '`' ::
          renderInlines (scanInlines post)) := by
        simpa using hY
      have : cc0 = '`' := (((List.cons.injEq _ _ _ _).mp hY2).1).symm
      exact hm (by rw [← this]; exact List.mem_cons_self _ _)

/-- The serialized scan never matches the task-list pattern. -/
theorem renderScan_task_none (l : List Char) :
    taskMatch (renderInlines (scanInlines l)) = none := by
  cases ht : taskMatch (renderInlines (scanInlines l)) with
  | none => rfl
  | some fr =>
    exfalso
    obtain ⟨f, r⟩ := fr
    obtain ⟨c1, c5, hdec, hws1, hf, hws5⟩ := taskMatch_inv _ f r ht
    have hp : ∀ y ∈ ['-', c1], y ≠ '\\' ∧ y ≠ '[' ∧ y ≠ '`' ∧ y ≠ '*' ∧
        y ≠ '~' ∧ y ≠ '!' := by
      intro y hy
      rcases List.mem_cons.mp hy with hy | hy
      · subst hy
        exact ⟨by decide, by decide, by decide, by decide, by decide, by decide⟩
      · rcases List.mem_singleton.mp hy with hy
        subst hy
        refine ⟨?_, ?_, ?_, ?_, ?_, ?_⟩ <;>
          (intro he; rw [he] at hws1; exact absurd hws1 (by decide))
    obtain ⟨t2, hl2, hX2⟩ := renderScan_prefix_plain ['-', c1] hp l
      ('[' :: f :: ']' :: c5 :: r) (by rw [hdec]; rfl)
    exact renderScan_no_task_tail t2 f c5 r hf hws5 hX2.symm

/-- The serialized scan of a non-blank line is not blank. -/
theorem blank_preserve (l : List Char) (hnb : isBlankLine l = false) :
    isBlankLine (renderInlines (scanInlines l)) = false := by
  cases hbc : isBlankLine (renderInlines (scanInlines l)) with
  | false => rfl
  | true =>
    exfalso
    have hmirror := renderScan_all_plain wsChar (by decide) (by decide)
      (by decide) (by decide) (by decide) (by decide) l.length l le_rfl
      (by rw [isBlankLine] at hbc; exact hbc)
    rw [hmirror] at hbc
    rw [isBlankLine] at hnb
    rw [isBlankLine] at hbc
    rw [hbc] at hnb
    exact absurd hnb (by simp)

/-- The serialized scan of a non-rule line is not a horizontal rule. -/
theorem hr_preserve (l : List Char) (hnr : hrMatch l = false) :
    hrMatch (renderInlines (scanInlines l)) = false := by
  cases hc : hrMatch (renderInlines (scanInlines l)) with
  | false => rfl
  | true =>
    exfalso
    rw [hrMatch, Bool.and_eq_true] at hc
    have hmirror := renderScan_all_plain (fun c => c == '-') (by decide)
      (by decide) (by decide) (by decide) (by decide) (by decide)
      l.length l le_rfl hc.2
    rw [hrMatch] at hnr
    rw [hmirror] at hc
    rw [hc.1, hc.2] at hnr
    exact absurd hnr (by simp)

/-- The serialized scan of a non-heading line is not a heading. -/
theorem heading_preserve (l : List Char) (hnh : headingMatch l = none) :
    headingMatch (renderInlines (scanInlines l)) = none := by
  cases hc : headingMatch (renderInlines (scanInlines l)) with
  | none => rfl
  | some kr =>
    exfalso
    obtain ⟨k, r⟩ := kr
    obtain ⟨hdec, h1, h6⟩ := headingMatch_decomp _ k r hc
    have hp : ∀ y ∈ List.replicate k '#' ++ [' '], y ≠ '\\' ∧ y ≠ '[' ∧
        y ≠ '`' ∧ y ≠ '*' ∧ y ≠ '~' ∧ y ≠ '!' := by
      intro y hy
      rcases List.mem_append.mp hy with hy | hy
      · rw [List.eq_of_mem_replicate hy]
        exact ⟨by decide, by decide, by decide, by decide, by decide, by decide⟩
      · rw [List.mem_singleton.mp hy]
        exact ⟨by decide, by decide, by decide, by decide, by decide, by decide⟩
    obtain ⟨t2, hl2, _⟩ := renderScan_prefix_plain (List.replicate k '#' ++ [' '])
      hp l r (by rw [hdec]; simp)
    have : headingMatch l = some (k, t2) := by
      rw [hl2, List.append_assoc, List.singleton_append]
      exact headingMatch_canonical k t2 h1 h6
    rw [this] at hnh
    exact absurd hnh (by simp)

/-- The serialized scan of a non-bullet line is not a bullet item. -/
theorem bullet_preserve (l : List Char) (hnb : bulletMatch l = none) :
    bulletMatch (renderInlines (scanInlines l)) = none := by
  cases hc : bulletMatch (renderInlines (scanInlines l)) with
  | none => rfl
  | some r =>
    exfalso
    obtain ⟨w, hdec, hw⟩ := bulletMatch_inv _ r hc
    have hp : ∀ y ∈ ['-', w], y ≠ '\\' ∧ y ≠ '[' ∧ y ≠ '`' ∧ y ≠ '*' ∧
        y ≠ '~' ∧ y ≠ '!' := by
      intro y hy
      rcases List.mem_cons.mp hy with hy | hy
      · subst hy
        exact ⟨by decide, by decide, by decide, by decide, by decide, by decide⟩
      · rcases List.mem_singleton.mp hy with hy
        subst hy
        refine ⟨?_, ?_, ?_, ?_, ?_, ?_⟩ <;>
          (intro he; rw [he] at hw; exact absurd hw (by decide))
    obtain ⟨t2, hl2, _⟩ := renderScan_prefix_plain ['-', w] hp l r
      (by rw [hdec]; rfl)
    have : bulletMatch l = some t2 := by
      rw [hl2]
      show bulletMatch ('-' :: w :: t2) = some t2
      rw [bulletMatch.eq_def]
      simp [hw]
    rw [this] at hnb
    exact absurd hnb (by simp)

/-- The serialized scan of a non-ordered line is not an ordered item. -/
theorem ordered_preserve (l : List Char) (hno : orderedMatch l = none) :
    orderedMatch (renderInlines (scanInlines l)) = none := by
  cases hc : orderedMatch (renderInlines (scanInlines l)) with
  | none => rfl
  | some nr =>
    exfalso
    obtain ⟨num, r⟩ := nr
    obtain ⟨w, hdec, hne, hdig, hw⟩ := orderedMatch_inv _ num r hc
    have hp : ∀ y ∈ num ++ ['.', w], y ≠ '\\' ∧ y ≠ '[' ∧ y ≠ '`' ∧ y ≠ '*' ∧
        y ≠ '~' ∧ y ≠ '!' := by
      intro y hy
      rcases List.mem_append.mp hy with hy | hy
      · have hdy := hdig y hy
        refine ⟨?_, ?_, ?_, ?_, ?_, ?_⟩ <;>
          (intro he; rw [he] at hdy; exact absurd hdy (by decide))
      · rcases List.mem_cons.mp hy with hy | hy
        · subst hy
          exact ⟨by decide, by decide, by decide, by decide, by decide, by decide⟩
        · rcases List.mem_singleton.mp hy with hy
          subst hy
          refine ⟨?_, ?_, ?_, ?_, ?_, ?_⟩ <;>
            (intro he; rw [he] at hw; exact absurd hw (by decide))
    obtain ⟨t2, hl2, _⟩ := renderScan_prefix_plain (num ++ ['.', w]) hp l r
      (by rw [hdec]; simp)
    have : orderedMatch l = some (num, t2) := by
      rw [hl2, List.append_assoc]
      exact orderedMatch_canonical num w t2 hne hdig hw
    rw [this] at hno
    exact absurd hno (by simp)

/-- The serialized scan of a non-quote line is not a blockquote. -/
theorem quote_preserve (l : List Char) (hnq : quoteMatch l = none) :
    quoteMatch (renderInlines (scanInlines l)) = none := by
  cases hc : quoteMatch (renderInlines (scanInlines l)) with
  | none => rfl
  | some r =>
    exfalso
    obtain ⟨t, hdec, _⟩ := quoteMatch_inv _ r hc
    obtain ⟨t2, hl2, _⟩ := renderScan_head_plain l '>' t hdec
      (by decide) (by decide) (by decide) (by decide) (by decide) (by decide)
    have : quoteMatch l = some (dropOneSpace t2) := by
      rw [hl2]
      rw [quoteMatch.eq_def]
      simp
    rw [this] at hnq
    exact absurd hnq (by simp)

/-- A serialized bullet item never re-reads as a task item. -/
theorem bullet_task_none (l : List Char) :
    taskMatch ('-' :: ' ' :: renderInlines (scanInlines l)) = none := by
  cases ht : taskMatch ('-' :: ' ' :: renderInlines (scanInlines l)) with
  | none => rfl
  | some fr =>
    exfalso
    obtain ⟨f, r⟩ := fr
    obtain ⟨c1, c5, hdec, hws1, hf, hws5⟩ := taskMatch_inv _ f r ht
    have h2 := ((List.cons.injEq _ _ _ _).mp hdec).2
    have h3 := ((List.cons.injEq _ _ _ _).mp h2).2
    exact renderScan_no_task_tail l f c5 r hf hws5 h3

/-- Serialized canonical runs contain no newline. -/
theorem noNL_renderInlines (runs : List Inline) (h : InlsCanon runs) :
    '\n' ∉ renderInlines runs := by
  induction runs with
  | nil => simp [renderInlines]
  | cons i rest ih =>
    obtain ⟨hok, _, hrest⟩ := h
    rw [renderInlines_cons]
    intro hm
    rcases List.mem_append.mp hm with hm | hm
    · revert hm
      cases i with
      | text s =>
        intro hm
        rw [show renderInline (Inline.text s) = renderText s from rfl,
          renderText] at hm
        rw [List.mem_flatten] at hm
        obtain ⟨seg, hseg, hmem⟩ := hm
        rw [List.mem_map] at hseg
        obtain ⟨c, hcs, hceq⟩ := hseg
        rw [← hceq, escChar] at hmem
        by_cases he : isEsc c
        · rw [if_pos he] at hmem
          rcases List.mem_cons.mp hmem with hh | hh
          · exact absurd hh (by decide)
          · refine hok.2 ?_
            rw [show ('\n' : Char) = c from List.mem_singleton.mp hh]
            exact hcs
        · rw [if_neg he] at hmem
          refine hok.2 ?_
          rw [show ('\n' : Char) = c from List.mem_singleton.mp hmem]
          exact hcs
      | wiki w =>
        intro hm
        rw [show renderInline (Inline.wiki w) =
          '[' :: '[' :: (w ++ [']', ']']) from rfl] at hm
        simp at hm
        exact hok.2.2 hm
      | bold c =>
        intro hm
        rw [show renderInline (Inline.bold c) =
          '*' :: '*' :: (c ++ ['*', '*']) from rfl] at hm
        simp at hm
        exact hok.2.2 hm
      | italic c =>
        intro hm
        rw [show renderInline (Inline.italic c) =
          '*' :: (c ++ ['*']) from rfl] at hm
        simp at hm
        exact hok.2.2 hm
      | strike c =>
        intro hm
        rw [show renderInline (Inline.strike c) =
          '~' :: '~' :: (c ++ ['~', '~']) from rfl] at hm
        simp at hm
        exact hok.2.2 hm
      | codeSpan c =>
        intro hm
        rw [show renderInline (Inline.codeSpan c) =
          '`' :: (c ++ ['`']) from rfl] at hm
        simp at hm
        exact hok.2 hm
      | link a b =>
        intro hm
        rw [show renderInline (Inline.link a b) =
          '[' :: (a ++ ']' :: '(' :: (b ++ [')'])) from rfl] at hm
        simp at hm
        rcases hm with hm | hm
        · exact hok.2.2.2.1 hm
        · exact hok.2.2.2.2 hm
      | image a b =>
        intro hm
        rw [show renderInline (Inline.image a b) =
          '!' :: '[' :: (a ++ ']' :: '(' :: (b ++ [')'])) from rfl] at hm
        simp at hm
        rcases hm with hm | hm
        · exact hok.2.2.2.1 hm
        · exact hok.2.2.2.2 hm
    · exact ih hrest hm

/-- The serialized scan of a newline-free line is newline-free. -/
theorem noNL_renderScan (l : List Char) (hnl : '\n' ∉ l) :
    '\n' ∉ renderInlines (scanInlines l) :=
  noNL_renderInlines _ (scan_canon l hnl)

/-! ### Canonical documents and the round-trip theorem -/

/-- Invariants enjoyed by every block the forward conversion produces;
they are exactly what is needed for a re-parse of the canonical
serialization to reconstruct the block. -/
def CanonBlock : Block → Prop
  | Block.para inls =>
    '\n' ∉ renderInlines inls ∧ isBlankLine (renderInlines inls) = false ∧
      isFenceLine (renderInlines inls) = false ∧
      headingMatch (renderInlines inls) = none ∧
      hrMatch (renderInlines inls) = false ∧
      taskMatch (renderInlines inls) = none ∧
      bulletMatch (renderInlines inls) = none ∧
      orderedMatch (renderInlines inls) = none ∧
      quoteMatch (renderInlines inls) = none ∧
      scanInlines (renderInlines inls) = inls
  | Block.heading k inls =>
    '\n' ∉ renderInlines inls ∧ 1 ≤ k ∧ k ≤ 6 ∧
      scanInlines (renderInlines inls) = inls
  | Block.taskItem _ inls =>
    '\n' ∉ renderInlines inls ∧ scanInlines (renderInlines inls) = inls
  | Block.bulletItem inls =>
    '\n' ∉ renderInlines inls ∧
      taskMatch ('-' :: ' ' :: renderInlines inls) = none ∧
      scanInlines (renderInlines inls) = inls
  | Block.orderedItem num inls =>
    '\n' ∉ renderInlines inls ∧ num ≠ [] ∧ (∀ c ∈ num, c.isDigit = true) ∧
      scanInlines (renderInlines inls) = inls
  | Block.blockquote inls =>
    '\n' ∉ renderInlines inls ∧ scanInlines (renderInlines inls) = inls
  | Block.hrule => True
  | Block.code lang content =>
    '\n' ∉ lang ∧ ∀ l ∈ splitLines content, isFenceLine l = false

theorem dropOneSpace_subset (t : List Char) (x : Char)
    (h : x ∈ dropOneSpace t) : x ∈ t := by
  rw [dropOneSpace.eq_def] at h
  split at h
  · rename_i c u
    split at h
    · exact List.mem_cons_of_mem _ h
    · exact h
  · exact h

/-- Every block produced by the forward conversion is canonical. -/
theorem canon_parseLinesF (fuel : Nat) : ∀ (lines : List (List Char)),
    (∀ l ∈ lines, '\n' ∉ l) → ∀ b ∈ parseLinesF fuel lines, CanonBlock b := by
  induction fuel with
  | zero => intro lines _ b hb; rw [parseLinesF] at hb; simp at hb
  | succ fuel ih =>
    intro lines hnl b hb
    cases lines with
    | nil => rw [parseLinesF_nil] at hb; simp at hb
    | cons l ls =>
      have hlnl : '\n' ∉ l := hnl l (List.mem_cons_self _ _)
      have hlsnl : ∀ x ∈ ls, '\n' ∉ x := fun x hx => hnl x (List.mem_cons_of_mem _ hx)
      rw [parseLinesF_succ] at hb
      by_cases hblank : isBlankLine l
      · rw [if_pos hblank] at hb
        exact ih ls hlsnl b hb
      · rw [if_neg hblank] at hb
        by_cases hfence : isFenceLine l
        · rw [if_pos hfence] at hb
          rcases List.mem_cons.mp hb with hbe | hbe
          · subst hbe
            constructor
            · intro hmem
              exact hlnl (List.drop_subset _ _ hmem)
            · intro x hx
              rw [stripTrailingNL_append_nl] at hx
              cases hcls : ls.takeWhile (fun y => !isFenceLine y) with
              | nil =>
                rw [hcls] at hx
                simp only [joinLines] at hx
                simp only [splitLines] at hx
                rcases List.mem_singleton.mp hx with h
                rw [h]
                simp [isFenceLine, List.isPrefixOf]
              | cons c0 cls0 =>
                rw [hcls] at hx
                rw [splitLines_joinLines _ (by simp)
                  (fun y hy => hlsnl y (List.takeWhile_subset _ (hcls ▸ hy)))] at hx
                have := List.mem_takeWhile_imp (hcls ▸ hx)
                simpa using this
          · exact ih _ (fun x hx =>
              hlsnl x (List.dropWhile_subset _ (List.drop_subset _ _ hx))) b hbe
        · rw [if_neg hfence] at hb
          cases hh : headingMatch l with
          | some kr =>
            obtain ⟨k, r⟩ := kr
            rw [hh] at hb
            have hb2 : b ∈ Block.heading k (scanInlines r) :: parseLinesF fuel ls := hb
            rcases List.mem_cons.mp hb2 with hbe | hbe
            · subst hbe
              obtain ⟨hdec, hk1, hk2⟩ := headingMatch_decomp l k r hh
              have hrnl : '\n' ∉ r := by
                intro hmem
                apply hlnl
                rw [hdec]
                simp [hmem]
              exact ⟨noNL_renderScan r hrnl, hk1, hk2, scan_render_scan r hrnl⟩
            · exact ih ls hlsnl b hbe
          | none =>
            rw [hh] at hb
            by_cases hhr : hrMatch l
            · rw [if_pos hhr] at hb
              have hb2 : b ∈ Block.hrule :: parseLinesF fuel ls := hb
              rcases List.mem_cons.mp hb2 with hbe | hbe
              · subst hbe
                exact trivial
              · exact ih ls hlsnl b hbe
            · rw [if_neg hhr] at hb
              cases ht : taskMatch l with
              | some fr =>
                obtain ⟨f, r⟩ := fr
                rw [ht] at hb
                have hb2 : b ∈ Block.taskItem (f == 'x' || f == 'X') (scanInlines r) ::
                    parseLinesF fuel ls := hb
                rcases List.mem_cons.mp hb2 with hbe | hbe
                · subst hbe
                  obtain ⟨c1, c5, hl, _⟩ := taskMatch_inv l f r ht
                  have hrnl : '\n' ∉ r := by
                    intro hmem
                    apply hlnl
                    rw [hl]
                    simp [hmem]
                  exact ⟨noNL_renderScan r hrnl, scan_render_scan r hrnl⟩
                · exact ih ls hlsnl b hbe
              | none =>
                rw [ht] at hb
                cases hbl : bulletMatch l with
                | some r =>
                  rw [hbl] at hb
                  have hb2 : b ∈ Block.bulletItem (scanInlines r) ::
                      parseLinesF fuel ls := hb
                  rcases List.mem_cons.mp hb2 with hbe | hbe
                  · subst hbe
                    obtain ⟨w, hl, hw⟩ := bulletMatch_inv l r hbl
                    have hrnl : '\n' ∉ r := by
                      intro hmem
                      apply hlnl
                      rw [hl]
                      simp [hmem]
                    exact ⟨noNL_renderScan r hrnl, bullet_task_none r,
                      scan_render_scan r hrnl⟩
                  · exact ih ls hlsnl b hbe
                | none =>
                  rw [hbl] at hb
                  cases hor : orderedMatch l with
                  | some nr =>
                    obtain ⟨num, r⟩ := nr
                    rw [hor] at hb
                    have hb2 : b ∈ Block.orderedItem num (scanInlines r) ::
                        parseLinesF fuel ls := hb
                    rcases List.mem_cons.mp hb2 with hbe | hbe
                    · subst hbe
                      obtain ⟨w, hl, hne, hdig, hw⟩ := orderedMatch_inv l num r hor
                      have hrnl : '\n' ∉ r := by
                        intro hmem
                        apply hlnl
                        rw [hl]
                        simp [hmem]
                      exact ⟨noNL_renderScan r hrnl, hne, hdig,
                        scan_render_scan r hrnl⟩
                    · exact ih ls hlsnl b hbe
                  | none =>
                    rw [hor] at hb
                    cases hq : quoteMatch l with
                    | some r =>
                      rw [hq] at hb
                      have hb2 : b ∈ Block.blockquote (scanInlines r) ::
                          parseLinesF fuel ls := hb
                      rcases List.mem_cons.mp hb2 with hbe | hbe
                      · subst hbe
                        obtain ⟨t, hl, hr⟩ := quoteMatch_inv l r hq
                        have hrnl : '\n' ∉ r := by
                          intro hmem
                          apply hlnl
                          rw [hl, hr] at *
                          exact List.mem_cons_of_mem _ (dropOneSpace_subset t _ hmem)
                        exact ⟨noNL_renderScan r hrnl, scan_render_scan r hrnl⟩
                      · exact ih ls hlsnl b hbe
                    | none =>
                      rw [hq] at hb
                      have hb2 : b ∈ Block.para (scanInlines l) ::
                          parseLinesF fuel ls := hb
                      rcases List.mem_cons.mp hb2 with hbe | hbe
                      · subst hbe
                        refine ⟨noNL_renderScan l hlnl, blank_preserve l (by simpa using hblank),
                          fence_preserve l (by simpa using hfence), heading_preserve l hh,
                          hr_preserve l (by simpa using hhr), renderScan_task_none l,
                          bullet_preserve l hbl, ordered_preserve l hor,
                          quote_preserve l hq, scan_render_scan l hlnl⟩
                      · exact ih ls hlsnl b hbe

theorem canon_parse (m : List Char) : ∀ b ∈ parse m, CanonBlock b :=
  canon_parseLinesF _ _ (noNL_splitLines m)

theorem isBlankLine_cons_false (c : Char) (t : List Char)
    (h : wsChar c = false) : isBlankLine (c :: t) = false := by
  simp [isBlankLine, h]

theorem isFenceLine_cons_false (c : Char) (t : List Char) (h : c ≠ '`') :
    isFenceLine (c :: t) = false := by
  rw [isFenceLine]
  cases hp : List.isPrefixOf ['`', '`', '`'] (c :: t) with
  | false => rfl
  | true =>
    exfalso
    rw [List.isPrefixOf, Bool.and_eq_true, beq_iff_eq] at hp
    exact h hp.1.symm

theorem headingMatch_none_head (c : Char) (t : List Char)
    (h : (c == '#') = false) : headingMatch (c :: t) = none := by
  rw [headingMatch]
  simp [List.takeWhile_cons, h]

theorem hrMatch_head_false (c : Char) (t : List Char) (h : (c == '-') = false) :
    hrMatch (c :: t) = false := by
  simp [hrMatch, h]

theorem hrMatch_second_false (a b : Char) (t : List Char)
    (h : (b == '-') = false) : hrMatch (a :: b :: t) = false := by
  simp [hrMatch, h]

theorem taskMatch_none_head (c : Char) (t : List Char) (h : c ≠ '-') :
    taskMatch (c :: t) = none := by
  match t with
  | [] => rfl
  | [a] => rfl
  | [a, b] => rfl
  | [a, b, d] => rfl
  | [a, b, d, e] => rfl
  | a :: b :: d :: e :: f5 :: r =>
    rw [show taskMatch (c :: a :: b :: d :: e :: f5 :: r) =
      if c = '-' ∧ wsChar a ∧ b = '[' ∧ (d = ' ' ∨ d = 'x' ∨ d = 'X') ∧
          e = ']' ∧ wsChar f5
      then some (d, r) else none from rfl,
      if_neg (fun hcon => h hcon.1)]

theorem bulletMatch_none_head (c : Char) (t : List Char) (h : c ≠ '-') :
    bulletMatch (c :: t) = none := by
  match t with
  | [] => rfl
  | a :: r =>
    rw [show bulletMatch (c :: a :: r) =
      if c = '-' ∧ wsChar a then some r else none from rfl,
      if_neg (fun hcon => h hcon.1)]

theorem orderedMatch_none_head (c : Char) (t : List Char)
    (h : c.isDigit = false) : orderedMatch (c :: t) = none := by
  rw [orderedMatch]
  simp [List.takeWhile_cons, h]

theorem quoteMatch_none_head (c : Char) (t : List Char) (h : c ≠ '>') :
    quoteMatch (c :: t) = none := by
  rw [show quoteMatch (c :: t) =
    if c = '>' then some (dropOneSpace t) else none from rfl, if_neg h]

theorem blockLines_ne_nil (b : Block) : blockLines b ≠ [] := by
  cases b <;> simp [blockLines]

theorem noNL_blockLines (b : Block) (hb : CanonBlock b) :
    ∀ l ∈ blockLines b, '\n' ∉ l := by
  cases b with
  | para inls =>
    intro l hl
    rw [blockLines] at hl
    rw [List.mem_singleton.mp hl]
    exact hb.1
  | heading k inls =>
    intro l hl
    rw [blockLines] at hl
    rw [List.mem_singleton.mp hl]
    intro hmem
    rcases List.mem_append.mp hmem with h | h
    · have := List.eq_of_mem_replicate h
      simp at this
    · rcases List.mem_cons.mp h with h | h
      · simp at h
      · exact hb.1 h
  | taskItem c inls =>
    intro l hl
    rw [blockLines] at hl
    rw [List.mem_singleton.mp hl]
    intro hmem
    simp only [List.mem_cons] at hmem
    rcases hmem with h | h | h | h | h | h | h
    · simp at h
    · simp at h
    · simp at h
    · revert h; cases c <;> simp
    · simp at h
    · simp at h
    · exact hb.1 h
  | bulletItem inls =>
    intro l hl
    rw [blockLines] at hl
    rw [List.mem_singleton.mp hl]
    intro hmem
    simp only [List.mem_cons] at hmem
    rcases hmem with h | h | h
    · simp at h
    · simp at h
    · exact hb.1 h
  | orderedItem num inls =>
    intro l hl
    rw [blockLines] at hl
    rw [List.mem_singleton.mp hl]
    intro hmem
    rcases List.mem_append.mp hmem with h | h
    · have := hb.2.2.1 _ h
      simp at this
    · rcases List.mem_cons.mp h with h | h
      · simp at h
      · rcases List.mem_cons.mp h with h | h
        · simp at h
        · exact hb.1 h
  | blockquote inls =>
    intro l hl
    rw [blockLines] at hl
    rw [List.mem_singleton.mp hl]
    intro hmem
    simp only [List.mem_cons] at hmem
    rcases hmem with h | h | h
    · simp at h
    · simp at h
    · exact hb.1 h
  | hrule =>
    intro l hl
    rw [blockLines] at hl
    rw [List.mem_singleton.mp hl]
    simp
  | code lang content =>
    intro l hl
    rw [blockLines] at hl
    rcases List.mem_cons.mp hl with h | h
    · rw [h]
      intro hmem
      rcases List.mem_cons.mp hmem with h2 | h2
      · simp at h2
      · rcases List.mem_cons.mp h2 with h3 | h3
        · simp at h3
        · rcases List.mem_cons.mp h3 with h4 | h4
          · simp at h4
          · exact hb.1 h4
    · rcases List.mem_append.mp h with h2 | h2
      · exact noNL_splitLines content l h2
      · rw [List.mem_singleton.mp h2]
        simp

theorem docLines_cons (b : Block) (bs : List Block) (h : bs ≠ []) :
    docLines (b :: bs) = blockLines b ++ [] :: docLines bs := by
  cases bs with
  | nil => exact absurd rfl h
  | cons b2 bs2 => rfl

theorem docLines_ne_nil (bs : List Block) (h : bs ≠ []) : docLines bs ≠ [] := by
  cases bs with
  | nil => exact absurd rfl h
  | cons b bs2 =>
    cases bs2 with
    | nil =>
      show blockLines b ≠ []
      exact blockLines_ne_nil b
    | cons b2 bs3 =>
      rw [docLines_cons _ _ (by simp)]
      simp [blockLines_ne_nil b]

theorem noNL_docLines (bs : List Block) (h : ∀ b ∈ bs, CanonBlock b) :
    ∀ l ∈ docLines bs, '\n' ∉ l := by
  induction bs with
  | nil => intro l hl; simp [docLines] at hl
  | cons b bs ih =>
    intro l hl
    cases bs with
    | nil =>
      exact noNL_blockLines b (h b (List.mem_cons_self _ _)) l hl
    | cons b2 bs2 =>
      rw [docLines_cons _ _ (by simp)] at hl
      rcases List.mem_append.mp hl with h2 | h2
      · exact noNL_blockLines b (h b (List.mem_cons_self _ _)) l h2
      · rcases List.mem_cons.mp h2 with h3 | h3
        · rw [h3]; simp
        · exact ih (fun x hx => h x (List.mem_cons_of_mem _ hx)) l h3

theorem digit_not_ws (c : Char) (h : c.isDigit = true) : wsChar c = false := by
  cases hw : wsChar c with
  | false => rfl
  | true =>
    exfalso
    rw [wsChar, Bool.or_eq_true, Bool.or_eq_true] at hw
    rcases hw with (h1 | h1) | h1 <;>
      (rw [beq_iff_eq] at h1; rw [h1] at h; exact absurd h (by decide))

/-- Reparsing the canonical serialization of one canonical block followed
by arbitrary further lines reconstructs the block. -/
theorem parseLines_block_append (b : Block) (R : List (List Char))
    (hb : CanonBlock b) :
    parseLines (blockLines b ++ R) = b :: parseLines R := by
  cases b with
  | para inls =>
    obtain ⟨_, hbl, hf, hh, hhr, ht, hblt, hor, hq, hscan⟩ := hb
    show parseLines (renderInlines inls :: R) = _
    rw [parseLines_cons_para _ _ hbl hf hh hhr ht hblt hor hq, hscan]
  | heading k inls =>
    obtain ⟨_, hk1, hk6, hscan⟩ := hb
    show parseLines ((List.replicate k '#' ++ ' ' :: renderInlines inls) :: R) = _
    rw [parseLines_cons_heading _ _ k (renderInlines inls)
      (heading_line_not_blank _ _ hk1) (heading_line_not_fence _ _ hk1)
      (headingMatch_canonical _ _ hk1 hk6), hscan]
  | taskItem c inls =>
    obtain ⟨_, hscan⟩ := hb
    show parseLines
      (('-' :: ' ' :: '[' :: (if c then 'x' else ' ') :: ']' :: ' ' ::
        renderInlines inls) :: R) = _
    cases c with
    | true =>
      rw [parseLines_cons_task _ _ 'x' (renderInlines inls) (by rfl) (by rfl)
        (by rfl) (hrMatch_second_false _ _ _ (by decide)) (by rfl), hscan]
      rfl
    | false =>
      rw [parseLines_cons_task _ _ ' ' (renderInlines inls) (by rfl) (by rfl)
        (by rfl) (hrMatch_second_false _ _ _ (by decide)) (by rfl), hscan]
      rfl
  | bulletItem inls =>
    obtain ⟨_, htask, hscan⟩ := hb
    show parseLines (('-' :: ' ' :: renderInlines inls) :: R) = _
    rw [parseLines_cons_bullet _ _ (renderInlines inls) (by rfl) (by rfl)
      (by rfl) (hrMatch_second_false _ _ _ (by decide)) htask (by rfl), hscan]
  | orderedItem num inls =>
    obtain ⟨_, hne, hdig, hscan⟩ := hb
    show parseLines ((num ++ '.' :: ' ' :: renderInlines inls) :: R) = _
    cases num with
    | nil => exact absurd rfl hne
    | cons n0 num' =>
      have hdig0 : n0.isDigit = true := hdig n0 (List.mem_cons_self _ _)
      have hline : (n0 :: num') ++ '.' :: ' ' :: renderInlines inls =
          n0 :: (num' ++ '.' :: ' ' :: renderInlines inls) := rfl
      rw [parseLines_cons_ordered _ _ (n0 :: num') (renderInlines inls)
        (by rw [hline]
            exact isBlankLine_cons_false _ _ (digit_not_ws n0 hdig0))
        (by rw [hline]
            exact isFenceLine_cons_false _ _
              (fun he => by rw [he] at hdig0; exact absurd hdig0 (by decide)))
        (by rw [hline]
            refine headingMatch_none_head _ _ ?_
            rw [beq_eq_false_iff_ne]
            intro he
            rw [he] at hdig0
            exact absurd hdig0 (by decide))
        (by rw [hline]
            refine hrMatch_head_false _ _ ?_
            rw [beq_eq_false_iff_ne]
            intro he
            rw [he] at hdig0
            exact absurd hdig0 (by decide))
        (by rw [hline]
            exact taskMatch_none_head _ _
              (fun he => by rw [he] at hdig0; exact absurd hdig0 (by decide)))
        (by rw [hline]
            exact bulletMatch_none_head _ _
              (fun he => by rw [he] at hdig0; exact absurd hdig0 (by decide)))
        (orderedMatch_canonical (n0 :: num') ' ' (renderInlines inls)
          (by simp) hdig (by decide)), hscan]
  | blockquote inls =>
    obtain ⟨_, hscan⟩ := hb
    show parseLines (('>' :: ' ' :: renderInlines inls) :: R) = _
    rw [parseLines_cons_quote _ _ (renderInlines inls) (by rfl) (by rfl)
      (by rfl) (hrMatch_head_false _ _ (by decide))
      (taskMatch_none_head _ _ (by decide))
      (bulletMatch_none_head _ _ (by decide))
      (orderedMatch_none_head _ _ (by decide)) (by rfl), hscan]
  | hrule =>
    show parseLines (['-', '-', '-'] :: R) = _
    rw [parseLines_cons_hr _ _ (by decide) (by decide) (by decide) (by decide)]
  | code lang content =>
    obtain ⟨_, hfree⟩ := hb
    show parseLines ((('`' :: '`' :: '`' :: lang) ::
      (splitLines content ++ [['`', '`', '`']])) ++ R) = _
    rw [List.cons_append, List.append_assoc, List.singleton_append]
    have hta := takeWhile_append_all (fun x => !isFenceLine x)
      (splitLines content) ['`', '`', '`'] R
      (fun x hx => by simp [hfree x hx]) (by simp [isFenceLine, List.isPrefixOf])
    rw [parseLines_cons_fence _ _ (by simp [isBlankLine, wsChar])
      (by simp [isFenceLine, List.isPrefixOf]), hta.1, hta.2]
    have hdrop3 : ('`' :: '`' :: '`' :: lang).drop 3 = lang := rfl
    rw [hdrop3, List.drop_one, List.tail_cons, joinLines_splitLines,
      stripTrailingNL_append_nl]

/-- Reparsing the canonical serialization of a canonical document
reconstructs the document (round-trip stability on parse images). -/
theorem parseLines_docLines (bs : List Block) (h : ∀ b ∈ bs, CanonBlock b) :
    parseLines (docLines bs) = bs := by
  induction bs with
  | nil => rfl
  | cons b bs ih =>
    cases bs with
    | nil =>
      show parseLines (blockLines b) = [b]
      rw [← List.append_nil (blockLines b),
        parseLines_block_append b [] (h b (List.mem_cons_self _ _))]
      rfl
    | cons b2 bs2 =>
      rw [docLines_cons _ _ (by simp),
        parseLines_block_append b _ (h b (List.mem_cons_self _ _)),
        parseLines_cons_blank [] _ (by rfl),
        ih (fun x hx => h x (List.mem_cons_of_mem _ hx))]

theorem parse_serialize_canon (bs : List Block) (h : ∀ b ∈ bs, CanonBlock b) :
    parse (serialize bs) = bs := by
  cases hbs : bs with
  | nil => rfl
  | cons b bs2 =>
    subst hbs
    rw [parse, serialize,
      splitLines_joinLines (docLines (b :: bs2)) (docLines_ne_nil _ (by simp))
        (noNL_docLines _ h),
      parseLines_docLines _ h]

/-- One parse/serialize pass reaches a fixed point of `parse`. -/
theorem parse_serialize_parse (m : List Char) :
    parse (serialize (parse m)) = parse m :=
  parse_serialize_canon (parse m) (canon_parse m)

/-! ### Claims about the converter -/

/-- Claim C1: for every markdown string `m`, `serialize (parse m)` is a
fixed point of a second parse/serialize cycle:
`serialize (parse (serialize (parse m))) = serialize (parse m)`. -/
theorem c1_serialize_parse_idempotent (m : List Char) :
    serialize (parse (serialize (parse m))) = serialize (parse m) := by
  rw [parse_serialize_parse]

/-- Claim C2: the round trip of `"See [[Project Alpha|Alpha]] for
details."` is the identical string, and in general a wiki-link inline
entity serializes to `[[target]]` when no label is present and to
`[[target|label]]` when a label is present (and different from the
target), verbatim, with no whitespace or escaping changes. -/
theorem c2_wiki_link_fidelity :
    serialize (parse ("See [[Project Alpha|Alpha]] for details.".toList)) =
      "See [[Project Alpha|Alpha]] for details.".toList ∧
    (∀ target : List Char,
      renderInline (Inline.wiki target) = '[' :: '[' :: (target ++ [']', ']'])) ∧
    (∀ target label : List Char, label ≠ target →
      renderInline (Inline.wiki (target ++ '|' :: label)) =
        '[' :: '[' :: (target ++ '|' :: (label ++ [']', ']']))) := by
  refine ⟨by decide, fun target => rfl, fun target label _ => ?_⟩
  rw [renderInline]
  simp

theorem c2_wiki_link_fidelity_witness :
    ("Alpha".toList ≠ "Project Alpha".toList) ∧
    renderInline (Inline.wiki ("Project Alpha".toList ++ '|' :: "Alpha".toList)) =
      '[' :: '[' :: ("Project Alpha".toList ++ '|' :: ("Alpha".toList ++ [']', ']'])) :=
  ⟨by decide, c2_wiki_link_fidelity.2.2 ("Project Alpha".toList) ("Alpha".toList) (by decide)⟩

/-- Claim C5: the redundant trailing newline the markdown parser leaves in
code-block content is stripped before document construction
(`stripTrailingNL`), parsing a python code fence yields a code block
tagged `python` containing exactly `print(1)` with no trailing blank
line, and re-serializing reproduces the same fence. -/
theorem c5_code_fence_normalization :
    stripTrailingNL ("print(1)\n".toList) = "print(1)".toList ∧
    parse ("```python\nprint(1)\n```".toList) =
      [Block.code ("python".toList) ("print(1)".toList)] ∧
    serialize [Block.code ("python".toList) ("print(1)".toList)] =
      "```python\nprint(1)\n```".toList :=
  ⟨by decide, by decide, by decide⟩

/-! ### The live-formatting Enter handler

Embedded from the source `DelayedMarkdown` extension's Enter shortcut
(TiptapEditor.tsx).  The handler is modelled on its paragraph path: the
source first returns control to the default handler when the cursor's
block is a code block or any non-paragraph node.  The editor-state
effects (Tiptap chains) are modelled as pure document transformations:
the current paragraph is the last block, and default Enter appends a new
empty paragraph after it. -/

/-- Word characters of the regex class `\w`. -/
def isWordChar (c : Char) : Bool := c.isAlphanum || c == '_'

/-- First character is whitespace. -/
def headWs : List Char → Bool
  | c :: _ => wsChar c
  | [] => false

/-- The code-fence open pattern of the Enter handler's regex
`^\x60\x60\x60(\w*)$` (triple backtick plus word characters to the end of
the line), returning the captured language. -/
def codeFenceMatch (t : List Char) : Option (List Char) :=
  match t with
  | c0 :: c1 :: c2 :: rest =>
    if c0 = '`' ∧ c1 = '`' ∧ c2 = '`' ∧ rest.all isWordChar then some rest else none
  | _ => none

/-- The inline trigger characters of the fast-path guard regex. -/
def triggerChars : List Char := ['*', '_', '~', '`', '!', '[', ']']

/-- The line-initial block-marker alternative of the fast-path guard
regex: one to six `#`, or `-`, or digits plus a dot, or `>`, each
followed by a whitespace character, anchored at the start of the line. -/
def startMarker (t : List Char) : Bool :=
  (decide (1 ≤ (t.takeWhile (fun c => c == '#')).length ∧
      (t.takeWhile (fun c => c == '#')).length ≤ 6) &&
    headWs (t.drop (t.takeWhile (fun c => c == '#')).length))
  || (match t with
      | c :: rest => (c == '-' || c == '>') && headWs rest
      | [] => false)
  || (decide (t.takeWhile Char.isDigit ≠ []) &&
      (match t.drop (t.takeWhile Char.isDigit).length with
       | c :: rest => c == '.' && headWs rest
       | [] => false))

/-- Guard of the Enter handler: the line contains a markdown trigger
character or starts with a block marker. -/
def isMarkdownLine (t : List Char) : Bool :=
  t.any (fun c => c == '*' || c == '_' || c == '~' || c == '`' ||
    c == '!' || c == '[' || c == ']') || startMarker t

/-- The Enter handler on a plain paragraph whose inline content is
`inls`, with `pre` the blocks before it.  Mirrors the source's order:
task pattern, code-fence pattern, empty line, fast-path guard, and
otherwise a per-line parse (inserted content modelled through the
spec-modelled converter). -/
def enterOnParagraph (pre : List Block) (inls : List Inline) : List Block :=
  let text := renderInlines inls
  match taskMatch text with
  | some (f, rest) =>
    pre ++ [Block.taskItem (f.toLower == 'x')
      (if rest = [] then [] else [Inline.text rest]), Block.para []]
  | none =>
    match codeFenceMatch text with
    | some lang => pre ++ [Block.code lang []]
    | none =>
      if isBlankLine text then pre ++ [Block.para inls, Block.para []]
      else if !isMarkdownLine text then pre ++ [Block.para inls, Block.para []]
      else
        match parse text with
        | [b] => pre ++ [b, Block.para []]
        | _ => pre ++ [Block.para inls, Block.para []]

theorem codeFenceMatch_mem (t : List Char) (lang : List Char)
    (h : codeFenceMatch t = some lang) : '`' ∈ t := by
  rw [codeFenceMatch.eq_def] at h
  split at h
  · rename_i c0 c1 c2 rest
    split at h
    · rename_i hcond
      rw [hcond.1]
      simp
    · exact absurd h (by simp)
  · exact absurd h (by simp)

/-- Claim C4: pressing Enter on a non-empty plain paragraph containing no
trigger character (`*`, `_`, `~`, backtick, `!`, `[`, `]`) and no
line-initial block marker (`#`x1..6, `-`, digits plus dot, `>`, each
followed by a space) performs no transformation: the paragraph's node
type and inline content are unchanged and only a new empty paragraph is
appended. -/
theorem c4_fast_path_guard (pre : List Block) (inls : List Inline)
    (h1 : renderInlines inls ≠ [])
    (h2 : ∀ c ∈ renderInlines inls, c ∉ triggerChars)
    (h3 : startMarker (renderInlines inls) = false) :
    enterOnParagraph pre inls = pre ++ [Block.para inls, Block.para []] := by
  rw [enterOnParagraph]
  have htask : taskMatch (renderInlines inls) = none := by
    cases ht : taskMatch (renderInlines inls) with
    | none => rfl
    | some fr =>
      have := taskMatch_mem _ fr.1 fr.2 (by rw [ht])
      exact absurd this (by intro hm; exact h2 _ hm (by simp [triggerChars]))
  have hfence : codeFenceMatch (renderInlines inls) = none := by
    cases hf : codeFenceMatch (renderInlines inls) with
    | none => rfl
    | some lang =>
      have := codeFenceMatch_mem _ lang hf
      exact absurd this (by intro hm; exact h2 _ hm (by simp [triggerChars]))
  rw [htask, hfence]
  by_cases hblank : isBlankLine (renderInlines inls)
  · rw [if_pos hblank]
  · rw [if_neg hblank]
    have hmd : isMarkdownLine (renderInlines inls) = false := by
      rw [isMarkdownLine, h3]
      simp only [Bool.or_false]
      rw [List.any_eq_false]
      intro c hc
      have h4 := h2 c hc
      simp only [triggerChars, List.mem_cons, List.not_mem_nil, or_false] at h4
      push_neg at h4
      obtain ⟨n1, n2, n3, n4, n5, n6, n7⟩ := h4
      simp [n1, n2, n3, n4, n5, n6, n7]
    rw [hmd]
    rfl

theorem c4_fast_path_guard_witness :
    (renderInlines [Inline.text ("plain sentence".toList)] ≠ [] ∧
      (∀ c ∈ renderInlines [Inline.text ("plain sentence".toList)], c ∉ triggerChars) ∧
      startMarker (renderInlines [Inline.text ("plain sentence".toList)]) = false) ∧
    enterOnParagraph [] [Inline.text ("plain sentence".toList)] =
      [Block.para [Inline.text ("plain sentence".toList)], Block.para []] := by
  refine ⟨⟨by decide, by decide, by decide⟩, ?_⟩
  have h := c4_fast_path_guard [] [Inline.text ("plain sentence".toList)]
    (by decide) (by decide) (by decide)
  simpa using h

/-! ### The content synchronization controller

Embedded from the source content sync effect of `TiptapEditor`: on an
external content change, if the incoming markdown is truthy (non-empty),
the current document's serialized markdown is compared against it and a
full reparse-and-replace happens exactly when the editor is empty or the
length difference exceeds the drift tolerance of 5. -/

/-- Tiptap's `editor.isEmpty`: a document with no content (a single empty
paragraph, or no blocks at all in this model). -/
def editorIsEmpty (st : List Block) : Bool :=
  decide (st = [] ∨ st = [Block.para []])

/-- Absolute difference of two lengths, modelling `Math.abs` of the
length difference. -/
def absDiff (a b : Nat) : Nat := (a - b) + (b - a)

/-- The content sync effect as a document transformation: returns the new
structured document given the current one and the incoming authoritative
markdown.  The outer `if` models the source's truthiness guard
`if (editor && content)`; the reset re-parses the incoming markdown
through the converter pipeline. -/
def syncContent (st : List Block) (content : List Char) : List Block :=
  if content = [] then st
  else if editorIsEmpty st ||
      decide (absDiff (serialize st).length content.length > 5) then
    parse content
  else st

/-- Modelled from the spec: the claim's decision rule, amended with the
non-empty incoming-content condition that the code's truthiness guard
imposes. -/
def amendedResetRule (docEmpty : Bool) (curLen incomingLen : Nat) : Bool :=
  decide (incomingLen ≠ 0) && (docEmpty || decide (absDiff curLen incomingLen > 5))

/-- Claim C6 counterexample: with a non-empty document whose serialized
markdown has length 8 and an incoming empty string, the claim's decision
rule (document empty or length difference above the threshold) holds, yet
the code performs no reset and the document differs from the reparse the
claim requires. -/
theorem c6_sync_counterexample :
    syncContent [Block.para [Inline.text ("abcdefgh".toList)]] [] =
      [Block.para [Inline.text ("abcdefgh".toList)]] ∧
    (editorIsEmpty [Block.para [Inline.text ("abcdefgh".toList)]] = true ∨
      absDiff (serialize [Block.para [Inline.text ("abcdefgh".toList)]]).length
        ([] : List Char).length > 5) ∧
    parse [] ≠ [Block.para [Inline.text ("abcdefgh".toList)]] :=
  ⟨by decide, by decide, by decide⟩

/-- Claim C6 (amended): the sync effect forces a full reparse-and-replace
exactly when the incoming markdown is non-empty and (the structured
document is empty or the absolute serialized-length difference exceeds
the fixed threshold 5); otherwise the document is left untouched. -/
theorem c6_sync_decision_amended (st : List Block) (content : List Char) :
    syncContent st content =
      if amendedResetRule (editorIsEmpty st) (serialize st).length content.length
      then parse content else st := by
  rw [syncContent, amendedResetRule]
  by_cases hc : content = []
  · subst hc
    simp
  · rw [if_neg hc]
    have hlen : content.length ≠ 0 := fun h => hc (List.length_eq_zero.mp h)
    simp only [hlen, decide_True, Bool.true_and, decide_not]
    by_cases hr : (editorIsEmpty st ||
        decide (absDiff (serialize st).length content.length > 5)) = true
    · rw [if_pos hr, if_pos (by simpa using hr)]
    · rw [if_neg hr, if_neg (by simpa using hr)]

/-- Claim C10: when the incoming authoritative markdown is the empty
string, the sync effect performs no reset at all — the structured
document is returned unchanged however far it has drifted, because the
effect body is guarded on the content being truthy. -/
theorem c10_empty_content_no_reset (st : List Block) : syncContent st [] = st := by
  rw [syncContent]
  simp

/-! ### Graph extraction and backlinks (src/utils/graphUtils.ts) -/

/-- A note record (id, title, markdown content, optional folder). -/
structure Note where
  id : List Char
  title : List Char
  content : List Char
  folderId : Option (List Char)
deriving DecidableEq

/-- A folder record (id, name, optional parent). -/
structure Folder where
  id : List Char
  name : List Char
  parentId : Option (List Char)
deriving DecidableEq

/-- A graph node of the extracted graph data. -/
structure GNode where
  id : List Char
  title : List Char
  group : Nat
deriving DecidableEq

/-- A directed graph edge with a weight. -/
structure GLink where
  source : List Char
  target : List Char
  value : Nat
deriving DecidableEq

/-- The extracted graph snapshot. -/
structure GraphData where
  nodes : List GNode
  links : List GLink
deriving DecidableEq

/-- All captured groups of the global wiki-link regex over a text, in
order (the `while (match = wikiLinkRegex.exec(...))` loop of
`generateGraphData`), with fuel. -/
def wikiMatchesF : Nat → List Char → List (List Char)
  | 0, _ => []
  | fuel + 1, s =>
    match findWiki s with
    | none => []
    | some (_, i, q) => i :: wikiMatchesF fuel q

/-- All captured wiki-link groups of a text. -/
def wikiMatches (s : List Char) : List (List Char) :=
  wikiMatchesF s.length s

/-- The note-title-to-id map lookup (`noteTitleToIdMap`); as with a JS
`Map` built from a list of pairs, the last note with a given lowercased
title wins. -/
def titleToId (notes : List Note) (key : List Char) : Option (List Char) :=
  (notes.reverse.find? (fun n => lowerL n.title == key)).map (fun n => n.id)

/-- The links contributed by one source note: each wiki match is split at
the first bar, trimmed, lowercased and resolved; resolvable targets other
than the note itself yield an edge of value 1. -/
def linksOfNote (notes : List Note) (src : Note) : List GLink :=
  (wikiMatches src.content).filterMap (fun m =>
    match titleToId notes (lowerL (trimL (m.takeWhile (fun c => c != '|')))) with
    | some targetId =>
      if targetId = src.id then none else some ⟨src.id, targetId, 1⟩
    | none => none)

/-- All raw links of the corpus, before deduplication. -/
def generateLinks (notes : List Note) : List GLink :=
  notes.flatMap (linksOfNote notes)

/-- Keep the first occurrence of each (source, target) pair — the
`filter`/`findIndex` deduplication of `generateGraphData` — with fuel. -/
def dedupLinksF : Nat → List GLink → List GLink
  | 0, _ => []
  | _ + 1, [] => []
  | fuel + 1, l :: ls =>
    l :: dedupLinksF fuel
      (ls.filter (fun x => !(x.source == l.source && x.target == l.target)))

/-- Deduplicate links on the (source, target) pair, keeping first
occurrences. -/
def dedupLinks (ls : List GLink) : List GLink :=
  dedupLinksF ls.length ls

/-- Group of a folder id: its index in the folder list plus 2 (the
`folderToGroupMap`); as with a JS `Map`, a later duplicate id wins. -/
def folderGroup (folders : List Folder) (fid : List Char) : Option Nat :=
  (folders.enum.reverse.find? (fun p => p.2.id == fid)).map (fun p => p.1 + 2)

/-- The graph extraction `generateGraphData`. -/
def generateGraphData (notes : List Note) (folders : List Folder) : GraphData :=
  { nodes := notes.map (fun n =>
      { id := n.id
        title := n.title
        group :=
          match n.folderId with
          | none => 1
          | some fid =>
            match folderGroup folders fid with
            | some g => g
            | none => 1 })
    links := dedupLinks (generateLinks notes) }

theorem dedupLinksF_subset (fuel : Nat) :
    ∀ ls : List GLink, dedupLinksF fuel ls ⊆ ls := by
  induction fuel with
  | zero => intro ls x hx; rw [dedupLinksF] at hx; simp at hx
  | succ fuel ih =>
    intro ls x hx
    cases ls with
    | nil => rw [dedupLinksF] at hx; simp at hx
    | cons l ls =>
      rw [dedupLinksF] at hx
      rcases List.mem_cons.mp hx with h | h
      · rw [h]; exact List.mem_cons_self _ _
      · exact List.mem_cons_of_mem _ (List.mem_of_mem_filter (ih _ h))

theorem dedupLinksF_pairwise (fuel : Nat) :
    ∀ ls : List GLink, List.Pairwise
      (fun a b => ¬(a.source = b.source ∧ a.target = b.target))
      (dedupLinksF fuel ls) := by
  induction fuel with
  | zero => intro ls; rw [dedupLinksF]; exact List.Pairwise.nil
  | succ fuel ih =>
    intro ls
    cases ls with
    | nil => rw [dedupLinksF]; exact List.Pairwise.nil
    | cons l ls =>
      rw [dedupLinksF]
      refine List.Pairwise.cons ?_ (ih _)
      intro b hb
      have hbf := dedupLinksF_subset fuel _ hb
      have := List.of_mem_filter hbf
      intro hab
      rw [← hab.1, ← hab.2] at this
      simp at this

theorem mem_generateLinks (notes : List Note) (l : GLink)
    (h : l ∈ generateLinks notes) : l.value = 1 ∧ l.source ≠ l.target := by
  rw [generateLinks, List.mem_flatMap] at h
  obtain ⟨src, _, hl⟩ := h
  rw [linksOfNote, List.mem_filterMap] at hl
  obtain ⟨m, _, hm⟩ := hl
  revert hm
  cases titleToId notes (lowerL (trimL (m.takeWhile (fun c => c != '|')))) with
  | none => intro hm; exact absurd hm (by simp)
  | some targetId =>
    intro hm
    have hm2 : (if targetId = src.id then none
        else some (⟨src.id, targetId, 1⟩ : GLink)) = some l := hm
    by_cases he : targetId = src.id
    · rw [if_pos he] at hm2
      exact absurd hm2 (by simp)
    · rw [if_neg he] at hm2
      injection hm2 with hm2
      rw [← hm2]
      exact ⟨rfl, fun hst => he (by simpa using hst.symm)⟩

/-- The note A of the concrete graph-dedup example. -/
def exampleNoteA : Note :=
  { id := "a".toList, title := "A".toList,
    content := "[[B]] and [[B]] again".toList, folderId := none }

/-- The note B of the concrete graph-dedup example. -/
def exampleNoteB : Note :=
  { id := "b".toList, title := "B".toList, content := [], folderId := none }

/-- Claim C7: the extracted graph has at most one link per ordered
(source, target) pair, every link has value exactly 1, no link is a
self-edge, and for the corpus A (content `[[B]] and [[B]] again`) and B
the links are exactly one edge from A to B with value 1. -/
theorem c7_graph_edge_dedup (notes : List Note) (folders : List Folder) :
    List.Pairwise (fun a b => ¬(a.source = b.source ∧ a.target = b.target))
      (generateGraphData notes folders).links ∧
    (∀ l ∈ (generateGraphData notes folders).links,
      l.value = 1 ∧ l.source ≠ l.target) ∧
    (generateGraphData [exampleNoteA, exampleNoteB] []).links =
      [⟨"a".toList, "b".toList, 1⟩] := by
  refine ⟨dedupLinksF_pairwise _ _, ?_, by decide⟩
  intro l hl
  exact mem_generateLinks notes l (dedupLinksF_subset _ _ hl)

/-- The backlink computation `getBacklinks`: the notes other than the
target whose lowercased content contains `[[title]]` or `[[title|` with
the lowercased target title (plain substring check). -/
def getBacklinks (notes : List Note) (targetId : List Char) : List Note :=
  match notes.find? (fun n => n.id == targetId) with
  | none => []
  | some targetNote =>
    notes.filter (fun n =>
      !(n.id == targetId) &&
      (includesL (lowerL n.content)
          ('[' :: '[' :: (lowerL targetNote.title ++ [']', ']'])) ||
       includesL (lowerL n.content)
          ('[' :: '[' :: (lowerL targetNote.title ++ ['|']))))

theorem lowerL_append (a b : List Char) :
    lowerL (a ++ b) = lowerL a ++ lowerL b := by
  simp [lowerL]

/-- Claim C8: for a target note A (the first note carrying its id), the
computed backlinks are exactly the notes B distinct from A whose content,
compared case-insensitively, contains the substring `[[` ++ A.title ++
`]]` or the substring `[[` ++ A.title ++ `|`. -/
theorem c8_backlinks (notes : List Note) (A B : Note)
    (h : notes.find? (fun n => n.id == A.id) = some A) :
    B ∈ getBacklinks notes A.id ↔
      B ∈ notes ∧ B.id ≠ A.id ∧
        (includesL (lowerL B.content)
            (lowerL ('[' :: '[' :: (A.title ++ [']', ']']))) = true ∨
         includesL (lowerL B.content)
            (lowerL ('[' :: '[' :: (A.title ++ ['|']))) = true) := by
  have hpat1 : lowerL ('[' :: '[' :: (A.title ++ [']', ']'])) =
      '[' :: '[' :: (lowerL A.title ++ [']', ']']) := by
    have h1 : Char.toLower '[' = '[' := by decide
    have h2 : Char.toLower ']' = ']' := by decide
    simp [lowerL, h1, h2]
  have hpat2 : lowerL ('[' :: '[' :: (A.title ++ ['|'])) =
      '[' :: '[' :: (lowerL A.title ++ ['|']) := by
    have h1 : Char.toLower '[' = '[' := by decide
    have h2 : Char.toLower '|' = '|' := by decide
    simp [lowerL, h1, h2]
  rw [getBacklinks, h, List.mem_filter, hpat1, hpat2]
  constructor
  · rintro ⟨hmem, hp⟩
    simp only [Bool.and_eq_true, Bool.or_eq_true, Bool.not_eq_true'] at hp
    refine ⟨hmem, ?_, ?_⟩
    · intro he
      rw [he] at hp
      simp at hp
    · exact hp.2
  · rintro ⟨hmem, hne, hor⟩
    refine ⟨hmem, ?_⟩
    simp only [Bool.and_eq_true, Bool.or_eq_true, Bool.not_eq_true']
    exact ⟨by simpa using hne, hor⟩

/-- The target note of the concrete backlink example. -/
def backlinkNoteA : Note :=
  { id := "a".toList, title := "Alpha".toList, content := [], folderId := none }

/-- The referencing note of the concrete backlink example. -/
def backlinkNoteB : Note :=
  { id := "b".toList, title := "Beta".toList,
    content := "see [[alpha]]".toList, folderId := none }

theorem c8_backlinks_witness :
    ([backlinkNoteA, backlinkNoteB].find? (fun n => n.id == backlinkNoteA.id) =
      some backlinkNoteA) ∧
    backlinkNoteB ∈ getBacklinks [backlinkNoteA, backlinkNoteB] backlinkNoteA.id := by
  refine ⟨by decide, ?_⟩
  rw [c8_backlinks [backlinkNoteA, backlinkNoteB] backlinkNoteA backlinkNoteB (by decide)]
  refine ⟨by decide, by decide, Or.inl (by decide)⟩

/-! ### Folder moves and the cycle-free parent chain (handleMoveFolder) -/

/-- The parent of a folder id:
`folders.find((f) => f.id === current)?.parentId`. -/
def parentOf (folders : List Folder) (i : List Char) : Option (List Char) :=
  (folders.find? (fun f => f.id == i)).bind (fun f => f.parentId)

/-- The `while (current)` ancestor walk of `handleMoveFolder`, with fuel:
whether the parent chain starting at the given value reaches `folderId`.
The JS loop is unbounded; under the cycle-free invariant it terminates
within `folders.length + 1` iterations, which is the fuel
`handleMoveFolder` supplies.  The walk stops at a falsy current value
(`undefined`, modelled `none`, or the empty string). -/
def walkHits (folders : List Folder) (folderId : List Char) :
    Nat → Option (List Char) → Bool
  | _, none => false
  | 0, some _ => false
  | fuel + 1, some c =>
    if c = [] then false
    else if c = folderId then true
    else walkHits folders folderId fuel (parentOf folders c)

/-- The state update of `handleMoveFolder`: re-point the parent of the
folder with the given id (`setFolders` mapping over the previous list). -/
def updateParent (folders : List Folder) (folderId : List Char)
    (targetParentId : Option (List Char)) : List Folder :=
  folders.map (fun f =>
    if f.id == folderId then { f with parentId := targetParentId } else f)

/-- The folder move handler `handleMoveFolder`: a move that would make
the folder a descendant of itself is rejected (the state is returned
unchanged); otherwise the folder's `parentId` is re-pointed at the
target. -/
def handleMoveFolder (folders : List Folder) (folderId : List Char)
    (targetParentId : Option (List Char)) : List Folder :=
  if targetParentId = some folderId then folders
  else if walkHits folders folderId (folders.length + 1) targetParentId then folders
  else updateParent folders folderId targetParentId

/-- n-fold iteration of the parent map. -/
def iterP (folders : List Folder) : Nat → List Char → Option (List Char)
  | 0, x => some x
  | n + 1, x =>
    match parentOf folders x with
    | none => none
    | some y => iterP folders n y

theorem iterP_succ (folders : List Folder) (n : Nat) (x : List Char) :
    iterP folders (n + 1) x =
      match parentOf folders x with
      | none => none
      | some y => iterP folders n y := rfl

/-- No folder id is its own proper ancestor. -/
def Acyclic (folders : List Folder) : Prop :=
  ∀ x n, 0 < n → iterP folders n x ≠ some x

/-- Every folder id is non-empty (ids are generated as non-empty random
strings; the empty string would be falsy in the walk's loop guard). -/
def NonemptyIds (folders : List Folder) : Prop :=
  ∀ f ∈ folders, f.id ≠ []

theorem iterP_add (folders : List Folder) (a b : Nat) :
    ∀ x, iterP folders (a + b) x =
      match iterP folders a x with
      | none => none
      | some y => iterP folders b y := by
  induction a with
  | zero =>
    intro x
    rw [Nat.zero_add]
    rfl
  | succ a ih =>
    intro x
    rw [Nat.succ_add, iterP_succ, iterP_succ]
    cases parentOf folders x with
    | none => rfl
    | some y => exact ih y

theorem iterP_some_of_le (folders : List Folder) (n m : Nat) (x v : List Char)
    (h : iterP folders n x = some v) (hm : m ≤ n) :
    ∃ u, iterP folders m x = some u := by
  have hsplit := iterP_add folders m (n - m) x
  rw [Nat.add_sub_cancel' hm] at hsplit
  rw [h] at hsplit
  cases hu : iterP folders m x with
  | none => rw [hu] at hsplit; exact absurd hsplit.symm (by simp)
  | some u => exact ⟨u, rfl⟩

theorem parentOf_mem_ids (folders : List Folder) (x y : List Char)
    (h : parentOf folders x = some y) : x ∈ folders.map (fun f => f.id) := by
  rw [parentOf] at h
  cases hf : folders.find? (fun f => f.id == x) with
  | none => rw [hf] at h; exact absurd h (by simp)
  | some f =>
    have hmem := List.mem_of_find?_eq_some hf
    have hid : f.id = x := by simpa using List.find?_some hf
    exact List.mem_map.mpr ⟨f, hmem, hid⟩

theorem iterP_inj (folders : List Folder) (hac : Acyclic folders)
    (x : List Char) (i j : Nat) (hij : i < j)
    (hi : (iterP folders i x).isSome) (he : iterP folders i x = iterP folders j x) :
    False := by
  obtain ⟨u, hu⟩ := Option.isSome_iff_exists.mp hi
  have hsplit := iterP_add folders i (j - i) x
  rw [Nat.add_sub_cancel' (le_of_lt hij)] at hsplit
  rw [← he, hu] at hsplit
  exact hac u (j - i) (by omega) hsplit.symm

/-- Under acyclicity, a defined n-step iteration forces n to be at most
the number of folders: the nodes visited before the last step are
pairwise distinct folder ids. -/
theorem iterP_bound (folders : List Folder) (hac : Acyclic folders)
    (n : Nat) (x v : List Char) (h : iterP folders n x = some v) :
    n ≤ folders.length := by
  classical
  set L := (List.range n).map (fun i => (iterP folders i x).getD []) with hL
  have hsome : ∀ i, i < n → (iterP folders i x).isSome := by
    intro i hi
    obtain ⟨u, hu⟩ := iterP_some_of_le folders n i x v h (le_of_lt hi)
    rw [hu]; rfl
  have hnd : L.Nodup := by
    refine List.Nodup.map_on ?_ (List.nodup_range n)
    intro i hi j hj hf
    rw [List.mem_range] at hi hj
    rcases Nat.lt_trichotomy i j with hlt | heq | hgt
    · obtain ⟨u, hu⟩ := Option.isSome_iff_exists.mp (hsome i hi)
      obtain ⟨w, hw⟩ := Option.isSome_iff_exists.mp (hsome j hj)
      rw [hu, hw] at hf
      simp only [Option.getD_some] at hf
      exact (iterP_inj folders hac x i j hlt (by rw [hu]; rfl)
        (by rw [hu, hw, hf])).elim
    · exact heq
    · obtain ⟨u, hu⟩ := Option.isSome_iff_exists.mp (hsome i hi)
      obtain ⟨w, hw⟩ := Option.isSome_iff_exists.mp (hsome j hj)
      rw [hu, hw] at hf
      simp only [Option.getD_some] at hf
      exact (iterP_inj folders hac x j i hgt (by rw [hw]; rfl)
        (by rw [hw, hu, hf])).elim
  have hsub : ∀ a ∈ L, a ∈ folders.map (fun f => f.id) := by
    intro a ha
    rw [hL, List.mem_map] at ha
    obtain ⟨i, hi, hai⟩ := ha
    rw [List.mem_range] at hi
    obtain ⟨u, hu⟩ := Option.isSome_iff_exists.mp (hsome i hi)
    obtain ⟨w, hw⟩ := iterP_some_of_le folders n (i + 1) x v h (by omega)
    have hpar : parentOf folders u ≠ none := by
      have hsplit := iterP_add folders i 1 x
      rw [hw, hu] at hsplit
      intro hp
      have h1 : iterP folders 1 u = none := by
        show (match parentOf folders u with
          | none => none
          | some y => iterP folders 0 y) = none
        rw [hp]
      have hsplit2 : some w = iterP folders 1 u := hsplit
      rw [h1] at hsplit2
      exact absurd hsplit2 (by simp)
    obtain ⟨y, hy⟩ := Option.ne_none_iff_exists'.mp hpar
    have := parentOf_mem_ids folders u y hy
    rw [← hai, hu]
    simpa using this
  have hcard : L.toFinset.card = n := by
    rw [List.toFinset_card_of_nodup hnd, hL]
    simp
  have hsubF : L.toFinset ⊆ (folders.map (fun f => f.id)).toFinset := by
    intro a ha
    rw [List.mem_toFinset] at ha
    rw [List.mem_toFinset]
    exact hsub a ha
  have := Finset.card_le_card hsubF
  have hle := le_trans this (List.toFinset_card_le _)
  rw [hcard] at hle
  simpa using hle

theorem mem_ids_ne_nil (folders : List Folder) (hne : NonemptyIds folders)
    (x : List Char) (hx : x ∈ folders.map (fun f => f.id)) : x ≠ [] := by
  obtain ⟨f, hf, hfx⟩ := List.mem_map.mp hx
  rw [← hfx]
  exact hne f hf

/-- The walk finds the folder when the parent chain genuinely reaches it
(non-empty ids keep the loop guard truthy, acyclicity bounds the chain
within the fuel). -/
theorem walkHits_of_iterP (folders : List Folder) (fid : List Char)
    (hne : NonemptyIds folders) (hfid : fid ≠ []) :
    ∀ (n : Nat) (t : List Char) (fuel : Nat), iterP folders n t = some fid →
      n < fuel → walkHits folders fid fuel (some t) = true := by
  intro n
  induction n with
  | zero =>
    intro t fuel h hfuel
    have ht : t = fid := by simpa [iterP] using h
    subst ht
    cases fuel with
    | zero => omega
    | succ fuel =>
      rw [walkHits, if_neg (by simpa using hfid), if_pos rfl]
  | succ n ih =>
    intro t fuel h hfuel
    rw [iterP_succ] at h
    cases hp : parentOf folders t with
    | none => rw [hp] at h; exact absurd h (by simp)
    | some y =>
      rw [hp] at h
      have htid : t ∈ folders.map (fun f => f.id) := parentOf_mem_ids folders t y hp
      have htne : t ≠ [] := mem_ids_ne_nil folders hne t htid
      cases fuel with
      | zero => omega
      | succ fuel =>
        rw [walkHits, if_neg (by simpa using htne)]
        by_cases htfid : t = fid
        · rw [if_pos htfid]
        · rw [if_neg htfid, hp]
          exact ih y fuel h (by omega)

theorem parentOf_update (folders : List Folder) (fid : List Char)
    (tgt : Option (List Char)) (i : List Char) :
    parentOf (updateParent folders fid tgt) i =
      match folders.find? (fun f => f.id == i) with
      | none => none
      | some f => if f.id == fid then tgt else f.parentId := by
  rw [updateParent]
  induction folders with
  | nil => rfl
  | cons f fs ih =>
    by_cases hfi : f.id = i
    · have hgid : (if f.id == fid then { f with parentId := tgt } else f).id = f.id := by
        by_cases hql : f.id = fid
        · simp [hql]
        · simp [hql]
      rw [List.map_cons, parentOf, List.find?_cons_of_pos _ (by rw [hgid]; simp [hfi]),
        List.find?_cons_of_pos _ (by simp [hfi])]
      by_cases hql : f.id = fid
      · simp [hql]
      · simp [hql]
    · have hgid : (if f.id == fid then { f with parentId := tgt } else f).id = f.id := by
        by_cases hql : f.id = fid
        · simp [hql]
        · simp [hql]
      rw [List.map_cons, parentOf, List.find?_cons_of_neg _ (by rw [hgid]; simp [hfi]),
        List.find?_cons_of_neg _ (by simp [hfi])]
      rw [← ih, parentOf]

theorem parentOf_update_ne (folders : List Folder) (fid : List Char)
    (tgt : Option (List Char)) (i : List Char) (hi : i ≠ fid) :
    parentOf (updateParent folders fid tgt) i = parentOf folders i := by
  rw [parentOf_update, parentOf]
  cases hf : folders.find? (fun f => f.id == i) with
  | none => rfl
  | some f =>
    have hid : f.id = i := by simpa using List.find?_some hf
    show (if (f.id == fid) = true then tgt else f.parentId) = (some f).bind (fun f => f.parentId)
    rw [if_neg (by simp [hid, hi])]
    rfl

/-- If a chain in the updated folder corpus never passes through the
moved folder, it is a chain of the original corpus. -/
theorem iterP_update_eq (folders : List Folder) (fid : List Char)
    (tgt : Option (List Char)) :
    ∀ (n : Nat) (x : List Char),
      (∀ k, k < n → iterP (updateParent folders fid tgt) k x ≠ some fid) →
      iterP (updateParent folders fid tgt) n x = iterP folders n x := by
  intro n
  induction n with
  | zero => intro x _; rfl
  | succ n ih =>
    intro x hav
    have hx : x ≠ fid := by
      have h0 := hav 0 (Nat.succ_pos n)
      simpa [iterP] using h0
    rw [iterP_succ, iterP_succ, parentOf_update_ne folders fid tgt x hx]
    cases hp : parentOf folders x with
    | none => rfl
    | some y =>
      refine ih y ?_
      intro k hk
      have := hav (k + 1) (by omega)
      rw [iterP_succ, parentOf_update_ne folders fid tgt x hx, hp] at this
      exact this

theorem nonemptyIds_handleMoveFolder (folders : List Folder) (fid : List Char)
    (tgt : Option (List Char)) (hne : NonemptyIds folders) :
    NonemptyIds (handleMoveFolder folders fid tgt) := by
  rw [handleMoveFolder]
  split
  · exact hne
  · split
    · exact hne
    · intro f' hf'
      rw [updateParent] at hf'
      obtain ⟨f, hf, hff⟩ := List.mem_map.mp hf'
      rw [← hff]
      by_cases hql : f.id = fid
      · simpa [hql] using hne f hf
      · simpa [hql] using hne f hf

/-- One folder move preserves acyclicity of the parent chain. -/
theorem acyclic_handleMoveFolder (folders : List Folder) (fid : List Char)
    (tgt : Option (List Char)) (hne : NonemptyIds folders)
    (hac : Acyclic folders) : Acyclic (handleMoveFolder folders fid tgt) := by
  classical
  by_cases h1 : tgt = some fid
  · rw [handleMoveFolder, if_pos h1]; exact hac
  · by_cases h2 : walkHits folders fid (folders.length + 1) tgt = true
    · rw [handleMoveFolder, if_neg h1, if_pos h2]; exact hac
    · rw [handleMoveFolder, if_neg h1, if_neg (by simpa using h2)]
      intro x n hn heq
      by_cases hk : ∃ k, k ≤ n ∧ iterP (updateParent folders fid tgt) k x = some fid
      · obtain ⟨k, hkn, hkfid⟩ := hk
        -- rotate the cycle so that it starts at the moved folder
        have hback : iterP (updateParent folders fid tgt) (n - k) fid = some x := by
          have hs := iterP_add (updateParent folders fid tgt) k (n - k) x
          rw [Nat.add_sub_cancel' hkn, heq, hkfid] at hs
          exact hs.symm
        have hrot : iterP (updateParent folders fid tgt) n fid = some fid := by
          have hs := iterP_add (updateParent folders fid tgt) (n - k) k fid
          rw [hback] at hs
          have hs2 : iterP (updateParent folders fid tgt) (n - k + k) fid =
              iterP (updateParent folders fid tgt) k x := hs
          rw [hkfid] at hs2
          rw [← Nat.sub_add_cancel hkn]
          exact hs2
        cases n with
        | zero => omega
        | succ m =>
          rw [iterP_succ] at hrot
          cases hp : parentOf (updateParent folders fid tgt) fid with
          | none => rw [hp] at hrot; exact absurd hrot (by simp)
          | some t0 =>
            rw [hp] at hrot
            -- the updated parent of the moved folder is the move target
            have hup := parentOf_update folders fid tgt fid
            cases hfind : folders.find? (fun f => f.id == fid) with
            | none =>
              rw [hfind] at hup
              rw [hup] at hp
              exact absurd hp (by simp)
            | some f =>
              have hfid_id : f.id = fid := by simpa using List.find?_some hfind
              rw [hfind] at hup
              have hup2 : parentOf (updateParent folders fid tgt) fid =
                  if (f.id == fid) = true then tgt else f.parentId := hup
              rw [if_pos (by simp [hfid_id])] at hup2
              rw [hup2] at hp
              -- so the target is the chain head, distinct from the moved folder
              have ht0 : t0 ≠ fid := by
                intro he
                exact h1 (by rw [hp, he])
              have hfid_ne : fid ≠ [] := by
                have := hne f (List.mem_of_find?_eq_some hfind)
                rwa [hfid_id] at this
              -- least index at which the chain from the target reaches fid
              have hex : ∃ j, iterP (updateParent folders fid tgt) j t0 = some fid :=
                ⟨m, hrot⟩
              have hj := Nat.find_spec hex
              have hjmin : ∀ i, i < Nat.find hex →
                  iterP (updateParent folders fid tgt) i t0 ≠ some fid :=
                fun i hi => Nat.find_min hex hi
              have hj0 : Nat.find hex ≠ 0 := by
                intro he
                rw [he] at hj
                exact ht0 (by simpa [iterP] using hj)
              have hold : iterP folders (Nat.find hex) t0 = some fid := by
                rw [← iterP_update_eq folders fid tgt (Nat.find hex) t0 hjmin]
                exact hj
              have hbound : Nat.find hex ≤ folders.length :=
                iterP_bound folders hac (Nat.find hex) t0 fid hold
              have hwalk : walkHits folders fid (folders.length + 1) (some t0) = true :=
                walkHits_of_iterP folders fid hne hfid_ne (Nat.find hex) t0
                  (folders.length + 1) hold (by omega)
              rw [hp] at h2
              exact h2 hwalk
      · push_neg at hk
        have := iterP_update_eq folders fid tgt n x
          (fun k hkn => hk k (le_of_lt hkn))
        rw [this] at heq
        exact hac x n hn heq

theorem acyclic_foldl_moves :
    ∀ (moves : List (List Char × Option (List Char))) (init : List Folder),
      NonemptyIds init → Acyclic init →
      Acyclic (moves.foldl (fun fs mv => handleMoveFolder fs mv.1 mv.2) init) := by
  intro moves
  induction moves with
  | nil => intro init _ h2; exact h2
  | cons mv moves ih =>
    intro init h1 h2
    rw [List.foldl_cons]
    exact ih _ (nonemptyIds_handleMoveFolder _ _ _ h1)
      (acyclic_handleMoveFolder _ _ _ h1 h2)

/-- Claim C9: from a well-formed state (non-empty folder ids, cycle-free
parent chain), a move that would make a folder a descendant of itself
(the target equals the folder, or the target's parent chain passes
through it) is rejected with the folder state left unchanged, and after
every sequence of move operations no folder is its own ancestor. -/
theorem c9_folder_moves (init : List Folder)
    (h1 : NonemptyIds init) (h2 : Acyclic init) :
    (∀ fid tgt, (tgt = some fid ∨
        ∃ t, tgt = some t ∧ ∃ n, 0 < n ∧ iterP init n t = some fid) →
      handleMoveFolder init fid tgt = init) ∧
    (∀ moves : List (List Char × Option (List Char)),
      Acyclic (moves.foldl (fun fs mv => handleMoveFolder fs mv.1 mv.2) init)) := by
  constructor
  · intro fid tgt hcase
    rcases hcase with heq | ⟨t, htgt, n, hn, hchain⟩
    · rw [handleMoveFolder, if_pos heq]
    · subst htgt
      by_cases hfnil : fid = []
      · -- an empty id names no folder, so the update is the identity
        rw [handleMoveFolder]
        split
        · rfl
        · split
          · rfl
          · rw [updateParent]
            have hcong : ∀ f ∈ init,
                (if f.id == fid then { f with parentId := some t } else f) = f := by
              intro f hf
              rw [if_neg (by
                simp only [beq_iff_eq]
                exact fun hc => (h1 f hf) (by rw [hc, hfnil]))]
            rw [List.map_congr_left hcong]
            simp
      · by_cases hteq : t = fid
        · rw [handleMoveFolder, if_pos (by rw [hteq])]
        · have hwalk := walkHits_of_iterP init fid h1 hfnil n t (init.length + 1)
            hchain (by have := iterP_bound init h2 n t fid hchain; omega)
          rw [handleMoveFolder, if_neg (fun hc => hteq (by injection hc)),
            if_pos hwalk]
  · intro moves
    exact acyclic_foldl_moves moves init h1 h2

/-- A single-folder corpus for the move-handler witness. -/
def exampleFolder : Folder :=
  { id := "f1".toList, name := "A".toList, parentId := none }

theorem parentOf_exampleFolder (x : List Char) :
    parentOf [exampleFolder] x = none := by
  rw [parentOf]
  rcases hfind : List.find? (fun f => f.id == x) [exampleFolder] with _ | f
  · rw [hfind]
    rfl
  · have hmem := List.mem_of_find?_eq_some hfind
    rw [hfind, List.mem_singleton.mp hmem]
    rfl

theorem acyclic_exampleFolder : Acyclic [exampleFolder] := by
  intro x n hn h
  cases n with
  | zero => omega
  | succ m =>
    rw [iterP_succ, parentOf_exampleFolder] at h
    exact absurd h (by simp)

theorem c9_folder_moves_witness :
    handleMoveFolder [exampleFolder] ("f1".toList) (some ("f1".toList)) =
      [exampleFolder] ∧
    Acyclic (([(("f2".toList : List Char), some ("f1".toList))] :
        List (List Char × Option (List Char))).foldl
      (fun fs mv => handleMoveFolder fs mv.1 mv.2) [exampleFolder]) := by
  have h := c9_folder_moves [exampleFolder]
    (fun f hf => by rw [List.mem_singleton.mp hf]; decide)
    acyclic_exampleFolder
  exact ⟨h.1 ("f1".toList) (some ("f1".toList)) (Or.inl rfl), h.2 _⟩

end NoteApp
